import Mathlib

/-
Verification of the nested-open-editors tree view.

The development shallowly embeds the tree-construction algorithm of
`NestedOpenEditorsProvider` (`src/nestedOpenEditorsProvider.ts`, with the
drag-and-drop variant in the unnamed provider file), the flat node index,
`getParent` / `findItemByUri`, the per-item drop decision of `handleDrop`,
and the reveal/debounce controller of `extension.ts`.

Paths are the `uri.fsPath` strings of the source, kept as strings so that
the string-prefix workspace test (`filePath.startsWith(wsFolder.uri.fsPath)`)
is modelled exactly.  `path.dirname` is embedded for the clean POSIX paths
that `fsPath` yields.  `localeCompare` is embedded as code-point
lexicographic comparison (the two agree on the ASCII paths considered here).
Recursions that walk parent directories are bounded by an explicit measure
`pathMeasure` which strictly decreases along `dirname`; the source recursion
terminates for the same reason.
-/

set_option maxHeartbeats 1000000

namespace NestedOpenEditors

/-- Kind discriminator of tree items, from `enum ItemType`. -/
inductive ItemType where
  | File : ItemType
  | Folder : ItemType
deriving DecidableEq, Repr

/-- Embedding of JavaScript `String.prototype.startsWith`:
`strStartsWith s pre` is true when `pre` is a string prefix of `s`. -/
def strStartsWith (s pre : String) : Bool := pre.data.isPrefixOf s.data

/-- Embedding of Node `path.dirname` for the clean slash-separated paths
produced by `uri.fsPath`: everything before the last slash, `"/"` when the
only slash is leading, `"."` when there is no slash. -/
def dirname (p : String) : String :=
  match p.data.reverse.dropWhile (fun c => c != '/') with
  | [] => "."
  | _ :: rest => if rest = [] then "/" else ⟨rest.reverse⟩

/-- Termination measure for the parent-directory walk: `dirname` strictly
decreases it whenever `dirname p ≠ p`. -/
def pathMeasure (p : String) : Nat := 2 * p.length + (if p = "." then 0 else 3)

/-- Code-point lexicographic order on strings, the embedding of the
`localeCompare`-based tie-break of the sibling comparator. -/
def pathLE : List Char → List Char → Bool
  | [], _ => true
  | _ :: _, [] => false
  | a :: as, b :: bs => if a < b then true else if b < a then false else pathLE as bs

/-- An element pushed into `rootItems` or into a folder's `children` array.
Folder tree items are interned per build by `folderCache`, so a folder is
identified by its path; file items carry no children. -/
inductive Entry where
  | folder : String → Entry
  | file : String → Entry
deriving DecidableEq, Repr

/-- The mutable state of one `getOpenEditors` run: the `rootItems` array and
the `folderCache` map (insertion-ordered key/children association list; the
children array of each cached folder item lives in its map entry). -/
structure BuildState where
  rootItems : List Entry
  folders : List (String × List Entry)
deriving DecidableEq, Repr

/-- Keys of the folder cache. -/
def stKeys (st : BuildState) : List String := st.folders.map Prod.fst

/-- Lookup of a cached folder's children array (`folderCache.get`). -/
def lookupChildren (st : BuildState) (p : String) : Option (List Entry) :=
  (st.folders.find? (fun kv => kv.1 == p)).map Prod.snd

/-- Whether the folder cache already holds `p` (`folderCache.get` non-null). -/
def cacheHas (st : BuildState) (p : String) : Bool := (lookupChildren st p).isSome

/-- Creation of a fresh folder item and `folderCache.set` for it. -/
def addFolderKey (st : BuildState) (p : String) : BuildState :=
  { st with folders := st.folders ++ [(p, [])] }

/-- `children.push(e)` on the cached folder item with path `p`. -/
def pushChild (st : BuildState) (p : String) (e : Entry) : BuildState :=
  { st with folders := st.folders.map (fun kv => if kv.1 == p then (kv.1, kv.2 ++ [e]) else kv) }

/-- `rootItems.push(e)`. -/
def pushRoot (st : BuildState) (e : Entry) : BuildState :=
  { st with rootItems := st.rootItems ++ [e] }

/-- Embedding of `workspaceFolders.find(ws => path.startsWith(ws.uri.fsPath))`:
the first configured root that is a string prefix of `p`. -/
def matchedRoot (roots : List String) (p : String) : Option String :=
  roots.find? (fun r => strStartsWith p r)

/-- Embedding of `getOrCreateFolderHierarchy`, fuel-indexed by `pathMeasure`.
The recursion of the source walks `path.dirname`, which strictly decreases
`pathMeasure`, so the canonical fuel in `getOrCreateFolderHierarchy` below
always suffices. -/
def getOrCreateAux (roots : List String) : Nat → String → BuildState → BuildState
  | 0, _, st => st
  | fuel+1, folderPath, st =>
    if cacheHas st folderPath then st
    else
      match matchedRoot roots folderPath with
      | none => addFolderKey st folderPath
      | some ws =>
        let st1 := addFolderKey st folderPath
        let parentPath := dirname folderPath
        if folderPath = ws ∨ parentPath = ws then pushRoot st1 (Entry.folder folderPath)
        else if parentPath = folderPath then pushRoot st1 (Entry.folder folderPath)
        else pushChild (getOrCreateAux roots fuel parentPath st1) parentPath (Entry.folder folderPath)

/-- `getOrCreateFolderHierarchy(folderPath)` acting on the build state. -/
def getOrCreateFolderHierarchy (roots : List String) (p : String) (st : BuildState) : BuildState :=
  getOrCreateAux roots (pathMeasure p) p st

/-- The body of the per-tab loop of `getOpenEditors` for one open file path
(text tabs with `file` scheme; other tabs are filtered out before this
point and are not modelled). -/
def processFile (roots : List String) (st : BuildState) (filePath : String) : BuildState :=
  match matchedRoot roots filePath with
  | none => st
  | some ws =>
    let dirPath := dirname filePath
    if dirPath = ws then pushRoot st (Entry.file filePath)
    else pushChild (getOrCreateFolderHierarchy roots dirPath st) dirPath (Entry.file filePath)

/-- The whole tab loop of `getOpenEditors`: fold over the open file paths. -/
def buildState (roots paths : List String) : BuildState :=
  paths.foldl (processFile roots) { rootItems := [], folders := [] }

/-- A materialised tree item: path, kind and children, the observable part
of the `TreeItem` object graph (identity of a folder item is its path, by
the cache; a file item never has children). -/
inductive Tree where
  | node : String → ItemType → List Tree → Tree

/-- Children array of a cached folder, empty for uncached paths. -/
def childrenOf (st : BuildState) (p : String) : List Entry := (lookupChildren st p).getD []

/-- Materialise the object graph reachable from one pushed entry.  The fuel
bounds the folder depth; `buildState` only links a folder below its own
`dirname`, so any chain of distinct cached folders is shorter than the
number of cache entries and the canonical fuel in `getOpenEditors` below
suffices. -/
def matEntry (st : BuildState) (fuel : Nat) (e : Entry) : Tree :=
  match e with
  | Entry.file f => Tree.node f ItemType.File []
  | Entry.folder q =>
    match fuel with
    | 0 => Tree.node q ItemType.Folder []
    | fuel'+1 => Tree.node q ItemType.Folder ((childrenOf st q).map (fun e2 => matEntry st fuel' e2))

/-- The sibling comparator of `sortTreeItems` as a boolean `≤`: folders
before files; within one kind ascending by full path. -/
def treeLE (a b : Tree) : Bool :=
  match a, b with
  | Tree.node pa ka _, Tree.node pb kb _ =>
    if ka = kb then pathLE pa.data pb.data else decide (ka = ItemType.Folder)

/-- Stable insertion into a `treeLE`-sorted sibling list. -/
def sortInsert {α : Type} (le : α → α → Bool) (a : α) : List α → List α
  | [] => [a]
  | b :: bs => if le b a then b :: sortInsert le a bs else a :: b :: bs

/-- Sorting of one sibling array.  `Array.prototype.sort` with the source's
comparator orders by `treeLE` with ties only between items of equal path
and kind, so any comparison sort yields this list. -/
def sortList {α : Type} (le : α → α → Bool) : List α → List α
  | [] => []
  | t :: ts => sortInsert le t (sortList le ts)

mutual
/-- Recursive part of `sortTreeItems`: sort every sibling list below a node. -/
def sortTree : Tree → Tree
  | Tree.node p k cs => Tree.node p k (sortList treeLE (sortTrees cs))
/-- `sortTree` mapped over a list of trees. -/
def sortTrees : List Tree → List Tree
  | [] => []
  | t :: ts => sortTree t :: sortTrees ts
end

/-- `sortTreeItems(items)`: sort the given sibling list and, recursively,
every sibling list below it. -/
def sortTreeItems (ts : List Tree) : List Tree := sortList treeLE (sortTrees ts)

/-- The full `getOpenEditors()` run for a given workspace-root list and open
file-path list: build the state, materialise the forest from `rootItems`,
and sort every sibling group. -/
def getOpenEditors (roots paths : List String) : List Tree :=
  let st := buildState roots paths
  sortTreeItems (st.rootItems.map (matEntry st st.folders.length))

mutual
/-- Pre-order item listing of one tree (`addItemsRecursively` on one item). -/
def itemsOfTree : Tree → List (String × ItemType)
  | Tree.node p k cs => (p, k) :: itemsOfTrees cs
/-- Pre-order item listing of a forest (`addItemsRecursively`). -/
def itemsOfTrees : List Tree → List (String × ItemType)
  | [] => []
  | t :: ts => itemsOfTree t ++ itemsOfTrees ts
end

/-- `_allItemsFlat` right after a build: the flat pre-order node index. -/
def allItemsFlat (roots paths : List String) : List (String × ItemType) :=
  itemsOfTrees (getOpenEditors roots paths)

/-- Paths of the File items of a forest (File items are exactly the leaves:
a file item is created with no children and nothing is ever pushed into
one). -/
def leafPaths (ts : List Tree) : List String :=
  (itemsOfTrees ts).filterMap (fun it => if it.2 = ItemType.File then some it.1 else none)

/-- Embedding of `getParent` over the flat node index: for a file, the
first Folder item whose path is the file's directory; for a folder, `none`
when its directory equals itself (filesystem root), else the first Folder
item whose path is that directory. -/
def getParent (flat : List (String × ItemType)) (el : String × ItemType) :
    Option (String × ItemType) :=
  match el.2 with
  | ItemType.File =>
    flat.find? (fun it => decide (it.2 = ItemType.Folder) && decide (it.1 = dirname el.1))
  | ItemType.Folder =>
    if dirname el.1 = el.1 then none
    else flat.find? (fun it => decide (it.2 = ItemType.Folder) && decide (it.1 = dirname el.1))

/-- Embedding of `findItemByUri`: first flat item whose resource URI equals
the given one (two items share a URI exactly when they share a path). -/
def findItemByUri (flat : List (String × ItemType)) (uri : String) :
    Option (String × ItemType) :=
  flat.find? (fun it => decide (it.1 = uri))

/-- Outcome of `handleDrop` for one dragged item once the target folder is
resolved. -/
inductive DropOutcome where
  | warnSelfMove : DropOutcome
  | moveInFileSystem : DropOutcome
  | promptOpenOrMove : DropOutcome
deriving DecidableEq, Repr

/-- The per-item decision of `handleDrop`: the self-containment test is
`targetFolder.resourceUri.fsPath.startsWith(sourceUri.fsPath)` for dragged
folders; otherwise an open file is moved in the file system and a closed
one triggers the open-or-move prompt. -/
def dropActionForItem (draggedType : ItemType) (sourcePath targetFolderPath : String)
    (isFileOpen : Bool) : DropOutcome :=
  if draggedType = ItemType.Folder ∧ strStartsWith targetFolderPath sourcePath = true then
    DropOutcome.warnSelfMove
  else if isFileOpen then DropOutcome.moveInFileSystem
  else DropOutcome.promptOpenOrMove

/-- Genuine containment of a path in a directory (equality or a
whole-segment descendant), used to state what the prefix test should have
checked. -/
def pathInsideOrEqual (dir p : String) : Bool :=
  decide (p = dir) || strStartsWith p (dir ++ "/")

/-! ### The sync controller of `extension.ts`

`revealActiveEditor` first clears any pending reveal timer, returns if the
view is hidden, returns if there is no active editor, refreshes the
provider (one forest rebuild request) and schedules a reveal timer that
captures the active URI.  The timer body re-checks visibility and only then
performs the reveal attempt for the captured URI.  The visibility handler
stores the new flag and re-runs `revealActiveEditor` when the view became
visible.  Pending timers are modelled as a list so that "at most one timer"
is a statement, not a typing artifact. -/

/-- State of the sync controller: scheduled reveal timers (with the URI each
closure captured), view visibility, the active editor's URI, the number of
forest rebuild requests (`provider.refresh()` calls), and the log of
executed reveal attempts. -/
structure SyncState where
  pendingReveals : List String
  visible : Bool
  activeUri : Option String
  rebuilds : Nat
  revealed : List String
deriving DecidableEq, Repr

/-- Host events driving the controller: active-editor change, a sync
trigger (`revealActiveEditor`), expiry of the scheduled timer, and a view
visibility change. -/
inductive SyncEvent where
  | setActive : Option String → SyncEvent
  | requestSync : SyncEvent
  | fireTimer : SyncEvent
  | setVisible : Bool → SyncEvent

/-- `revealActiveEditor()`: cancel the pending timer, stop if hidden or no
active editor, else refresh the provider and schedule a reveal for the
captured active URI. -/
def revealActiveEditor (st : SyncState) : SyncState :=
  let st0 := { st with pendingReveals := [] }
  if st0.visible = false then st0
  else
    match st0.activeUri with
    | none => st0
    | some u => { st0 with rebuilds := st0.rebuilds + 1, pendingReveals := [u] }

/-- One controller step per host event.  A firing timer re-checks
visibility: hidden means the reveal is skipped; visible means one reveal
attempt for the captured URI.  A visibility change stores the flag and, on
becoming visible, re-runs `revealActiveEditor`. -/
def syncStep (st : SyncState) : SyncEvent → SyncState
  | SyncEvent.setActive u => { st with activeUri := u }
  | SyncEvent.requestSync => revealActiveEditor st
  | SyncEvent.fireTimer =>
    match st.pendingReveals with
    | [] => st
    | u :: rest =>
      if st.visible then { st with pendingReveals := rest, revealed := st.revealed ++ [u] }
      else { st with pendingReveals := rest }
  | SyncEvent.setVisible b =>
    let st1 := { st with visible := b }
    if b then revealActiveEditor st1 else st1

/-- Initial controller state: no timer, hidden view, no active editor. -/
def syncInit : SyncState := ⟨[], false, none, 0, []⟩

/-- A run of the controller from the initial state. -/
def syncRun (evs : List SyncEvent) : SyncState := evs.foldl syncStep syncInit

/-! ### Derived path-level descriptions of the build

The following functions re-express, purely in terms of paths and roots,
where `getOrCreateFolderHierarchy` attaches each folder it creates.  They
are used to state and prove the structural theorems about the build. -/

/-- Where a folder with path `q` is attached at creation time: `none` when
`q` matches no root (the item is cached but attached nowhere), `some none`
when it is pushed into `rootItems`, `some (some p)` when it is pushed into
the children of the folder `p = dirname q`. -/
def attachTarget (roots : List String) (q : String) : Option (Option String) :=
  match matchedRoot roots q with
  | none => none
  | some ws =>
    if q = ws ∨ dirname q = ws then some none
    else if dirname q = q then some none
    else some (some (dirname q))

/-- The folders the ancestor walk from `p` creates on an empty cache, in
walk order (fuel-indexed by `pathMeasure`). -/
def walkChainAux (roots : List String) : Nat → String → List String
  | 0, _ => []
  | fuel+1, p =>
    match matchedRoot roots p with
    | none => [p]
    | some ws =>
      if p = ws ∨ dirname p = ws then [p]
      else if dirname p = p then [p]
      else p :: walkChainAux roots fuel (dirname p)

/-- Canonical-fuel version of `walkChainAux`. -/
def walkChain (roots : List String) (p : String) : List String :=
  walkChainAux roots (pathMeasure p) p

/-- The folders the ancestor walk from `p` creates given the existing cache
keys `ks` (the walk stops at the first cached ancestor). -/
def newChainAux (roots : List String) (ks : List String) : Nat → String → List String
  | 0, _ => []
  | fuel+1, p =>
    if p ∈ ks then []
    else
      match matchedRoot roots p with
      | none => [p]
      | some ws =>
        if p = ws ∨ dirname p = ws then [p]
        else if dirname p = p then [p]
        else p :: newChainAux roots ks fuel (dirname p)

/-- Canonical-fuel version of `newChainAux`. -/
def newChain (roots ks : List String) (p : String) : List String :=
  newChainAux roots ks (pathMeasure p) p

/-- Cache block created for a freshly walked chain, minus its head: each
later chain member receives the previous member as its only child so far. -/
def chainLinked (prev : String) : List (String) → List (String × List Entry)
  | [] => []
  | c :: rest => (c, [Entry.folder prev]) :: chainLinked c rest

/-- Cache block created for one freshly walked chain: the head folder is
created empty, each later member holds the previous one as child. -/
def chainBlock : List String → List (String × List Entry)
  | [] => []
  | c :: rest => (c, []) :: chainLinked c rest

/-- Whether the ancestor walk from `q` ends by attaching to `rootItems`
(rather than petering out on a folder that matches no root). -/
def reachesRootAux (roots : List String) : Nat → String → Bool
  | 0, _ => false
  | fuel+1, q =>
    match matchedRoot roots q with
    | none => false
    | some ws =>
      if q = ws ∨ dirname q = ws then true
      else if dirname q = q then true
      else reachesRootAux roots fuel (dirname q)

/-- Canonical-fuel version of `reachesRootAux`. -/
def reachesRoot (roots : List String) (q : String) : Bool :=
  reachesRootAux roots (pathMeasure q) q

/-- Whether the attachment chain from folder `d` passes through folder
`anc` before attaching (each step follows `attachTarget`). -/
def attachedUnderAux (roots : List String) (anc : String) : Nat → String → Bool
  | 0, _ => false
  | fuel+1, d =>
    if d = anc then true
    else
      match matchedRoot roots d with
      | none => false
      | some ws =>
        if d = ws ∨ dirname d = ws then false
        else if dirname d = d then false
        else attachedUnderAux roots anc fuel (dirname d)

/-- Canonical-fuel version of `attachedUnderAux`. -/
def attachedUnder (roots : List String) (anc d : String) : Bool :=
  attachedUnderAux roots anc (pathMeasure d) d

/-- The endpoint of the attachment chain from `q` when that chain ends in a
`rootItems` attachment: the unique ancestor folder of `q` that sits at the
forest's root level (fuel-indexed). -/
def chainRootAux (roots : List String) : Nat → String → Option String
  | 0, _ => none
  | fuel+1, q =>
    match matchedRoot roots q with
    | none => none
    | some ws =>
      if q = ws ∨ dirname q = ws then some q
      else if dirname q = q then some q
      else chainRootAux roots fuel (dirname q)

/-- Canonical-fuel version of `chainRootAux`. -/
def chainRoot (roots : List String) (q : String) : Option String :=
  chainRootAux roots (pathMeasure q) q

/-- An open file whose directory is exactly its matched root: pushed
directly into `rootItems`. -/
def isRootFile (roots : List String) (fp : String) : Bool :=
  match matchedRoot roots fp with
  | none => false
  | some ws => decide (dirname fp = ws)

/-- An open file that is matched, nested below its root's level, and whose
directory's ancestor walk attaches to `rootItems`: visible as a nested
leaf. -/
def isNestedVisibleFile (roots : List String) (fp : String) : Bool :=
  match matchedRoot roots fp with
  | none => false
  | some ws => decide (dirname fp ≠ ws) && reachesRoot roots (dirname fp)

/-- An open file that ends up visible somewhere in the forest. -/
def fileVisible (roots : List String) (fp : String) : Bool :=
  isRootFile roots fp || isNestedVisibleFile roots fp

/-- The folders created by processing one open file path. -/
def fileCreates (roots : List String) (fp : String) : List String :=
  match matchedRoot roots fp with
  | none => []
  | some ws => if dirname fp = ws then [] else walkChain roots (dirname fp)

/-- Children count of an entry below a given cached folder. -/
def entryCountAt (st : BuildState) (p : String) (e : Entry) : Nat := (childrenOf st p).count e

/-- The inductive characterisation of the build state: after processing the
open-file list `done` (together with the folder walks started at `extra`,
of which the folders in `pending` are created but not yet attached — both
lists are empty outside the recursion of `getOrCreateFolderHierarchy`),
cache keys are exactly the folders created so far, `rootItems` holds each
directly-rooted file occurrence and each root-attached folder once, and
each cached folder's children hold each nested file occurrence at its
directory and each child-attached folder once. -/
structure InvMid (roots done extra pending : List String) (st : BuildState) : Prop where
  nodupKeys : (stKeys st).Nodup
  memKeys : ∀ q, q ∈ stKeys st ↔
    ((∃ fp ∈ done, q ∈ fileCreates roots fp) ∨ (∃ x ∈ extra, q ∈ walkChain roots x)
      ∨ q ∈ pending)
  rootFileCount : ∀ f, st.rootItems.count (Entry.file f) =
    if isRootFile roots f then done.count f else 0
  rootFolderCount : ∀ q, st.rootItems.count (Entry.folder q) =
    if q ∈ stKeys st ∧ q ∉ pending ∧ attachTarget roots q = some none then 1 else 0
  childFileCount : ∀ p f, entryCountAt st p (Entry.file f) =
    if (matchedRoot roots f).isSome ∧ dirname f = p ∧ isRootFile roots f = false
    then done.count f else 0
  childFolderCount : ∀ p c, entryCountAt st p (Entry.folder c) =
    if c ∈ stKeys st ∧ c ∉ pending ∧ attachTarget roots c = some (some p) then 1 else 0

/-- Number of strict attachment descendants of `q` among the cache keys
`ks`; bounds the folder depth below `q` in the materialised forest. -/
def descCount (roots : List String) (ks : List String) (q : String) : Nat :=
  ks.countP (fun c => attachedUnder roots q c && decide (c ≠ q))

/-- Sibling-sortedness of a materialised tree: every sibling list below it
is `treeLE`-sorted. -/
inductive TreeSorted : Tree → Prop where
  | mk : ∀ (p : String) (k : ItemType) (cs : List Tree),
      List.Pairwise (fun a b => treeLE a b = true) cs →
      (∀ t ∈ cs, TreeSorted t) → TreeSorted (Tree.node p k cs)

/-! ## Basic lemmas about `dirname` and the path measure -/

theorem dropWhile_length_le {α : Type} (f : α → Bool) (l : List α) :
    (l.dropWhile f).length ≤ l.length := by
  induction l with
  | nil => simp [List.dropWhile]
  | cons a t ih =>
    by_cases hf : f a
    · simp [List.dropWhile, hf]
      exact Nat.le_trans ih (Nat.le_succ _)
    · simp [List.dropWhile, hf]

theorem dropWhile_eq_cons_head_false {α : Type} (f : α → Bool) (l : List α) (a : α)
    (t : List α) (h : l.dropWhile f = a :: t) : f a = false := by
  induction l with
  | nil => simp [List.dropWhile] at h
  | cons b bs ih =>
    by_cases hf : f b
    · simp [List.dropWhile, hf] at h
      exact ih h
    · simp [List.dropWhile, hf] at h
      rw [← h.1]
      simpa using hf

theorem dropWhile_eq_cons_mem {α : Type} (f : α → Bool) (l : List α) (a : α)
    (t : List α) (h : l.dropWhile f = a :: t) : a ∈ l := by
  induction l with
  | nil => simp [List.dropWhile] at h
  | cons b bs ih =>
    by_cases hf : f b
    · simp [List.dropWhile, hf] at h
      exact List.mem_cons_of_mem _ (ih h)
    · simp [List.dropWhile, hf] at h
      exact h.1 ▸ List.mem_cons_self _ _

theorem pathMeasure_pos (p : String) : 0 < pathMeasure p := by
  unfold pathMeasure
  by_cases h : p = "."
  · subst h; decide
  · rw [if_neg h]; omega

theorem pathMeasure_le (p : String) : pathMeasure p ≤ 2 * p.length + 3 := by
  unfold pathMeasure
  by_cases h : p = "."
  · rw [if_pos h]; omega
  · rw [if_neg h]

theorem dirname_of_nil {p : String}
    (hd : p.data.reverse.dropWhile (fun c => c != '/') = []) : dirname p = "." := by
  unfold dirname
  rw [hd]

theorem dirname_of_cons {p : String} {c : Char} {rest : List Char}
    (hd : p.data.reverse.dropWhile (fun c => c != '/') = c :: rest) :
    dirname p = if rest = [] then "/" else ⟨rest.reverse⟩ := by
  unfold dirname
  rw [hd]

theorem pathMeasure_dirname_lt {p : String} (h : dirname p ≠ p) :
    pathMeasure (dirname p) < pathMeasure p := by
  rcases hd : p.data.reverse.dropWhile (fun c => c != '/') with _ | ⟨c, rest⟩
  · rw [dirname_of_nil hd] at h ⊢
    have hp : p ≠ "." := fun hp => h hp.symm
    have h1 : pathMeasure p = 2 * p.length + 3 := by unfold pathMeasure; rw [if_neg hp]
    have h2 : pathMeasure "." = 2 := by decide
    rw [h1, h2]; omega
  · rw [dirname_of_cons hd] at h ⊢
    have hc : (c != '/') = false := dropWhile_eq_cons_head_false (fun x => x != '/') p.data.reverse c rest hd
    have hc' : c = '/' := by simpa using hc
    have hmem : ('/' : Char) ∈ p.data := by
      have := dropWhile_eq_cons_mem (fun x => x != '/') p.data.reverse c rest hd
      exact List.mem_reverse.mp (hc' ▸ this)
    have hp : p ≠ "." := by
      intro hp
      rw [hp] at hmem
      exact absurd hmem (by decide)
    have hμp : pathMeasure p = 2 * p.length + 3 := by unfold pathMeasure; rw [if_neg hp]
    have hlen : rest.length + 1 ≤ p.length := by
      have h1 : (p.data.reverse.dropWhile (fun c => c != '/')).length ≤ p.data.reverse.length :=
        dropWhile_length_le _ _
      rw [hd, List.length_reverse] at h1
      simpa using h1
    by_cases hr : rest = []
    · subst hr
      rw [if_pos rfl] at h ⊢
      have hL : 2 ≤ p.length := by
        rcases Nat.lt_or_ge p.length 2 with h2 | h2
        · exfalso
          have h1 : 1 ≤ p.length := by
            have hne : p.data ≠ [] := by intro hnil; rw [hnil] at hmem; simp at hmem
            exact List.length_pos.mpr hne
          have hdata : p.data.length = 1 := by
            have hone : p.length = 1 := by omega
            exact hone
          rcases List.length_eq_one.mp hdata with ⟨a, ha⟩
          have haslash : a = '/' := by
            rw [ha] at hmem
            exact (List.mem_singleton.mp hmem).symm
          have hpslash : p = "/" := String.ext (by rw [ha, haslash])
          exact h (by rw [hpslash])
        · exact h2
      have h2 : pathMeasure "/" = 5 := by decide
      rw [hμp, h2]; omega
    · rw [if_neg hr] at h ⊢
      have hlen2 : (String.mk rest.reverse).length = rest.length := by
        simp [String.length]
      have h3 := pathMeasure_le (String.mk rest.reverse)
      rw [hlen2] at h3
      rw [hμp]
      omega

/-! ## Fuel irrelevance for the parent-walk recursions -/

theorem getOrCreateAux_fuel_irrel (roots : List String) :
    ∀ fuel fuel' p st, pathMeasure p ≤ fuel → pathMeasure p ≤ fuel' →
      getOrCreateAux roots fuel p st = getOrCreateAux roots fuel' p st := by
  intro fuel
  induction fuel with
  | zero => intro fuel' p st h _; exact absurd h (by have := pathMeasure_pos p; omega)
  | succ n ih =>
    intro fuel' p st h h'
    obtain ⟨m, rfl⟩ : ∃ m, fuel' = m + 1 := by
      cases fuel' with
      | zero => exact absurd h' (by have := pathMeasure_pos p; omega)
      | succ m => exact ⟨m, rfl⟩
    unfold getOrCreateAux
    by_cases hc : cacheHas st p
    · simp [hc]
    · simp only [hc]
      cases hm : matchedRoot roots p with
      | none => simp
      | some ws =>
        simp only
        by_cases h1 : p = ws ∨ dirname p = ws
        · simp [h1]
        · simp only [if_neg h1]
          by_cases h2 : dirname p = p
          · simp [h2]
          · simp only [if_neg h2]
            have hlt : pathMeasure (dirname p) < pathMeasure p := pathMeasure_dirname_lt h2
            rw [ih m (dirname p) _ (by omega) (by omega)]


theorem walkChainAux_fuel_irrel (roots : List String) :
    ∀ fuel fuel' p, pathMeasure p ≤ fuel → pathMeasure p ≤ fuel' →
      walkChainAux roots fuel p = walkChainAux roots fuel' p := by
  intro fuel
  induction fuel with
  | zero => intro fuel' p h _; exact absurd h (by have := pathMeasure_pos p; omega)
  | succ n ih =>
    intro fuel' p h h'
    obtain ⟨m, rfl⟩ : ∃ m, fuel' = m + 1 := by
      cases fuel' with
      | zero => exact absurd h' (by have := pathMeasure_pos p; omega)
      | succ m => exact ⟨m, rfl⟩
    unfold walkChainAux
    cases hm : matchedRoot roots p with
    | none => simp
    | some ws =>
      simp only
      by_cases h1 : p = ws ∨ dirname p = ws
      · simp [h1]
      · simp only [if_neg h1]
        by_cases h2 : dirname p = p
        · simp [h2]
        · simp only [if_neg h2]
          have hlt : pathMeasure (dirname p) < pathMeasure p := pathMeasure_dirname_lt h2
          rw [ih m (dirname p) (by omega) (by omega)]


theorem newChainAux_fuel_irrel (roots ks : List String) :
    ∀ fuel fuel' p, pathMeasure p ≤ fuel → pathMeasure p ≤ fuel' →
      newChainAux roots ks fuel p = newChainAux roots ks fuel' p := by
  intro fuel
  induction fuel with
  | zero => intro fuel' p h _; exact absurd h (by have := pathMeasure_pos p; omega)
  | succ n ih =>
    intro fuel' p h h'
    obtain ⟨m, rfl⟩ : ∃ m, fuel' = m + 1 := by
      cases fuel' with
      | zero => exact absurd h' (by have := pathMeasure_pos p; omega)
      | succ m => exact ⟨m, rfl⟩
    unfold newChainAux
    by_cases hk : p ∈ ks
    · simp [hk]
    · simp only [if_neg hk]
      cases hm : matchedRoot roots p with
      | none => simp
      | some ws =>
        simp only
        by_cases h1 : p = ws ∨ dirname p = ws
        · simp [h1]
        · simp only [if_neg h1]
          by_cases h2 : dirname p = p
          · simp [h2]
          · simp only [if_neg h2]
            have hlt : pathMeasure (dirname p) < pathMeasure p := pathMeasure_dirname_lt h2
            rw [ih m (dirname p) (by omega) (by omega)]


theorem reachesRootAux_fuel_irrel (roots : List String) :
    ∀ fuel fuel' p, pathMeasure p ≤ fuel → pathMeasure p ≤ fuel' →
      reachesRootAux roots fuel p = reachesRootAux roots fuel' p := by
  intro fuel
  induction fuel with
  | zero => intro fuel' p h _; exact absurd h (by have := pathMeasure_pos p; omega)
  | succ n ih =>
    intro fuel' p h h'
    obtain ⟨m, rfl⟩ : ∃ m, fuel' = m + 1 := by
      cases fuel' with
      | zero => exact absurd h' (by have := pathMeasure_pos p; omega)
      | succ m => exact ⟨m, rfl⟩
    unfold reachesRootAux
    cases hm : matchedRoot roots p with
    | none => simp
    | some ws =>
      simp only
      by_cases h1 : p = ws ∨ dirname p = ws
      · simp [h1]
      · simp only [if_neg h1]
        by_cases h2 : dirname p = p
        · simp [h2]
        · simp only [if_neg h2]
          have hlt : pathMeasure (dirname p) < pathMeasure p := pathMeasure_dirname_lt h2
          rw [ih m (dirname p) (by omega) (by omega)]


theorem attachedUnderAux_fuel_irrel (roots : List String) (anc : String) :
    ∀ fuel fuel' p, pathMeasure p ≤ fuel → pathMeasure p ≤ fuel' →
      attachedUnderAux roots anc fuel p = attachedUnderAux roots anc fuel' p := by
  intro fuel
  induction fuel with
  | zero => intro fuel' p h _; exact absurd h (by have := pathMeasure_pos p; omega)
  | succ n ih =>
    intro fuel' p h h'
    obtain ⟨m, rfl⟩ : ∃ m, fuel' = m + 1 := by
      cases fuel' with
      | zero => exact absurd h' (by have := pathMeasure_pos p; omega)
      | succ m => exact ⟨m, rfl⟩
    unfold attachedUnderAux
    by_cases ha : p = anc
    · simp [ha]
    · simp only [if_neg ha]
      cases hm : matchedRoot roots p with
      | none => simp
      | some ws =>
        simp only
        by_cases h1 : p = ws ∨ dirname p = ws
        · simp [h1]
        · simp only [if_neg h1]
          by_cases h2 : dirname p = p
          · simp [h2]
          · simp only [if_neg h2]
            have hlt : pathMeasure (dirname p) < pathMeasure p := pathMeasure_dirname_lt h2
            rw [ih m (dirname p) (by omega) (by omega)]


theorem chainRootAux_fuel_irrel (roots : List String) :
    ∀ fuel fuel' p, pathMeasure p ≤ fuel → pathMeasure p ≤ fuel' →
      chainRootAux roots fuel p = chainRootAux roots fuel' p := by
  intro fuel
  induction fuel with
  | zero => intro fuel' p h _; exact absurd h (by have := pathMeasure_pos p; omega)
  | succ n ih =>
    intro fuel' p h h'
    obtain ⟨m, rfl⟩ : ∃ m, fuel' = m + 1 := by
      cases fuel' with
      | zero => exact absurd h' (by have := pathMeasure_pos p; omega)
      | succ m => exact ⟨m, rfl⟩
    unfold chainRootAux
    cases hm : matchedRoot roots p with
    | none => simp
    | some ws =>
      simp only
      by_cases h1 : p = ws ∨ dirname p = ws
      · simp [h1]
      · simp only [if_neg h1]
        by_cases h2 : dirname p = p
        · simp [h2]
        · simp only [if_neg h2]
          have hlt : pathMeasure (dirname p) < pathMeasure p := pathMeasure_dirname_lt h2
          rw [ih m (dirname p) (by omega) (by omega)]

/-! ## Canonical one-step equations for the fuel-indexed walks -/

theorem exists_pathMeasure_succ (p : String) : ∃ k, pathMeasure p = k + 1 :=
  ⟨pathMeasure p - 1, by have := pathMeasure_pos p; omega⟩

theorem getOrCreateFolderHierarchy_eq (roots : List String) (p : String) (st : BuildState) :
    getOrCreateFolderHierarchy roots p st =
      if cacheHas st p then st
      else
        match matchedRoot roots p with
        | none => addFolderKey st p
        | some ws =>
          if p = ws ∨ dirname p = ws then pushRoot (addFolderKey st p) (Entry.folder p)
          else if dirname p = p then pushRoot (addFolderKey st p) (Entry.folder p)
          else pushChild (getOrCreateFolderHierarchy roots (dirname p) (addFolderKey st p))
                 (dirname p) (Entry.folder p) := by
  obtain ⟨k, hk⟩ := exists_pathMeasure_succ p
  show getOrCreateAux roots (pathMeasure p) p st = _
  rw [hk]
  unfold getOrCreateAux
  by_cases hc : cacheHas st p
  · simp [hc]
  · simp only [hc, Bool.false_eq_true, if_false]
    cases hm : matchedRoot roots p with
    | none => rfl
    | some ws =>
      simp only
      by_cases h1 : p = ws ∨ dirname p = ws
      · rw [if_pos h1, if_pos h1]
      · rw [if_neg h1, if_neg h1]
        by_cases h2 : dirname p = p
        · rw [if_pos h2, if_pos h2]
        · rw [if_neg h2, if_neg h2]
          have hlt := pathMeasure_dirname_lt h2
          rw [getOrCreateAux_fuel_irrel roots k (pathMeasure (dirname p)) (dirname p) _
            (by omega) (by omega)]
          rfl

theorem walkChain_eq (roots : List String) (p : String) :
    walkChain roots p =
      match matchedRoot roots p with
      | none => [p]
      | some ws =>
        if p = ws ∨ dirname p = ws then [p]
        else if dirname p = p then [p]
        else p :: walkChain roots (dirname p) := by
  obtain ⟨k, hk⟩ := exists_pathMeasure_succ p
  show walkChainAux roots (pathMeasure p) p = _
  rw [hk]
  unfold walkChainAux
  cases hm : matchedRoot roots p with
  | none => rfl
  | some ws =>
    simp only
    by_cases h1 : p = ws ∨ dirname p = ws
    · rw [if_pos h1, if_pos h1]
    · rw [if_neg h1, if_neg h1]
      by_cases h2 : dirname p = p
      · rw [if_pos h2, if_pos h2]
      · rw [if_neg h2, if_neg h2]
        have hlt := pathMeasure_dirname_lt h2
        rw [walkChainAux_fuel_irrel roots k (pathMeasure (dirname p)) (dirname p)
          (by omega) (by omega)]
        rfl

theorem newChain_eq (roots ks : List String) (p : String) :
    newChain roots ks p =
      if p ∈ ks then []
      else
        match matchedRoot roots p with
        | none => [p]
        | some ws =>
          if p = ws ∨ dirname p = ws then [p]
          else if dirname p = p then [p]
          else p :: newChain roots ks (dirname p) := by
  obtain ⟨k, hk⟩ := exists_pathMeasure_succ p
  show newChainAux roots ks (pathMeasure p) p = _
  rw [hk]
  unfold newChainAux
  by_cases hks : p ∈ ks
  · simp [hks]
  · simp only [if_neg hks]
    cases hm : matchedRoot roots p with
    | none => rfl
    | some ws =>
      simp only
      by_cases h1 : p = ws ∨ dirname p = ws
      · rw [if_pos h1, if_pos h1]
      · rw [if_neg h1, if_neg h1]
        by_cases h2 : dirname p = p
        · rw [if_pos h2, if_pos h2]
        · rw [if_neg h2, if_neg h2]
          have hlt := pathMeasure_dirname_lt h2
          rw [newChainAux_fuel_irrel roots ks k (pathMeasure (dirname p)) (dirname p)
            (by omega) (by omega)]
          rfl

theorem reachesRoot_eq (roots : List String) (p : String) :
    reachesRoot roots p =
      match matchedRoot roots p with
      | none => false
      | some ws =>
        if p = ws ∨ dirname p = ws then true
        else if dirname p = p then true
        else reachesRoot roots (dirname p) := by
  obtain ⟨k, hk⟩ := exists_pathMeasure_succ p
  show reachesRootAux roots (pathMeasure p) p = _
  rw [hk]
  unfold reachesRootAux
  cases hm : matchedRoot roots p with
  | none => rfl
  | some ws =>
    simp only
    by_cases h1 : p = ws ∨ dirname p = ws
    · rw [if_pos h1, if_pos h1]
    · rw [if_neg h1, if_neg h1]
      by_cases h2 : dirname p = p
      · rw [if_pos h2, if_pos h2]
      · rw [if_neg h2, if_neg h2]
        have hlt := pathMeasure_dirname_lt h2
        rw [reachesRootAux_fuel_irrel roots k (pathMeasure (dirname p)) (dirname p)
          (by omega) (by omega)]
        rfl

theorem attachedUnder_eq (roots : List String) (anc p : String) :
    attachedUnder roots anc p =
      if p = anc then true
      else
        match matchedRoot roots p with
        | none => false
        | some ws =>
          if p = ws ∨ dirname p = ws then false
          else if dirname p = p then false
          else attachedUnder roots anc (dirname p) := by
  obtain ⟨k, hk⟩ := exists_pathMeasure_succ p
  show attachedUnderAux roots anc (pathMeasure p) p = _
  rw [hk]
  unfold attachedUnderAux
  by_cases ha : p = anc
  · simp [ha]
  · simp only [if_neg ha]
    cases hm : matchedRoot roots p with
    | none => rfl
    | some ws =>
      simp only
      by_cases h1 : p = ws ∨ dirname p = ws
      · rw [if_pos h1, if_pos h1]
      · rw [if_neg h1, if_neg h1]
        by_cases h2 : dirname p = p
        · rw [if_pos h2, if_pos h2]
        · rw [if_neg h2, if_neg h2]
          have hlt := pathMeasure_dirname_lt h2
          rw [attachedUnderAux_fuel_irrel roots anc k (pathMeasure (dirname p)) (dirname p)
            (by omega) (by omega)]
          rfl

theorem chainRoot_eq (roots : List String) (p : String) :
    chainRoot roots p =
      match matchedRoot roots p with
      | none => none
      | some ws =>
        if p = ws ∨ dirname p = ws then some p
        else if dirname p = p then some p
        else chainRoot roots (dirname p) := by
  obtain ⟨k, hk⟩ := exists_pathMeasure_succ p
  show chainRootAux roots (pathMeasure p) p = _
  rw [hk]
  unfold chainRootAux
  cases hm : matchedRoot roots p with
  | none => rfl
  | some ws =>
    simp only
    by_cases h1 : p = ws ∨ dirname p = ws
    · rw [if_pos h1, if_pos h1]
    · rw [if_neg h1, if_neg h1]
      by_cases h2 : dirname p = p
      · rw [if_pos h2, if_pos h2]
      · rw [if_neg h2, if_neg h2]
        have hlt := pathMeasure_dirname_lt h2
        rw [chainRootAux_fuel_irrel roots k (pathMeasure (dirname p)) (dirname p)
          (by omega) (by omega)]
        rfl

/-! ## Structure of the attachment chains -/

theorem attachTarget_trichotomy (roots : List String) (p : String) :
    (attachTarget roots p = some (some (dirname p)) ∧ dirname p ≠ p ∧
      (matchedRoot roots p).isSome = true)
    ∨ (attachTarget roots p = none ∨ attachTarget roots p = some none) := by
  unfold attachTarget
  cases hm : matchedRoot roots p with
  | none => right; left; rfl
  | some ws =>
    simp only
    by_cases h1 : p = ws ∨ dirname p = ws
    · right; right; rw [if_pos h1]
    · rw [if_neg h1]
      by_cases h2 : dirname p = p
      · right; right; rw [if_pos h2]
      · left; rw [if_neg h2]; exact ⟨rfl, h2, rfl⟩

theorem attachTarget_parent_elim {roots : List String} {p pp : String}
    (h : attachTarget roots p = some (some pp)) :
    pp = dirname p ∧ dirname p ≠ p ∧ (matchedRoot roots p).isSome = true := by
  rcases attachTarget_trichotomy roots p with ⟨h1, h2, h3⟩ | h1
  · rw [h] at h1
    cases Option.some.inj (Option.some.inj h1)
    exact ⟨rfl, h2, h3⟩
  · rcases h1 with h1 | h1 <;> rw [h] at h1 <;> exact absurd h1 (by simp)

theorem attachTarget_parent_measure {roots : List String} {p pp : String}
    (h : attachTarget roots p = some (some pp)) : pathMeasure pp < pathMeasure p := by
  obtain ⟨rfl, h2, _⟩ := attachTarget_parent_elim h
  exact pathMeasure_dirname_lt h2

theorem walkChain_shape (roots : List String) (p : String) :
    (attachTarget roots p = some (some (dirname p)) ∧
      walkChain roots p = p :: walkChain roots (dirname p) ∧ dirname p ≠ p)
    ∨ ((attachTarget roots p = none ∨ attachTarget roots p = some none) ∧
      walkChain roots p = [p]) := by
  rw [walkChain_eq]
  unfold attachTarget
  cases hm : matchedRoot roots p with
  | none => right; exact ⟨Or.inl rfl, rfl⟩
  | some ws =>
    simp only
    by_cases h1 : p = ws ∨ dirname p = ws
    · right; rw [if_pos h1, if_pos h1]; exact ⟨Or.inr rfl, rfl⟩
    · rw [if_neg h1, if_neg h1]
      by_cases h2 : dirname p = p
      · right; rw [if_pos h2, if_pos h2]; exact ⟨Or.inr rfl, rfl⟩
      · left; rw [if_neg h2, if_neg h2]; exact ⟨rfl, rfl, h2⟩

theorem walkChain_cons {roots : List String} {p pp : String}
    (h : attachTarget roots p = some (some pp)) :
    walkChain roots p = p :: walkChain roots pp := by
  rcases walkChain_shape roots p with ⟨h1, h2, _⟩ | ⟨h1, h2⟩
  · rw [h] at h1
    cases Option.some.inj (Option.some.inj h1)
    exact h2
  · rcases h1 with h1 | h1 <;> rw [h] at h1 <;> exact absurd h1 (by simp)

theorem walkChain_single {roots : List String} {p : String}
    (h : attachTarget roots p = none ∨ attachTarget roots p = some none) :
    walkChain roots p = [p] := by
  rcases walkChain_shape roots p with ⟨h1, _, _⟩ | ⟨_, h2⟩
  · rcases h with h | h <;> rw [h] at h1 <;> exact absurd h1.symm (by simp)
  · exact h2

theorem reachesRoot_shape (roots : List String) (p : String) :
    (attachTarget roots p = none → reachesRoot roots p = false)
    ∧ (attachTarget roots p = some none → reachesRoot roots p = true)
    ∧ (∀ pp, attachTarget roots p = some (some pp) →
        reachesRoot roots p = reachesRoot roots pp) := by
  rw [reachesRoot_eq]
  unfold attachTarget
  cases hm : matchedRoot roots p with
  | none => exact ⟨fun _ => rfl, fun h => absurd h (by simp), fun pp h => absurd h (by simp)⟩
  | some ws =>
    simp only
    by_cases h1 : p = ws ∨ dirname p = ws
    · rw [if_pos h1, if_pos h1]
      exact ⟨fun h => absurd h (by simp), fun _ => rfl, fun pp h => absurd h (by simp)⟩
    · rw [if_neg h1, if_neg h1]
      by_cases h2 : dirname p = p
      · rw [if_pos h2, if_pos h2]
        exact ⟨fun h => absurd h (by simp), fun _ => rfl, fun pp h => absurd h (by simp)⟩
      · rw [if_neg h2, if_neg h2]
        refine ⟨fun h => absurd h (by simp), fun h => absurd h (by simp), fun pp h => ?_⟩
        cases Option.some.inj (Option.some.inj h)
        rfl

theorem chainRoot_shape (roots : List String) (p : String) :
    (attachTarget roots p = none → chainRoot roots p = none)
    ∧ (attachTarget roots p = some none → chainRoot roots p = some p)
    ∧ (∀ pp, attachTarget roots p = some (some pp) →
        chainRoot roots p = chainRoot roots pp) := by
  rw [chainRoot_eq]
  unfold attachTarget
  cases hm : matchedRoot roots p with
  | none => exact ⟨fun _ => rfl, fun h => absurd h (by simp), fun pp h => absurd h (by simp)⟩
  | some ws =>
    simp only
    by_cases h1 : p = ws ∨ dirname p = ws
    · rw [if_pos h1, if_pos h1]
      exact ⟨fun h => absurd h (by simp), fun _ => rfl, fun pp h => absurd h (by simp)⟩
    · rw [if_neg h1, if_neg h1]
      by_cases h2 : dirname p = p
      · rw [if_pos h2, if_pos h2]
        exact ⟨fun h => absurd h (by simp), fun _ => rfl, fun pp h => absurd h (by simp)⟩
      · rw [if_neg h2, if_neg h2]
        refine ⟨fun h => absurd h (by simp), fun h => absurd h (by simp), fun pp h => ?_⟩
        cases Option.some.inj (Option.some.inj h)
        rfl

theorem attachedUnder_shape (roots : List String) (anc p : String) :
    (p = anc → attachedUnder roots anc p = true)
    ∧ (p ≠ anc → (attachTarget roots p = none ∨ attachTarget roots p = some none) →
        attachedUnder roots anc p = false)
    ∧ (p ≠ anc → ∀ pp, attachTarget roots p = some (some pp) →
        attachedUnder roots anc p = attachedUnder roots anc pp) := by
  rw [attachedUnder_eq]
  by_cases ha : p = anc
  · rw [if_pos ha]
    exact ⟨fun _ => rfl, fun h => absurd ha h, fun h => absurd ha h⟩
  · rw [if_neg ha]
    unfold attachTarget
    cases hm : matchedRoot roots p with
    | none =>
      exact ⟨fun h => absurd h ha, fun _ _ => rfl,
        fun _ pp h => absurd h (by simp)⟩
    | some ws =>
      simp only
      by_cases h1 : p = ws ∨ dirname p = ws
      · rw [if_pos h1, if_pos h1]
        refine ⟨fun h => absurd h ha, fun _ _ => rfl, fun _ pp h => absurd h (by simp)⟩
      · rw [if_neg h1, if_neg h1]
        by_cases h2 : dirname p = p
        · rw [if_pos h2, if_pos h2]
          refine ⟨fun h => absurd h ha, fun _ _ => rfl, fun _ pp h => absurd h (by simp)⟩
        · rw [if_neg h2, if_neg h2]
          refine ⟨fun h => absurd h ha, fun _ h => ?_, fun _ pp h => ?_⟩
          · rcases h with h | h <;> exact absurd h (by simp)
          · cases Option.some.inj (Option.some.inj h)
            rfl

theorem attachedUnder_refl (roots : List String) (q : String) :
    attachedUnder roots q q = true :=
  (attachedUnder_shape roots q q).1 rfl

theorem mem_walkChain_measure_aux (roots : List String) :
    ∀ n p, pathMeasure p ≤ n → ∀ q ∈ walkChain roots p, pathMeasure q ≤ pathMeasure p := by
  intro n
  induction n with
  | zero => intro p h; exact absurd h (by have := pathMeasure_pos p; omega)
  | succ n ih =>
    intro p h q hq
    rcases walkChain_shape roots p with ⟨_, heq, hne⟩ | ⟨_, heq⟩
    · rw [heq] at hq
      rcases List.mem_cons.mp hq with rfl | hq2
      · exact Nat.le_refl _
      · have hlt := pathMeasure_dirname_lt hne
        have := ih (dirname p) (by omega) q hq2
        omega
    · rw [heq] at hq
      rw [List.mem_singleton.mp hq]

theorem mem_walkChain_measure {roots : List String} {p q : String}
    (h : q ∈ walkChain roots p) : pathMeasure q ≤ pathMeasure p :=
  mem_walkChain_measure_aux roots (pathMeasure p) p (Nat.le_refl _) q h

theorem self_mem_walkChain (roots : List String) (p : String) : p ∈ walkChain roots p := by
  rcases walkChain_shape roots p with ⟨_, heq, _⟩ | ⟨_, heq⟩ <;> rw [heq] <;> simp

theorem walkChain_closure_aux (roots : List String) :
    ∀ n p, pathMeasure p ≤ n → ∀ q ∈ walkChain roots p,
      ∀ r ∈ walkChain roots q, r ∈ walkChain roots p := by
  intro n
  induction n with
  | zero => intro p h; exact absurd h (by have := pathMeasure_pos p; omega)
  | succ n ih =>
    intro p h q hq r hr
    rcases walkChain_shape roots p with ⟨_, heq, hne⟩ | ⟨_, heq⟩
    · rw [heq] at hq
      rcases List.mem_cons.mp hq with rfl | hq2
      · exact hr
      · have hlt := pathMeasure_dirname_lt hne
        rw [heq]
        exact List.mem_cons_of_mem _ (ih (dirname p) (by omega) q hq2 r hr)
    · rw [heq] at hq
      rw [List.mem_singleton.mp hq] at hr
      exact hr

theorem walkChain_closure {roots : List String} {p q r : String}
    (hq : q ∈ walkChain roots p) (hr : r ∈ walkChain roots q) : r ∈ walkChain roots p :=
  walkChain_closure_aux roots (pathMeasure p) p (Nat.le_refl _) q hq r hr

theorem newChain_eq_takeWhile_aux (roots ks : List String) :
    ∀ n p, pathMeasure p ≤ n →
      newChain roots ks p = (walkChain roots p).takeWhile (fun q => !(decide (q ∈ ks))) := by
  intro n
  induction n with
  | zero => intro p h; exact absurd h (by have := pathMeasure_pos p; omega)
  | succ n ih =>
    intro p h
    rw [newChain_eq]
    rcases walkChain_shape roots p with ⟨hat, heq, hne⟩ | ⟨hat, heq⟩
    · rw [heq]
      obtain ⟨_, _, hms⟩ := attachTarget_parent_elim hat
      obtain ⟨ws, hws⟩ := Option.isSome_iff_exists.mp hms
      rw [hws]
      simp only
      have h1 : ¬(p = ws ∨ dirname p = ws) := by
        intro hcon
        unfold attachTarget at hat
        rw [hws] at hat
        simp only [if_pos hcon] at hat
        exact absurd hat (by simp)
      have h2 : dirname p ≠ p := hne
      rw [if_neg h1, if_neg h2]
      by_cases hk : p ∈ ks
      · rw [if_pos hk]
        rw [List.takeWhile_cons]
        simp [hk]
      · rw [if_neg hk]
        rw [List.takeWhile_cons]
        simp only [hk, decide_False, Bool.not_false, if_true]
        have hlt := pathMeasure_dirname_lt hne
        rw [ih (dirname p) (by omega)]
    · rw [heq]
      by_cases hk : p ∈ ks
      · rw [if_pos hk]
        rw [List.takeWhile_cons]
        simp [hk]
      · rw [if_neg hk]
        rcases hat with hat | hat <;>
        · unfold attachTarget at hat
          cases hm : matchedRoot roots p with
          | none =>
            rw [List.takeWhile_cons]
            simp [hk]
          | some ws =>
            rw [hm] at hat
            simp only at hat ⊢
            rw [List.takeWhile_cons]
            by_cases h1 : p = ws ∨ dirname p = ws
            · rw [if_pos h1]
              simp [hk]
            · rw [if_neg h1] at hat ⊢
              by_cases h2 : dirname p = p
              · rw [if_pos h2]
                simp [hk]
              · rw [if_neg h2] at hat
                exact absurd hat (by simp)

theorem newChain_eq_takeWhile (roots ks : List String) (p : String) :
    newChain roots ks p = (walkChain roots p).takeWhile (fun q => !(decide (q ∈ ks))) :=
  newChain_eq_takeWhile_aux roots ks (pathMeasure p) p (Nat.le_refl _)

theorem attachedUnder_measure_aux (roots : List String) (a : String) :
    ∀ n d, pathMeasure d ≤ n → attachedUnder roots a d = true →
      pathMeasure a ≤ pathMeasure d := by
  intro n
  induction n with
  | zero => intro d h; exact absurd h (by have := pathMeasure_pos d; omega)
  | succ n ih =>
    intro d h hau
    by_cases hda : d = a
    · rw [hda]
    · rcases attachTarget_trichotomy roots d with ⟨hat, hne, _⟩ | hstop
      · rw [(attachedUnder_shape roots a d).2.2 hda _ hat] at hau
        have hlt := pathMeasure_dirname_lt hne
        have := ih (dirname d) (by omega) hau
        omega
      · rw [(attachedUnder_shape roots a d).2.1 hda hstop] at hau
        exact absurd hau (by simp)

theorem attachedUnder_measure {roots : List String} {a d : String}
    (h : attachedUnder roots a d = true) : pathMeasure a ≤ pathMeasure d :=
  attachedUnder_measure_aux roots a (pathMeasure d) d (Nat.le_refl _) h

theorem attachedUnder_trans_aux (roots : List String) (a b : String) :
    ∀ n c, pathMeasure c ≤ n → attachedUnder roots b c = true →
      attachedUnder roots a b = true → attachedUnder roots a c = true := by
  intro n
  induction n with
  | zero => intro c h; exact absurd h (by have := pathMeasure_pos c; omega)
  | succ n ih =>
    intro c h hbc hab
    by_cases hcb : c = b
    · rw [hcb]; exact hab
    · rcases attachTarget_trichotomy roots c with ⟨hat, hne, _⟩ | hstop
      · by_cases hca : c = a
        · exact (attachedUnder_shape roots a c).1 hca
        · rw [(attachedUnder_shape roots a c).2.2 hca _ hat]
          rw [(attachedUnder_shape roots b c).2.2 hcb _ hat] at hbc
          have hlt := pathMeasure_dirname_lt hne
          exact ih (dirname c) (by omega) hbc hab
      · rw [(attachedUnder_shape roots b c).2.1 hcb hstop] at hbc
        exact absurd hbc (by simp)

theorem attachedUnder_trans {roots : List String} {a b c : String}
    (hbc : attachedUnder roots b c = true) (hab : attachedUnder roots a b = true) :
    attachedUnder roots a c = true :=
  attachedUnder_trans_aux roots a b (pathMeasure c) c (Nat.le_refl _) hbc hab

theorem chainRoot_of_attachedUnder_aux (roots : List String) (a : String) :
    ∀ n d, pathMeasure d ≤ n → attachedUnder roots a d = true →
      chainRoot roots d = chainRoot roots a := by
  intro n
  induction n with
  | zero => intro d h; exact absurd h (by have := pathMeasure_pos d; omega)
  | succ n ih =>
    intro d h hau
    by_cases hda : d = a
    · rw [hda]
    · rcases attachTarget_trichotomy roots d with ⟨hat, hne, _⟩ | hstop
      · rw [(attachedUnder_shape roots a d).2.2 hda _ hat] at hau
        rw [(chainRoot_shape roots d).2.2 _ hat]
        have hlt := pathMeasure_dirname_lt hne
        exact ih (dirname d) (by omega) hau
      · rw [(attachedUnder_shape roots a d).2.1 hda hstop] at hau
        exact absurd hau (by simp)

theorem chainRoot_of_attachedUnder {roots : List String} {a d : String}
    (h : attachedUnder roots a d = true) : chainRoot roots d = chainRoot roots a :=
  chainRoot_of_attachedUnder_aux roots a (pathMeasure d) d (Nat.le_refl _) h

theorem reachesRoot_eq_chainRoot_isSome_aux (roots : List String) :
    ∀ n q, pathMeasure q ≤ n → reachesRoot roots q = (chainRoot roots q).isSome := by
  intro n
  induction n with
  | zero => intro q h; exact absurd h (by have := pathMeasure_pos q; omega)
  | succ n ih =>
    intro q h
    rcases attachTarget_trichotomy roots q with ⟨hat, hne, _⟩ | (hstop | hstop)
    · rw [(reachesRoot_shape roots q).2.2 _ hat, (chainRoot_shape roots q).2.2 _ hat]
      have hlt := pathMeasure_dirname_lt hne
      exact ih (dirname q) (by omega)
    · rw [(reachesRoot_shape roots q).1 hstop, (chainRoot_shape roots q).1 hstop]
      rfl
    · rw [(reachesRoot_shape roots q).2.1 hstop, (chainRoot_shape roots q).2.1 hstop]
      rfl

theorem reachesRoot_eq_chainRoot_isSome (roots : List String) (q : String) :
    reachesRoot roots q = (chainRoot roots q).isSome :=
  reachesRoot_eq_chainRoot_isSome_aux roots (pathMeasure q) q (Nat.le_refl _)

theorem chainRoot_attach_aux (roots : List String) :
    ∀ n q, pathMeasure q ≤ n → ∀ r, chainRoot roots q = some r →
      attachedUnder roots r q = true ∧ attachTarget roots r = some none := by
  intro n
  induction n with
  | zero => intro q h; exact absurd h (by have := pathMeasure_pos q; omega)
  | succ n ih =>
    intro q h r hcr
    rcases attachTarget_trichotomy roots q with ⟨hat, hne, _⟩ | (hstop | hstop)
    · rw [(chainRoot_shape roots q).2.2 _ hat] at hcr
      have hlt := pathMeasure_dirname_lt hne
      obtain ⟨h1, h2⟩ := ih (dirname q) (by omega) r hcr
      refine ⟨?_, h2⟩
      by_cases hqr : q = r
      · exact (attachedUnder_shape roots r q).1 hqr
      · rw [(attachedUnder_shape roots r q).2.2 hqr _ hat]
        exact h1
    · rw [(chainRoot_shape roots q).1 hstop] at hcr
      exact absurd hcr (by simp)
    · rw [(chainRoot_shape roots q).2.1 hstop] at hcr
      cases Option.some.inj hcr
      exact ⟨attachedUnder_refl roots q, hstop⟩

theorem chainRoot_attach {roots : List String} {q r : String}
    (h : chainRoot roots q = some r) :
    attachedUnder roots r q = true ∧ attachTarget roots r = some none :=
  chainRoot_attach_aux roots (pathMeasure q) q (Nat.le_refl _) r h

theorem chainRoot_of_rootAttach {roots : List String} {r : String}
    (h : attachTarget roots r = some none) : chainRoot roots r = some r :=
  (chainRoot_shape roots r).2.1 h

/-! ## Primitive state-operation lemmas -/

theorem stKeys_addFolderKey (st : BuildState) (p : String) :
    stKeys (addFolderKey st p) = stKeys st ++ [p] := by
  simp [stKeys, addFolderKey]

theorem stKeys_pushChild (st : BuildState) (p : String) (e : Entry) :
    stKeys (pushChild st p e) = stKeys st := by
  unfold stKeys pushChild
  simp only [List.map_map]
  apply List.map_congr_left
  intro kv _
  by_cases h : kv.1 == p <;> simp [Function.comp, h]

theorem stKeys_pushRoot (st : BuildState) (e : Entry) : stKeys (pushRoot st e) = stKeys st := rfl

theorem rootItems_addFolderKey (st : BuildState) (p : String) :
    (addFolderKey st p).rootItems = st.rootItems := rfl

theorem rootItems_pushChild (st : BuildState) (p : String) (e : Entry) :
    (pushChild st p e).rootItems = st.rootItems := rfl

theorem rootItems_pushRoot (st : BuildState) (e : Entry) :
    (pushRoot st e).rootItems = st.rootItems ++ [e] := rfl

theorem find?_folders_eq_none {st : BuildState} {p : String} (h : p ∉ stKeys st) :
    st.folders.find? (fun kv => kv.1 == p) = none := by
  rw [List.find?_eq_none]
  intro kv hkv hbeq
  exact h (List.mem_map.mpr ⟨kv, hkv, beq_iff_eq.mp hbeq⟩)

theorem find?_folders_isSome {st : BuildState} {p : String} (h : p ∈ stKeys st) :
    (st.folders.find? (fun kv => kv.1 == p)).isSome = true := by
  rw [List.find?_isSome]
  obtain ⟨kv, hkv, hfst⟩ := List.mem_map.mp h
  exact ⟨kv, hkv, beq_iff_eq.mpr hfst⟩

theorem cacheHas_iff (st : BuildState) (p : String) :
    cacheHas st p = true ↔ p ∈ stKeys st := by
  unfold cacheHas lookupChildren
  rw [Option.isSome_map']
  constructor
  · intro h
    by_contra hmem
    rw [find?_folders_eq_none hmem] at h
    exact absurd h (by simp)
  · exact find?_folders_isSome

theorem lookupChildren_eq_none {st : BuildState} {p : String} (h : p ∉ stKeys st) :
    lookupChildren st p = none := by
  unfold lookupChildren
  rw [find?_folders_eq_none h]
  rfl

theorem lookupChildren_isSome {st : BuildState} {p : String} (h : p ∈ stKeys st) :
    (lookupChildren st p).isSome = true := by
  unfold lookupChildren
  rw [Option.isSome_map']
  exact find?_folders_isSome h

theorem lookupChildren_addFolderKey_of_ne {st : BuildState} {p p' : String} (h : p' ≠ p) :
    lookupChildren (addFolderKey st p) p' = lookupChildren st p' := by
  unfold lookupChildren addFolderKey
  simp only
  rw [List.find?_append]
  have hb : (p == p') = false := beq_eq_false_iff_ne.mpr (Ne.symm h)
  have h2 : List.find? (fun kv => kv.1 == p') [(p, ([] : List Entry))] = none := by
    simp [List.find?, hb]
  rw [h2]
  cases st.folders.find? (fun kv => kv.1 == p') <;> rfl

theorem lookupChildren_addFolderKey_self {st : BuildState} {p : String} (h : p ∉ stKeys st) :
    lookupChildren (addFolderKey st p) p = some [] := by
  unfold lookupChildren addFolderKey
  simp only
  rw [List.find?_append, find?_folders_eq_none h]
  simp [List.find?]

theorem lookupChildren_addFolderKey_of_mem {st : BuildState} {p p' : String}
    (h : p' ∈ stKeys st) :
    lookupChildren (addFolderKey st p) p' = lookupChildren st p' := by
  unfold lookupChildren addFolderKey
  simp only
  rw [List.find?_append]
  obtain ⟨kv, hkv⟩ := Option.isSome_iff_exists.mp (find?_folders_isSome h)
  rw [hkv]
  rfl

theorem find?_pushChild_aux (l : List (String × List Entry)) (p : String) (e : Entry)
    (p' : String) :
    ((l.map (fun kv => if kv.1 == p then (kv.1, kv.2 ++ [e]) else kv)).find?
        (fun kv => kv.1 == p')).map Prod.snd =
      if p' = p
      then ((l.find? (fun kv => kv.1 == p')).map Prod.snd).map (fun cs => cs ++ [e])
      else (l.find? (fun kv => kv.1 == p')).map Prod.snd := by
  induction l with
  | nil => by_cases h : p' = p <;> simp [h]
  | cons kv t ih =>
    by_cases h1 : kv.1 = p
    · by_cases h2 : kv.1 = p'
      · have hpp : p' = p := h2 ▸ h1
        simp [List.find?_cons, h1, h2, hpp]
      · have hne : ¬ p = p' := fun hc => h2 (h1.trans hc)
        have hfind : ((if (kv.1 == p) = true then (kv.1, kv.2 ++ [e]) else kv).1 == p') = false := by
          simp [h1, h2, hne]
        simp only [List.map_cons, List.find?_cons, hfind]
        have hk2 : (kv.1 == p') = false := by simp [h2]
        simp only [hk2]
        exact ih
    · by_cases h2 : kv.1 = p'
      · have hpp : ¬ p' = p := fun hc => h1 (by rw [h2, hc])
        simp [List.find?_cons, h1, h2, hpp]
      · have hfind : ((if (kv.1 == p) = true then (kv.1, kv.2 ++ [e]) else kv).1 == p') = false := by
          simp [h1, h2]
        simp only [List.map_cons, List.find?_cons, hfind]
        have hk2 : (kv.1 == p') = false := by simp [h2]
        simp only [hk2]
        exact ih

theorem lookupChildren_pushChild (st : BuildState) (p : String) (e : Entry) (p' : String) :
    lookupChildren (pushChild st p e) p' =
      if p' = p then (lookupChildren st p').map (fun cs => cs ++ [e])
      else lookupChildren st p' := by
  unfold lookupChildren pushChild
  simp only
  rw [find?_pushChild_aux]

theorem childrenOf_addFolderKey {st : BuildState} {p : String} (h : p ∉ stKeys st)
    (p' : String) : childrenOf (addFolderKey st p) p' = childrenOf st p' := by
  unfold childrenOf
  by_cases hp : p' = p
  · subst hp
    rw [lookupChildren_addFolderKey_self h, lookupChildren_eq_none h]
    rfl
  · rw [lookupChildren_addFolderKey_of_ne hp]

theorem childrenOf_pushChild_self {st : BuildState} {p : String} (e : Entry)
    (h : p ∈ stKeys st) :
    childrenOf (pushChild st p e) p = childrenOf st p ++ [e] := by
  unfold childrenOf
  rw [lookupChildren_pushChild, if_pos rfl]
  obtain ⟨cs, hcs⟩ := Option.isSome_iff_exists.mp (lookupChildren_isSome h)
  rw [hcs]
  rfl

theorem childrenOf_pushChild_ne {st : BuildState} {p p' : String} (e : Entry)
    (h : p' ≠ p) :
    childrenOf (pushChild st p e) p' = childrenOf st p' := by
  unfold childrenOf
  rw [lookupChildren_pushChild, if_neg h]

theorem childrenOf_pushRoot (st : BuildState) (e : Entry) (p' : String) :
    childrenOf (pushRoot st e) p' = childrenOf st p' := rfl

theorem entryCountAt_pushRoot (st : BuildState) (e : Entry) (p' : String) (e' : Entry) :
    entryCountAt (pushRoot st e) p' e' = entryCountAt st p' e' := rfl

/-! ## Introduction lemmas for `attachTarget` and counting helpers -/

theorem attachTarget_of_unmatched {roots : List String} {q : String}
    (h : matchedRoot roots q = none) : attachTarget roots q = none := by
  unfold attachTarget
  rw [h]

theorem attachTarget_of_stop1 {roots : List String} {q ws : String}
    (hm : matchedRoot roots q = some ws) (h1 : q = ws ∨ dirname q = ws) :
    attachTarget roots q = some none := by
  unfold attachTarget
  rw [hm]
  simp only
  rw [if_pos h1]

theorem attachTarget_of_fsroot {roots : List String} {q ws : String}
    (hm : matchedRoot roots q = some ws) (h1 : ¬(q = ws ∨ dirname q = ws))
    (h2 : dirname q = q) : attachTarget roots q = some none := by
  unfold attachTarget
  rw [hm]
  simp only
  rw [if_neg h1, if_pos h2]

theorem attachTarget_of_nested {roots : List String} {q ws : String}
    (hm : matchedRoot roots q = some ws) (h1 : ¬(q = ws ∨ dirname q = ws))
    (h2 : dirname q ≠ q) : attachTarget roots q = some (some (dirname q)) := by
  unfold attachTarget
  rw [hm]
  simp only
  rw [if_neg h1, if_neg h2]

theorem count_append_single {α : Type} [DecidableEq α] (l : List α) (a b : α) :
    (l ++ [a]).count b = l.count b + (if a = b then 1 else 0) := by
  rw [List.count_append, List.count_singleton]
  congr 1
  by_cases h : a = b <;> simp [h]

theorem mem_fileCreates_closure {roots : List String} {fp q x : String}
    (hq : q ∈ fileCreates roots fp) (hx : x ∈ walkChain roots q) :
    x ∈ fileCreates roots fp := by
  unfold fileCreates at *
  cases hm : matchedRoot roots fp with
  | none => rw [hm] at hq; simp at hq
  | some ws =>
    rw [hm] at hq
    simp only at hq ⊢
    by_cases hd : dirname fp = ws
    · rw [if_pos hd] at hq
      simp at hq
    · rw [if_neg hd] at hq ⊢
      exact walkChain_closure hq hx

theorem InvMid.pending_subset {roots done extra pending : List String} {st : BuildState}
    (hinv : InvMid roots done extra pending st) : ∀ x ∈ pending, x ∈ stKeys st :=
  fun x hx => (hinv.memKeys x).mpr (Or.inr (Or.inr hx))

/-! ## Invariant preservation for the primitive build steps -/

theorem InvMid_add_unmatched {roots done extra pending : List String} {st : BuildState}
    {q : String} (hinv : InvMid roots done extra pending st) (hq : q ∉ stKeys st)
    (hm : matchedRoot roots q = none) :
    InvMid roots done (q :: extra) pending (addFolderKey st q) := by
  obtain ⟨hnd, hmem, hrf, hrq, hcf, hcq⟩ := hinv
  have hat : attachTarget roots q = none := attachTarget_of_unmatched hm
  have hwc : walkChain roots q = [q] := walkChain_single (Or.inl hat)
  refine ⟨?_, ?_, ?_, ?_, ?_, ?_⟩
  · rw [stKeys_addFolderKey, List.nodup_append]
    refine ⟨hnd, List.nodup_singleton q, ?_⟩
    intro x hx hx1
    rw [List.mem_singleton] at hx1
    exact hq (hx1 ▸ hx)
  · intro x
    rw [stKeys_addFolderKey, List.mem_append, List.mem_singleton, hmem x]
    constructor
    · rintro ((hd | he | hp) | hxq)
      · exact Or.inl hd
      · obtain ⟨y, hy, hxy⟩ := he
        exact Or.inr (Or.inl ⟨y, List.mem_cons_of_mem _ hy, hxy⟩)
      · exact Or.inr (Or.inr hp)
      · exact Or.inr (Or.inl ⟨q, List.mem_cons_self _ _, by
          rw [hxq, hwc]; exact List.mem_singleton_self q⟩)
    · rintro (hd | ⟨y, hy, hxy⟩ | hp)
      · exact Or.inl (Or.inl hd)
      · rcases List.mem_cons.mp hy with rfl | hy2
        · rw [hwc] at hxy
          exact Or.inr (List.mem_singleton.mp hxy)
        · exact Or.inl (Or.inr (Or.inl ⟨y, hy2, hxy⟩))
      · exact Or.inl (Or.inr (Or.inr hp))
  · intro f
    rw [rootItems_addFolderKey]
    exact hrf f
  · intro x
    rw [rootItems_addFolderKey, stKeys_addFolderKey, hrq x]
    by_cases hx : x = q
    · subst hx
      rw [if_neg, if_neg]
      · rintro ⟨_, _, hat2⟩
        rw [hat] at hat2
        exact absurd hat2 (by simp)
      · rintro ⟨hk, _, _⟩
        exact hq hk
    · refine if_congr ?_ rfl rfl
      simp [List.mem_append, List.mem_singleton, hx]
  · intro p f
    unfold entryCountAt
    rw [childrenOf_addFolderKey hq]
    exact hcf p f
  · intro p c
    have htrans : entryCountAt (addFolderKey st q) p (Entry.folder c) =
        entryCountAt st p (Entry.folder c) := by
      unfold entryCountAt
      rw [childrenOf_addFolderKey hq]
    rw [htrans, stKeys_addFolderKey, hcq p c]
    by_cases hx : c = q
    · subst hx
      rw [if_neg, if_neg]
      · rintro ⟨_, _, hat2⟩
        rw [hat] at hat2
        exact absurd hat2 (by simp)
      · rintro ⟨hk, _, _⟩
        exact hq hk
    · refine if_congr ?_ rfl rfl
      simp [List.mem_append, List.mem_singleton, hx]

theorem InvMid_add_rootAttach {roots done extra pending : List String} {st : BuildState}
    {q : String} (hinv : InvMid roots done extra pending st) (hq : q ∉ stKeys st)
    (hat : attachTarget roots q = some none) :
    InvMid roots done (q :: extra) pending (pushRoot (addFolderKey st q) (Entry.folder q)) := by
  have hqp : q ∉ pending := fun hp => hq (hinv.pending_subset q hp)
  obtain ⟨hnd, hmem, hrf, hrq, hcf, hcq⟩ := hinv
  have hwc : walkChain roots q = [q] := walkChain_single (Or.inr hat)
  refine ⟨?_, ?_, ?_, ?_, ?_, ?_⟩
  · rw [stKeys_pushRoot, stKeys_addFolderKey, List.nodup_append]
    refine ⟨hnd, List.nodup_singleton q, ?_⟩
    intro x hx hx1
    rw [List.mem_singleton] at hx1
    exact hq (hx1 ▸ hx)
  · intro x
    rw [stKeys_pushRoot, stKeys_addFolderKey, List.mem_append, List.mem_singleton, hmem x]
    constructor
    · rintro ((hd | he | hp) | hxq)
      · exact Or.inl hd
      · obtain ⟨y, hy, hxy⟩ := he
        exact Or.inr (Or.inl ⟨y, List.mem_cons_of_mem _ hy, hxy⟩)
      · exact Or.inr (Or.inr hp)
      · exact Or.inr (Or.inl ⟨q, List.mem_cons_self _ _, by
          rw [hxq, hwc]; exact List.mem_singleton_self q⟩)
    · rintro (hd | ⟨y, hy, hxy⟩ | hp)
      · exact Or.inl (Or.inl hd)
      · rcases List.mem_cons.mp hy with rfl | hy2
        · rw [hwc] at hxy
          exact Or.inr (List.mem_singleton.mp hxy)
        · exact Or.inl (Or.inr (Or.inl ⟨y, hy2, hxy⟩))
      · exact Or.inl (Or.inr (Or.inr hp))
  · intro f
    rw [rootItems_pushRoot, rootItems_addFolderKey, count_append_single, hrf f]
    simp
  · intro x
    rw [rootItems_pushRoot, rootItems_addFolderKey, stKeys_pushRoot, stKeys_addFolderKey,
      count_append_single, hrq x]
    by_cases hx : x = q
    · subst hx
      rw [if_neg (fun hcon => hq hcon.1), if_pos rfl, if_pos
        (show x ∈ stKeys st ++ [x] ∧ x ∉ pending ∧ attachTarget roots x = some none from
          ⟨List.mem_append.mpr (Or.inr (List.mem_singleton_self x)), hqp, hat⟩)]
    · rw [if_neg (fun hcon : Entry.folder q = Entry.folder x => hx (Entry.folder.inj hcon).symm)]
      rw [Nat.add_zero]
      refine if_congr ?_ rfl rfl
      simp [List.mem_append, List.mem_singleton, hx]
  · intro p f
    have htrans : entryCountAt (pushRoot (addFolderKey st q) (Entry.folder q)) p (Entry.file f) =
        entryCountAt st p (Entry.file f) := by
      unfold entryCountAt
      rw [childrenOf_pushRoot, childrenOf_addFolderKey hq]
    rw [htrans]
    exact hcf p f
  · intro p c
    have htrans : entryCountAt (pushRoot (addFolderKey st q) (Entry.folder q)) p (Entry.folder c) =
        entryCountAt st p (Entry.folder c) := by
      unfold entryCountAt
      rw [childrenOf_pushRoot, childrenOf_addFolderKey hq]
    rw [htrans, stKeys_pushRoot, stKeys_addFolderKey, hcq p c]
    by_cases hx : c = q
    · subst hx
      rw [if_neg (fun hcon => hq hcon.1), if_neg]
      rintro ⟨_, _, hat2⟩
      rw [hat] at hat2
      exact absurd hat2 (by simp)
    · refine if_congr ?_ rfl rfl
      simp [List.mem_append, List.mem_singleton, hx]

theorem InvMid_add_pending {roots done extra pending : List String} {st : BuildState}
    {q : String} (hinv : InvMid roots done extra pending st) (hq : q ∉ stKeys st) :
    InvMid roots done extra (q :: pending) (addFolderKey st q) := by
  obtain ⟨hnd, hmem, hrf, hrq, hcf, hcq⟩ := hinv
  refine ⟨?_, ?_, ?_, ?_, ?_, ?_⟩
  · rw [stKeys_addFolderKey, List.nodup_append]
    refine ⟨hnd, List.nodup_singleton q, ?_⟩
    intro x hx hx1
    rw [List.mem_singleton] at hx1
    exact hq (hx1 ▸ hx)
  · intro x
    rw [stKeys_addFolderKey, List.mem_append, List.mem_singleton, hmem x]
    constructor
    · rintro ((hd | he | hp) | hxq)
      · exact Or.inl hd
      · exact Or.inr (Or.inl he)
      · exact Or.inr (Or.inr (List.mem_cons_of_mem _ hp))
      · exact Or.inr (Or.inr (hxq ▸ List.mem_cons_self _ _))
    · rintro (hd | he | hp)
      · exact Or.inl (Or.inl hd)
      · exact Or.inl (Or.inr (Or.inl he))
      · rcases List.mem_cons.mp hp with rfl | hp2
        · exact Or.inr rfl
        · exact Or.inl (Or.inr (Or.inr hp2))
  · intro f
    rw [rootItems_addFolderKey]
    exact hrf f
  · intro x
    rw [rootItems_addFolderKey, stKeys_addFolderKey, hrq x]
    by_cases hx : x = q
    · subst hx
      rw [if_neg (fun hcon => hq hcon.1), if_neg]
      rintro ⟨_, hnp, _⟩
      exact hnp (List.mem_cons_self _ _)
    · refine if_congr ?_ rfl rfl
      constructor
      · rintro ⟨hk, hnp, h3⟩
        exact ⟨List.mem_append.mpr (Or.inl hk), fun hp => hnp (List.mem_cons.mp hp |>.resolve_left hx), h3⟩
      · rintro ⟨hk, hnp, h3⟩
        rcases List.mem_append.mp hk with hk2 | hk2
        · exact ⟨hk2, fun hp => hnp (List.mem_cons_of_mem _ hp), h3⟩
        · exact absurd (List.mem_singleton.mp hk2) hx
  · intro p f
    have htrans : entryCountAt (addFolderKey st q) p (Entry.file f) =
        entryCountAt st p (Entry.file f) := by
      unfold entryCountAt
      rw [childrenOf_addFolderKey hq]
    rw [htrans]
    exact hcf p f
  · intro p c
    have htrans : entryCountAt (addFolderKey st q) p (Entry.folder c) =
        entryCountAt st p (Entry.folder c) := by
      unfold entryCountAt
      rw [childrenOf_addFolderKey hq]
    rw [htrans, stKeys_addFolderKey, hcq p c]
    by_cases hx : c = q
    · subst hx
      rw [if_neg (fun hcon => hq hcon.1), if_neg]
      rintro ⟨_, hnp, _⟩
      exact hnp (List.mem_cons_self _ _)
    · refine if_congr ?_ rfl rfl
      constructor
      · rintro ⟨hk, hnp, h3⟩
        exact ⟨List.mem_append.mpr (Or.inl hk), fun hp => hnp (List.mem_cons.mp hp |>.resolve_left hx), h3⟩
      · rintro ⟨hk, hnp, h3⟩
        rcases List.mem_append.mp hk with hk2 | hk2
        · exact ⟨hk2, fun hp => hnp (List.mem_cons_of_mem _ hp), h3⟩
        · exact absurd (List.mem_singleton.mp hk2) hx

theorem InvMid_cacheHit {roots done extra pending : List String} {st : BuildState}
    {q : String} (hinv : InvMid roots done extra pending st) (hq : q ∈ stKeys st)
    (hqp : q ∉ pending) :
    InvMid roots done (q :: extra) pending st := by
  obtain ⟨hnd, hmem, hrf, hrq, hcf, hcq⟩ := hinv
  refine ⟨hnd, ?_, hrf, hrq, hcf, hcq⟩
  intro x
  rw [hmem x]
  constructor
  · rintro (hd | ⟨y, hy, hxy⟩ | hp)
    · exact Or.inl hd
    · exact Or.inr (Or.inl ⟨y, List.mem_cons_of_mem _ hy, hxy⟩)
    · exact Or.inr (Or.inr hp)
  · rintro (hd | ⟨y, hy, hxy⟩ | hp)
    · exact Or.inl hd
    · rcases List.mem_cons.mp hy with rfl | hy2
      · rcases (hmem y).mp hq with hd2 | ⟨z, hz, hyz⟩ | hp2
        · obtain ⟨fp, hfp, hqc⟩ := hd2
          exact Or.inl ⟨fp, hfp, mem_fileCreates_closure hqc hxy⟩
        · exact Or.inr (Or.inl ⟨z, hz, walkChain_closure hyz hxy⟩)
        · exact absurd hp2 hqp
      · exact Or.inr (Or.inl ⟨y, hy2, hxy⟩)
    · exact Or.inr (Or.inr hp)

theorem InvMid_attach_pending {roots done extra pending : List String} {st : BuildState}
    {q : String} (hinv : InvMid roots done (dirname q :: extra) (q :: pending) st)
    (hqp : q ∉ pending) (hat : attachTarget roots q = some (some (dirname q))) :
    InvMid roots done (q :: extra) pending (pushChild st (dirname q) (Entry.folder q)) := by
  have hdk : dirname q ∈ stKeys st :=
    (hinv.memKeys (dirname q)).mpr
      (Or.inr (Or.inl ⟨dirname q, List.mem_cons_self _ _, self_mem_walkChain roots (dirname q)⟩))
  have hqk : q ∈ stKeys st :=
    (hinv.memKeys q).mpr (Or.inr (Or.inr (List.mem_cons_self _ _)))
  obtain ⟨hnd, hmem, hrf, hrq, hcf, hcq⟩ := hinv
  have hwc : walkChain roots q = q :: walkChain roots (dirname q) := walkChain_cons hat
  refine ⟨?_, ?_, ?_, ?_, ?_, ?_⟩
  · rw [stKeys_pushChild]
    exact hnd
  · intro x
    rw [stKeys_pushChild, hmem x]
    constructor
    · rintro (hd | ⟨y, hy, hxy⟩ | hp)
      · exact Or.inl hd
      · rcases List.mem_cons.mp hy with rfl | hy2
        · exact Or.inr (Or.inl ⟨q, List.mem_cons_self _ _, by
            rw [hwc]; exact List.mem_cons_of_mem _ hxy⟩)
        · exact Or.inr (Or.inl ⟨y, List.mem_cons_of_mem _ hy2, hxy⟩)
      · rcases List.mem_cons.mp hp with rfl | hp2
        · exact Or.inr (Or.inl ⟨x, List.mem_cons_self _ _, self_mem_walkChain roots x⟩)
        · exact Or.inr (Or.inr hp2)
    · rintro (hd | ⟨y, hy, hxy⟩ | hp)
      · exact Or.inl hd
      · rcases List.mem_cons.mp hy with rfl | hy2
        · rw [hwc] at hxy
          rcases List.mem_cons.mp hxy with rfl | hxy2
          · exact Or.inr (Or.inr (List.mem_cons_self _ _))
          · exact Or.inr (Or.inl ⟨dirname y, List.mem_cons_self _ _, hxy2⟩)
        · exact Or.inr (Or.inl ⟨y, List.mem_cons_of_mem _ hy2, hxy⟩)
      · exact Or.inr (Or.inr (List.mem_cons_of_mem _ hp))
  · intro f
    rw [rootItems_pushChild]
    exact hrf f
  · intro x
    rw [rootItems_pushChild, stKeys_pushChild, hrq x]
    by_cases hx : x = q
    · subst hx
      rw [if_neg, if_neg]
      · rintro ⟨_, _, hat2⟩
        rw [hat] at hat2
        exact absurd hat2 (by simp)
      · rintro ⟨_, hnp, _⟩
        exact hnp (List.mem_cons_self _ _)
    · refine if_congr ?_ rfl rfl
      constructor
      · rintro ⟨hk, hnp, h3⟩
        exact ⟨hk, fun hp => hnp (List.mem_cons_of_mem _ hp), h3⟩
      · rintro ⟨hk, hnp, h3⟩
        exact ⟨hk, fun hp => hnp (List.mem_cons.mp hp |>.resolve_left hx), h3⟩
  · intro p f
    by_cases hp : p = dirname q
    · rw [hp]
      have htrans : entryCountAt (pushChild st (dirname q) (Entry.folder q)) (dirname q)
          (Entry.file f) = entryCountAt st (dirname q) (Entry.file f) := by
        unfold entryCountAt
        rw [childrenOf_pushChild_self _ hdk, count_append_single]
        simp
      rw [htrans]
      exact hcf (dirname q) f
    · have htrans : entryCountAt (pushChild st (dirname q) (Entry.folder q)) p (Entry.file f) =
          entryCountAt st p (Entry.file f) := by
        unfold entryCountAt
        rw [childrenOf_pushChild_ne _ hp]
      rw [htrans]
      exact hcf p f
  · intro p c
    by_cases hp : p = dirname q
    · rw [hp]
      have htrans : entryCountAt (pushChild st (dirname q) (Entry.folder q)) (dirname q)
          (Entry.folder c) = entryCountAt st (dirname q) (Entry.folder c) +
            (if q = c then 1 else 0) := by
        unfold entryCountAt
        rw [childrenOf_pushChild_self _ hdk, count_append_single]
        by_cases hqc : q = c
        · simp [hqc]
        · rw [if_neg (fun hcon : Entry.folder q = Entry.folder c => hqc (Entry.folder.inj hcon)),
            if_neg hqc]
      rw [htrans, stKeys_pushChild, hcq (dirname q) c]
      by_cases hx : c = q
      · rw [hx]
        rw [if_neg, if_pos rfl, if_pos ⟨hqk, hqp, hat⟩]
        rintro ⟨_, hnp, _⟩
        exact hnp (List.mem_cons_self _ _)
      · rw [if_neg (show ¬ q = c from fun hcon => hx hcon.symm), Nat.add_zero]
        refine if_congr ?_ rfl rfl
        constructor
        · rintro ⟨hk, hnp, h3⟩
          exact ⟨hk, fun hp2 => hnp (List.mem_cons_of_mem _ hp2), h3⟩
        · rintro ⟨hk, hnp, h3⟩
          exact ⟨hk, fun hp2 => hnp (List.mem_cons.mp hp2 |>.resolve_left hx), h3⟩
    · have htrans : entryCountAt (pushChild st (dirname q) (Entry.folder q)) p (Entry.folder c) =
          entryCountAt st p (Entry.folder c) := by
        unfold entryCountAt
        rw [childrenOf_pushChild_ne _ hp]
      rw [htrans, stKeys_pushChild, hcq p c]
      by_cases hx : c = q
      · subst hx
        rw [if_neg, if_neg]
        · rintro ⟨_, _, hat2⟩
          rw [hat] at hat2
          exact hp (Option.some.inj (Option.some.inj hat2)).symm
        · rintro ⟨_, hnp, _⟩
          exact hnp (List.mem_cons_self _ _)
      · refine if_congr ?_ rfl rfl
        constructor
        · rintro ⟨hk, hnp, h3⟩
          exact ⟨hk, fun hp2 => hnp (List.mem_cons_of_mem _ hp2), h3⟩
        · rintro ⟨hk, hnp, h3⟩
          exact ⟨hk, fun hp2 => hnp (List.mem_cons.mp hp2 |>.resolve_left hx), h3⟩

theorem getOrCreate_invariant_aux (roots done : List String) :
    ∀ n q st extra pending, pathMeasure q ≤ n →
      InvMid roots done extra pending st →
      (∀ x ∈ pending, pathMeasure q < pathMeasure x) →
      InvMid roots done (q :: extra) pending (getOrCreateFolderHierarchy roots q st) ∧
        q ∈ stKeys (getOrCreateFolderHierarchy roots q st) := by
  intro n
  induction n with
  | zero =>
    intro q st extra pending h
    exact absurd h (by have := pathMeasure_pos q; omega)
  | succ n ih =>
    intro q st extra pending h hinv hpend
    rw [getOrCreateFolderHierarchy_eq]
    by_cases hc : cacheHas st q
    · rw [if_pos hc]
      have hqk := (cacheHas_iff st q).mp hc
      have hqp : q ∉ pending := fun hp => absurd (hpend q hp) (by omega)
      exact ⟨InvMid_cacheHit hinv hqk hqp, hqk⟩
    · rw [if_neg hc]
      have hq : q ∉ stKeys st := fun hk => hc ((cacheHas_iff st q).mpr hk)
      cases hm : matchedRoot roots q with
      | none =>
        refine ⟨InvMid_add_unmatched hinv hq hm, ?_⟩
        rw [stKeys_addFolderKey]
        exact List.mem_append.mpr (Or.inr (List.mem_singleton_self q))
      | some ws =>
        simp only
        by_cases h1 : q = ws ∨ dirname q = ws
        · rw [if_pos h1]
          refine ⟨InvMid_add_rootAttach hinv hq (attachTarget_of_stop1 hm h1), ?_⟩
          rw [stKeys_pushRoot, stKeys_addFolderKey]
          exact List.mem_append.mpr (Or.inr (List.mem_singleton_self q))
        · rw [if_neg h1]
          by_cases h2 : dirname q = q
          · rw [if_pos h2]
            refine ⟨InvMid_add_rootAttach hinv hq (attachTarget_of_fsroot hm h1 h2), ?_⟩
            rw [stKeys_pushRoot, stKeys_addFolderKey]
            exact List.mem_append.mpr (Or.inr (List.mem_singleton_self q))
          · rw [if_neg h2]
            have hat := attachTarget_of_nested hm h1 h2
            have hlt := pathMeasure_dirname_lt h2
            have hinv1 : InvMid roots done extra (q :: pending) (addFolderKey st q) :=
              InvMid_add_pending hinv hq
            have hpend1 : ∀ x ∈ q :: pending, pathMeasure (dirname q) < pathMeasure x := by
              intro x hx
              rcases List.mem_cons.mp hx with hxq | hx2
              · rw [hxq]; exact hlt
              · have := hpend x hx2; omega
            obtain ⟨hinv2, _⟩ := ih (dirname q) (addFolderKey st q) extra (q :: pending)
              (by omega) hinv1 hpend1
            have hqp : q ∉ pending := fun hp => absurd (hpend q hp) (by omega)
            refine ⟨InvMid_attach_pending hinv2 hqp hat, ?_⟩
            rw [stKeys_pushChild]
            exact (hinv2.memKeys q).mpr (Or.inr (Or.inr (List.mem_cons_self _ _)))

theorem getOrCreate_invariant {roots done : List String} {q : String} {st : BuildState}
    (hinv : InvMid roots done [] [] st) :
    InvMid roots done [q] [] (getOrCreateFolderHierarchy roots q st) ∧
      q ∈ stKeys (getOrCreateFolderHierarchy roots q st) :=
  getOrCreate_invariant_aux roots done (pathMeasure q) q st [] [] (Nat.le_refl _) hinv
    (by intro x hx; simp at hx)

theorem InvMid_done_unmatched {roots done : List String} {st : BuildState} {fp : String}
    (hinv : InvMid roots done [] [] st) (hm : matchedRoot roots fp = none) :
    InvMid roots (done ++ [fp]) [] [] st := by
  obtain ⟨hnd, hmem, hrf, hrq, hcf, hcq⟩ := hinv
  have hfc : fileCreates roots fp = [] := by unfold fileCreates; rw [hm]
  refine ⟨hnd, ?_, ?_, hrq, ?_, hcq⟩
  · intro x
    rw [hmem x]
    constructor
    · rintro (⟨g, hg, hx⟩ | he | hp)
      · exact Or.inl ⟨g, List.mem_append.mpr (Or.inl hg), hx⟩
      · simp at he
      · simp at hp
    · rintro (⟨g, hg, hx⟩ | he | hp)
      · rcases List.mem_append.mp hg with hg2 | hg2
        · exact Or.inl ⟨g, hg2, hx⟩
        · rw [List.mem_singleton.mp hg2, hfc] at hx
          simp at hx
      · simp at he
      · simp at hp
  · intro f
    rw [hrf f]
    by_cases hf : fp = f
    · have hroot : isRootFile roots f = false := by
        unfold isRootFile
        rw [← hf, hm]
      rw [hroot]
      simp
    · rw [count_append_single, if_neg hf, Nat.add_zero]
  · intro p f
    rw [hcf p f]
    by_cases hf : fp = f
    · have hms : (matchedRoot roots f).isSome = false := by rw [← hf, hm]; rfl
      rw [hms]
      simp
    · rw [count_append_single, if_neg hf, Nat.add_zero]

theorem InvMid_done_rootFile {roots done : List String} {st : BuildState} {fp ws : String}
    (hinv : InvMid roots done [] [] st) (hm : matchedRoot roots fp = some ws)
    (hd : dirname fp = ws) :
    InvMid roots (done ++ [fp]) [] [] (pushRoot st (Entry.file fp)) := by
  obtain ⟨hnd, hmem, hrf, hrq, hcf, hcq⟩ := hinv
  have hroot : isRootFile roots fp = true := by
    unfold isRootFile
    rw [hm]
    simp [hd]
  have hfc : fileCreates roots fp = [] := by
    unfold fileCreates
    rw [hm]
    simp only
    rw [if_pos hd]
  refine ⟨?_, ?_, ?_, ?_, ?_, ?_⟩
  · rw [stKeys_pushRoot]; exact hnd
  · intro x
    rw [stKeys_pushRoot, hmem x]
    constructor
    · rintro (⟨g, hg, hx⟩ | he | hp)
      · exact Or.inl ⟨g, List.mem_append.mpr (Or.inl hg), hx⟩
      · simp at he
      · simp at hp
    · rintro (⟨g, hg, hx⟩ | he | hp)
      · rcases List.mem_append.mp hg with hg2 | hg2
        · exact Or.inl ⟨g, hg2, hx⟩
        · rw [List.mem_singleton.mp hg2, hfc] at hx
          simp at hx
      · simp at he
      · simp at hp
  · intro f
    rw [rootItems_pushRoot, count_append_single, hrf f]
    by_cases hf : fp = f
    · rw [← hf, hroot, if_pos rfl, count_append_single, if_pos rfl]
      simp
    · rw [if_neg (fun hcon : Entry.file fp = Entry.file f => hf (Entry.file.inj hcon)),
        Nat.add_zero, count_append_single, if_neg hf, Nat.add_zero]
  · intro x
    rw [rootItems_pushRoot, count_append_single, stKeys_pushRoot,
      if_neg (fun hcon : Entry.file fp = Entry.folder x => Entry.noConfusion hcon),
      Nat.add_zero]
    exact hrq x
  · intro p f
    have htrans : entryCountAt (pushRoot st (Entry.file fp)) p (Entry.file f) =
        entryCountAt st p (Entry.file f) := rfl
    rw [htrans, hcf p f]
    by_cases hf : fp = f
    · rw [← hf, hroot]
      simp
    · rw [count_append_single, if_neg hf, Nat.add_zero]
  · intro p c
    exact hcq p c

theorem InvMid_done_nestedFile {roots done : List String} {st1 : BuildState} {fp ws : String}
    (hinv1 : InvMid roots done [dirname fp] [] st1) (hdk : dirname fp ∈ stKeys st1)
    (hm : matchedRoot roots fp = some ws) (hd : dirname fp ≠ ws) :
    InvMid roots (done ++ [fp]) [] [] (pushChild st1 (dirname fp) (Entry.file fp)) := by
  obtain ⟨hnd, hmem, hrf, hrq, hcf, hcq⟩ := hinv1
  have hroot : isRootFile roots fp = false := by
    unfold isRootFile
    rw [hm]
    simp [hd]
  have hfc : fileCreates roots fp = walkChain roots (dirname fp) := by
    unfold fileCreates
    rw [hm]
    simp only
    rw [if_neg hd]
  refine ⟨?_, ?_, ?_, ?_, ?_, ?_⟩
  · rw [stKeys_pushChild]; exact hnd
  · intro x
    rw [stKeys_pushChild, hmem x]
    constructor
    · rintro (⟨g, hg, hx⟩ | ⟨y, hy, hxy⟩ | hp)
      · exact Or.inl ⟨g, List.mem_append.mpr (Or.inl hg), hx⟩
      · rw [List.mem_singleton.mp hy] at hxy
        exact Or.inl ⟨fp, List.mem_append.mpr (Or.inr (List.mem_singleton_self fp)),
          by rw [hfc]; exact hxy⟩
      · simp at hp
    · rintro (⟨g, hg, hx⟩ | he | hp)
      · rcases List.mem_append.mp hg with hg2 | hg2
        · exact Or.inl ⟨g, hg2, hx⟩
        · rw [List.mem_singleton.mp hg2, hfc] at hx
          exact Or.inr (Or.inl ⟨dirname fp, List.mem_singleton_self _, hx⟩)
      · simp at he
      · simp at hp
  · intro f
    rw [rootItems_pushChild, hrf f]
    by_cases hf : fp = f
    · rw [← hf, hroot]
      simp
    · rw [count_append_single, if_neg hf, Nat.add_zero]
  · intro x
    rw [rootItems_pushChild, stKeys_pushChild]
    exact hrq x
  · intro p f
    by_cases hp : p = dirname fp
    · rw [hp]
      have htrans : entryCountAt (pushChild st1 (dirname fp) (Entry.file fp)) (dirname fp)
          (Entry.file f) = entryCountAt st1 (dirname fp) (Entry.file f) +
            (if fp = f then 1 else 0) := by
        unfold entryCountAt
        rw [childrenOf_pushChild_self _ hdk, count_append_single]
        by_cases hf : fp = f
        · rw [if_pos hf, if_pos (by rw [hf])]
        · rw [if_neg hf,
            if_neg (fun hcon : Entry.file fp = Entry.file f => hf (Entry.file.inj hcon))]
      rw [htrans, hcf (dirname fp) f]
      by_cases hf : fp = f
      · rw [← hf, if_pos rfl, if_pos ⟨by rw [hm]; rfl, rfl, hroot⟩,
          if_pos ⟨by rw [hm]; rfl, rfl, hroot⟩, count_append_single, if_pos rfl]
      · rw [if_neg hf, Nat.add_zero, count_append_single, if_neg hf, Nat.add_zero]
    · have htrans : entryCountAt (pushChild st1 (dirname fp) (Entry.file fp)) p
          (Entry.file f) = entryCountAt st1 p (Entry.file f) := by
        unfold entryCountAt
        rw [childrenOf_pushChild_ne _ hp]
      rw [htrans, hcf p f]
      by_cases hf : fp = f
      · rw [← hf, if_neg (fun hcon => hp hcon.2.1.symm),
          if_neg (fun hcon => hp hcon.2.1.symm)]
      · rw [count_append_single, if_neg hf, Nat.add_zero]
  · intro p c
    by_cases hp : p = dirname fp
    · rw [hp]
      have htrans : entryCountAt (pushChild st1 (dirname fp) (Entry.file fp)) (dirname fp)
          (Entry.folder c) = entryCountAt st1 (dirname fp) (Entry.folder c) := by
        unfold entryCountAt
        rw [childrenOf_pushChild_self _ hdk, count_append_single,
          if_neg (fun hcon : Entry.file fp = Entry.folder c => Entry.noConfusion hcon),
          Nat.add_zero]
      rw [htrans, stKeys_pushChild]
      exact hcq (dirname fp) c
    · have htrans : entryCountAt (pushChild st1 (dirname fp) (Entry.file fp)) p
          (Entry.folder c) = entryCountAt st1 p (Entry.folder c) := by
        unfold entryCountAt
        rw [childrenOf_pushChild_ne _ hp]
      rw [htrans, stKeys_pushChild]
      exact hcq p c

theorem processFile_invariant (roots done : List String) (st : BuildState) (fp : String)
    (hinv : InvMid roots done [] [] st) :
    InvMid roots (done ++ [fp]) [] [] (processFile roots st fp) := by
  unfold processFile
  cases hm : matchedRoot roots fp with
  | none => exact InvMid_done_unmatched hinv hm
  | some ws =>
    simp only
    by_cases hd : dirname fp = ws
    · rw [if_pos hd]
      exact InvMid_done_rootFile hinv hm hd
    · rw [if_neg hd]
      obtain ⟨hinv1, hdk⟩ := getOrCreate_invariant (q := dirname fp) hinv
      exact InvMid_done_nestedFile hinv1 hdk hm hd

theorem buildState_invariant (roots paths : List String) :
    InvMid roots paths [] [] (buildState roots paths) := by
  have hstep : ∀ (l done : List String) (st : BuildState), InvMid roots done [] [] st →
      InvMid roots (done ++ l) [] [] (l.foldl (processFile roots) st) := by
    intro l
    induction l with
    | nil => intro done st h; simpa using h
    | cons fp t iht =>
      intro done st h
      have h1 := processFile_invariant roots done st fp h
      have h2 := iht (done ++ [fp]) _ h1
      simpa using h2
  have h0 : InvMid roots [] [] [] ⟨[], []⟩ := by
    refine ⟨?_, ?_, ?_, ?_, ?_, ?_⟩
    · simp [stKeys]
    · intro q; simp [stKeys]
    · intro f; simp
    · intro q; simp [stKeys]
    · intro p f; simp [entryCountAt, childrenOf, lookupChildren]
    · intro p c; simp [entryCountAt, childrenOf, lookupChildren, stKeys]
  simpa using hstep paths [] _ h0

/-! ## The sibling comparator and the sibling sort -/

theorem pathLE_total : ∀ x y : List Char, pathLE x y = true ∨ pathLE y x = true := by
  intro x
  induction x with
  | nil => intro y; left; rfl
  | cons a as ih =>
    intro y
    cases y with
    | nil => right; rfl
    | cons b bs =>
      unfold pathLE
      by_cases h1 : a < b
      · left; rw [if_pos h1]
      · by_cases h2 : b < a
        · right
          rw [if_pos h2]
        · have hab : a = b := le_antisymm (not_lt.mp h2) (not_lt.mp h1)
          subst hab
          rw [if_neg h1, if_neg h1, if_neg h2, if_neg h2]
          exact ih bs

theorem pathLE_trans : ∀ x y z : List Char,
    pathLE x y = true → pathLE y z = true → pathLE x z = true := by
  intro x
  induction x with
  | nil => intro y z _ _; rfl
  | cons a as ih =>
    intro y z hxy hyz
    cases y with
    | nil => exact absurd hxy (by simp [pathLE])
    | cons b bs =>
      cases z with
      | nil => exact absurd hyz (by simp [pathLE])
      | cons c cs =>
        unfold pathLE at hxy hyz ⊢
        by_cases h1 : a < b
        · by_cases h2 : b < c
          · rw [if_pos (lt_trans h1 h2)]
          · by_cases h3 : c < b
            · rw [if_neg h2, if_pos h3] at hyz
              exact absurd hyz (by simp)
            · have hbc : b = c := le_antisymm (not_lt.mp h3) (not_lt.mp h2)
              subst hbc
              rw [if_pos h1]
        · by_cases h4 : b < a
          · rw [if_neg h1, if_pos h4] at hxy
            exact absurd hxy (by simp)
          · have hab : a = b := le_antisymm (not_lt.mp h4) (not_lt.mp h1)
            subst hab
            rw [if_neg h1, if_neg h4] at hxy
            by_cases h2 : a < c
            · rw [if_pos h2]
            · by_cases h3 : c < a
              · rw [if_neg h2, if_pos h3] at hyz
                exact absurd hyz (by simp)
              · have hac : a = c := le_antisymm (not_lt.mp h3) (not_lt.mp h2)
                subst hac
                rw [if_neg h2, if_neg h3] at hyz ⊢
                exact ih bs cs hxy hyz

theorem pathLE_antisymm : ∀ x y : List Char,
    pathLE x y = true → pathLE y x = true → x = y := by
  intro x
  induction x with
  | nil =>
    intro y _ hyx
    cases y with
    | nil => rfl
    | cons b bs => exact absurd hyx (by simp [pathLE])
  | cons a as ih =>
    intro y hxy hyx
    cases y with
    | nil => exact absurd hxy (by simp [pathLE])
    | cons b bs =>
      unfold pathLE at hxy hyx
      by_cases h1 : a < b
      · rw [if_neg (lt_asymm h1), if_pos h1] at hyx
        exact absurd hyx (by simp)
      · by_cases h2 : b < a
        · rw [if_neg h1, if_pos h2] at hxy
          exact absurd hxy (by simp)
        · have hab : a = b := le_antisymm (not_lt.mp h2) (not_lt.mp h1)
          subst hab
          rw [if_neg h1, if_neg h2] at hxy hyx
          rw [ih bs hxy hyx]

theorem treeLE_total (a b : Tree) : treeLE a b = true ∨ treeLE b a = true := by
  cases a with
  | node pa ka ca =>
    cases b with
    | node pb kb cb =>
      unfold treeLE
      simp only
      by_cases hk : ka = kb
      · rw [if_pos hk, if_pos hk.symm]
        exact pathLE_total pa.data pb.data
      · rw [if_neg hk, if_neg (Ne.symm hk)]
        cases ka with
        | File =>
          cases kb with
          | File => exact absurd rfl hk
          | Folder => right; simp
        | Folder => left; simp

theorem treeLE_trans {a b c : Tree} (hab : treeLE a b = true) (hbc : treeLE b c = true) :
    treeLE a c = true := by
  cases a with
  | node pa ka ca =>
    cases b with
    | node pb kb cb =>
      cases c with
      | node pc kc cc =>
        unfold treeLE at hab hbc ⊢
        simp only at hab hbc ⊢
        by_cases h1 : ka = kb
        · by_cases h2 : kb = kc
          · rw [if_pos h1] at hab
            rw [if_pos h2] at hbc
            rw [if_pos (h1.trans h2)]
            exact pathLE_trans _ _ _ hab hbc
          · rw [if_neg h2] at hbc
            rw [if_neg (h1 ▸ h2)]
            rw [← h1] at hbc
            exact hbc
        · rw [if_neg h1] at hab
          have hka : ka = ItemType.Folder := by simpa using hab
          by_cases h3 : ka = kc
          · rw [if_pos h3]
            exfalso
            have hkb : kb ≠ ItemType.Folder := fun hc => h1 (hka.trans hc.symm)
            have hkb2 : kb = ItemType.File := by
              cases kb with
              | File => rfl
              | Folder => exact absurd rfl hkb
            by_cases h2 : kb = kc
            · rw [if_pos h2] at hbc
              exact h1 (h3.trans h2.symm)
            · rw [if_neg h2] at hbc
              rw [hkb2] at hbc
              simp at hbc
          · rw [if_neg h3]
            simpa using hka

theorem sortInsert_perm {α : Type} (le : α → α → Bool) (a : α) :
    ∀ l : List α, (sortInsert le a l).Perm (a :: l) := by
  intro l
  induction l with
  | nil => rfl
  | cons b bs ih =>
    unfold sortInsert
    by_cases h : le b a
    · rw [if_pos h]
      exact (ih.cons b).trans (List.Perm.swap a b bs)
    · rw [if_neg h]

theorem sortList_perm {α : Type} (le : α → α → Bool) :
    ∀ l : List α, (sortList le l).Perm l := by
  intro l
  induction l with
  | nil => rfl
  | cons a l ih =>
    unfold sortList
    exact (sortInsert_perm le a (sortList le l)).trans (ih.cons a)

theorem mem_sortInsert {α : Type} (le : α → α → Bool) (a x : α) (l : List α) :
    x ∈ sortInsert le a l ↔ x = a ∨ x ∈ l := by
  rw [(sortInsert_perm le a l).mem_iff]
  exact List.mem_cons

theorem sortInsert_sorted {α : Type} (le : α → α → Bool)
    (htot : ∀ x y, le x y = true ∨ le y x = true)
    (htr : ∀ {x y z}, le x y = true → le y z = true → le x z = true)
    (a : α) : ∀ l : List α, l.Pairwise (fun x y => le x y = true) →
      (sortInsert le a l).Pairwise (fun x y => le x y = true) := by
  intro l
  induction l with
  | nil => intro _; simp [sortInsert]
  | cons b bs ih =>
    intro hs
    rw [List.pairwise_cons] at hs
    unfold sortInsert
    by_cases h : le b a
    · rw [if_pos h]
      rw [List.pairwise_cons]
      refine ⟨?_, ih hs.2⟩
      intro x hx
      rcases (mem_sortInsert le a x bs).mp hx with rfl | hx2
      · exact h
      · exact hs.1 x hx2
    · rw [if_neg h]
      have hab : le a b = true := (htot a b).resolve_right (fun hc => h hc)
      rw [List.pairwise_cons]
      refine ⟨?_, List.pairwise_cons.mpr hs⟩
      intro x hx
      rcases List.mem_cons.mp hx with rfl | hx2
      · exact hab
      · exact htr hab (hs.1 x hx2)

theorem sortList_sorted {α : Type} (le : α → α → Bool)
    (htot : ∀ x y, le x y = true ∨ le y x = true)
    (htr : ∀ {x y z}, le x y = true → le y z = true → le x z = true) :
    ∀ l : List α, (sortList le l).Pairwise (fun x y => le x y = true) := by
  intro l
  induction l with
  | nil => simp [sortList]
  | cons a l ih => exact sortInsert_sorted le htot htr a (sortList le l) ih

theorem sorted_perm_unique {α : Type} (le : α → α → Bool) :
    ∀ l₁ l₂ : List α, l₁.Pairwise (fun x y => le x y = true) →
      l₂.Pairwise (fun x y => le x y = true) → l₁.Perm l₂ →
      (∀ a b, a ∈ l₁ → b ∈ l₁ → le a b = true → le b a = true → a = b) → l₁ = l₂ := by
  intro l₁
  induction l₁ with
  | nil => intro l₂ _ _ hp _; exact (hp.nil_eq).symm ▸ rfl
  | cons a t ih =>
    intro l₂ hs1 hs2 hp hanti
    cases l₂ with
    | nil => exact absurd hp.symm (by simp)
    | cons b t2 =>
      have hab : a = b := by
        by_cases h : a = b
        · exact h
        · have hain : a ∈ b :: t2 := hp.mem_iff.mp (List.mem_cons_self a t)
          have hbin : b ∈ a :: t := hp.mem_iff.mpr (List.mem_cons_self b t2)
          have ha2 : a ∈ t2 := (List.mem_cons.mp hain).resolve_left h
          have hb2 : b ∈ t := (List.mem_cons.mp hbin).resolve_left (fun hc => h hc.symm)
          have h1 : le a b = true := (List.pairwise_cons.mp hs1).1 b hb2
          have h2 : le b a = true := (List.pairwise_cons.mp hs2).1 a ha2
          exact hanti a b (List.mem_cons_self a t) (List.mem_cons_of_mem _ hb2) h1 h2
      subst hab
      have hp2 : t.Perm t2 := hp.cons_inv
      have ht := ih t2 (List.pairwise_cons.mp hs1).2 (List.pairwise_cons.mp hs2).2 hp2
        (fun x y hx hy => hanti x y (List.mem_cons_of_mem _ hx) (List.mem_cons_of_mem _ hy))
      rw [ht]

/-! ## Attachment-chain combinatorics for the materialised forest -/

theorem attachedUnder_of_edge {roots : List String} {c q : String}
    (h : attachTarget roots c = some (some q)) : attachedUnder roots q c = true := by
  obtain ⟨rfl, hne, _⟩ := attachTarget_parent_elim h
  by_cases hc : c = dirname c
  · exact (attachedUnder_shape roots (dirname c) c).1 hc
  · rw [(attachedUnder_shape roots (dirname c) c).2.2 hc _ h]
    exact attachedUnder_refl roots (dirname c)

theorem attachedUnder_edge_exists_aux (roots : List String) (q : String) :
    ∀ n c, pathMeasure c ≤ n → attachedUnder roots q c = true → c ≠ q →
      ∃ c₀, attachTarget roots c₀ = some (some q) ∧ attachedUnder roots c₀ c = true ∧
        c₀ ∈ walkChain roots c := by
  intro n
  induction n with
  | zero => intro c h; exact absurd h (by have := pathMeasure_pos c; omega)
  | succ n ih =>
    intro c h hau hne
    rcases attachTarget_trichotomy roots c with ⟨hat, hdc, _⟩ | hstop
    · rw [(attachedUnder_shape roots q c).2.2 hne _ hat] at hau
      by_cases hdq : dirname c = q
      · refine ⟨c, by rw [hat, hdq], attachedUnder_refl roots c, self_mem_walkChain roots c⟩
      · have hlt := pathMeasure_dirname_lt hdc
        obtain ⟨c₀, h1, h2, h3⟩ := ih (dirname c) (by omega) hau hdq
        have hc₀c : c₀ ≠ c := by
          intro hcc
          have hm1 := attachedUnder_measure h2
          have hm2 := attachTarget_parent_measure h1
          rw [hcc] at hm1
          omega
        refine ⟨c₀, h1, ?_, ?_⟩
        · rw [(attachedUnder_shape roots c₀ c).2.2 (fun hc => hc₀c hc.symm) _ hat]
          exact h2
        · rw [walkChain_cons hat]
          exact List.mem_cons_of_mem _ h3
    · rw [(attachedUnder_shape roots q c).2.1 hne hstop] at hau
      exact absurd hau (by simp)

theorem attachedUnder_edge_exists {roots : List String} {q c : String}
    (hau : attachedUnder roots q c = true) (hne : c ≠ q) :
    ∃ c₀, attachTarget roots c₀ = some (some q) ∧ attachedUnder roots c₀ c = true ∧
      c₀ ∈ walkChain roots c :=
  attachedUnder_edge_exists_aux roots q (pathMeasure c) c (Nat.le_refl _) hau hne

theorem attachedUnder_edge_unique_aux (roots : List String) (q : String) :
    ∀ n c c₁ c₂, pathMeasure c ≤ n →
      attachTarget roots c₁ = some (some q) → attachTarget roots c₂ = some (some q) →
      attachedUnder roots c₁ c = true → attachedUnder roots c₂ c = true → c₁ = c₂ := by
  intro n
  induction n with
  | zero => intro c c₁ c₂ h; exact absurd h (by have := pathMeasure_pos c; omega)
  | succ n ih =>
    intro c c₁ c₂ h h1 h2 hau1 hau2
    by_cases hc1 : c = c₁
    · by_cases hcc : c₁ = c₂
      · exact hcc
      · exfalso
        rw [hc1] at hau2
        rw [(attachedUnder_shape roots c₂ c₁).2.2 (fun hx => hcc hx) _ h1] at hau2
        obtain ⟨rfl, _, _⟩ := attachTarget_parent_elim h1
        have hm1 := attachedUnder_measure hau2
        have hm2 := attachTarget_parent_measure h2
        omega
    · by_cases hc2 : c = c₂
      · exfalso
        rw [hc2] at hau1
        rw [(attachedUnder_shape roots c₁ c₂).2.2 (fun hx => hc1 (hc2.trans hx)) _ h2] at hau1
        obtain ⟨rfl, _, _⟩ := attachTarget_parent_elim h2
        have hm1 := attachedUnder_measure hau1
        have hm2 := attachTarget_parent_measure h1
        omega
      · rcases attachTarget_trichotomy roots c with ⟨hat, hdc, _⟩ | hstop
        · rw [(attachedUnder_shape roots c₁ c).2.2 hc1 _ hat] at hau1
          rw [(attachedUnder_shape roots c₂ c).2.2 hc2 _ hat] at hau2
          have hlt := pathMeasure_dirname_lt hdc
          exact ih (dirname c) c₁ c₂ (by omega) h1 h2 hau1 hau2
        · rw [(attachedUnder_shape roots c₁ c).2.1 hc1 hstop] at hau1
          exact absurd hau1 (by simp)

theorem attachedUnder_edge_unique {roots : List String} {q c c₁ c₂ : String}
    (h1 : attachTarget roots c₁ = some (some q)) (h2 : attachTarget roots c₂ = some (some q))
    (hau1 : attachedUnder roots c₁ c = true) (hau2 : attachedUnder roots c₂ c = true) :
    c₁ = c₂ :=
  attachedUnder_edge_unique_aux roots q (pathMeasure c) c c₁ c₂ (Nat.le_refl _) h1 h2 hau1 hau2

theorem keys_closure {roots done : List String} {st : BuildState}
    (hinv : InvMid roots done [] [] st) :
    ∀ q ∈ stKeys st, ∀ x ∈ walkChain roots q, x ∈ stKeys st := by
  intro q hq x hx
  rcases (hinv.memKeys q).mp hq with ⟨fp, hfp, hqc⟩ | he | hp
  · exact (hinv.memKeys x).mpr (Or.inl ⟨fp, hfp, mem_fileCreates_closure hqc hx⟩)
  · simp at he
  · simp at hp

theorem countP_lt_of {α : Type} {l : List α} {p r : α → Bool} {a : α}
    (ha : a ∈ l) (hpa : p a = false) (hra : r a = true)
    (hmono : ∀ x ∈ l, p x = true → r x = true) : l.countP p < l.countP r := by
  induction l with
  | nil => simp at ha
  | cons b t ih =>
    rw [List.countP_cons, List.countP_cons]
    rcases List.mem_cons.mp ha with rfl | ha2
    · rw [hpa, hra]
      have e1 : (if (false : Bool) = true then 1 else 0) = 0 := by simp
      have e2 : (if (true : Bool) = true then 1 else 0) = 1 := by simp
      rw [e1, e2]
      have : t.countP p ≤ t.countP r :=
        List.countP_mono_left (fun x hx => hmono x (List.mem_cons_of_mem _ hx))
      omega
    · have hbt : ∀ x ∈ t, p x = true → r x = true :=
        fun x hx => hmono x (List.mem_cons_of_mem _ hx)
      have hlt := ih ha2 hbt
      have : (if p b = true then 1 else 0) ≤ (if r b = true then 1 else 0) := by
        by_cases hb : p b = true
        · rw [if_pos hb, if_pos (hmono b (List.mem_cons_self _ _) hb)]
        · rw [if_neg hb]
          omega
      omega

theorem countP_eq_count_of {α : Type} [DecidableEq α] {l : List α} {p : α → Bool} {a : α}
    (h : ∀ e ∈ l, (p e = true ↔ e = a)) : l.countP p = l.count a := by
  rw [List.count_eq_countP]
  apply List.countP_congr
  intro x hx
  rw [h x hx]
  simp

theorem flat_count_map (F : Entry → Tree) :
    ∀ (l : List Entry) (x : String × ItemType),
      (itemsOfTrees (l.map F)).count x =
        ((l.map (fun e => (itemsOfTree (F e)).count x)).sum) := by
  intro l x
  induction l with
  | nil => rfl
  | cons e t ih =>
    rw [List.map_cons, List.map_cons, List.sum_cons, ← ih]
    show (itemsOfTree (F e) ++ itemsOfTrees (t.map F)).count x = _
    rw [List.count_append]

theorem sum_split (p1 p2 : Entry → Bool) (K : Nat) :
    ∀ (l : List Entry) (g : Entry → Nat),
      (∀ e ∈ l, g e = (if p1 e then 1 else 0) + K * (if p2 e then 1 else 0)) →
      (l.map g).sum = l.countP p1 + K * l.countP p2 := by
  intro l
  induction l with
  | nil => intro g _; simp
  | cons e t ih =>
    intro g hg
    rw [List.map_cons, List.sum_cons, List.countP_cons, List.countP_cons,
      hg e (List.mem_cons_self _ _), ih g (fun x hx => hg x (List.mem_cons_of_mem _ hx))]
    ring

theorem mem_childFolder_good {roots done : List String} {st : BuildState}
    (hinv : InvMid roots done [] [] st) {q c : String}
    (h : Entry.folder c ∈ childrenOf st q) :
    c ∈ stKeys st ∧ attachTarget roots c = some (some q) := by
  have hpos : 0 < (childrenOf st q).count (Entry.folder c) := List.count_pos_iff_mem.mpr h
  have := hinv.childFolderCount q c
  unfold entryCountAt at this
  rw [this] at hpos
  by_cases hcond : c ∈ stKeys st ∧ c ∉ ([] : List String) ∧ attachTarget roots c = some (some q)
  · exact ⟨hcond.1, hcond.2.2⟩
  · rw [if_neg hcond] at hpos
    omega

theorem childrenOf_countP_attached {roots done : List String} {st : BuildState}
    (hinv : InvMid roots done [] [] st) {q : String} (hq : q ∈ stKeys st) (X : String)
    (hX : X ∈ stKeys st) :
    (childrenOf st q).countP
        (fun e => match e with
          | Entry.folder c2 => attachedUnder roots c2 X
          | Entry.file _ => false) =
      if attachedUnder roots q X = true ∧ X ≠ q then 1 else 0 := by
  by_cases hcond : attachedUnder roots q X = true ∧ X ≠ q
  · obtain ⟨hau, hne⟩ := hcond
    obtain ⟨c₀, hc₀e, hc₀a, hc₀w⟩ := attachedUnder_edge_exists hau hne
    have hc₀k : c₀ ∈ stKeys st := keys_closure hinv X hX c₀ hc₀w
    rw [if_pos ⟨hau, hne⟩]
    rw [countP_eq_count_of (a := Entry.folder c₀) ?_]
    · have := hinv.childFolderCount q c₀
      unfold entryCountAt at this
      rw [this, if_pos ⟨hc₀k, by simp, hc₀e⟩]
    · intro e he
      cases e with
      | file g => simp
      | folder c2 =>
        obtain ⟨hc2k, hc2e⟩ := mem_childFolder_good hinv he
        simp only
        constructor
        · intro hc2a
          rw [attachedUnder_edge_unique hc2e hc₀e hc2a hc₀a]
        · intro hc2c
          cases Entry.folder.inj hc2c
          exact hc₀a
  · rw [if_neg hcond]
    rw [List.countP_eq_zero]
    intro e he
    cases e with
    | file g => simp
    | folder c2 =>
      obtain ⟨hc2k, hc2e⟩ := mem_childFolder_good hinv he
      simp only
      intro hc2a
      apply hcond
      constructor
      · exact attachedUnder_trans hc2a (attachedUnder_of_edge hc2e)
      · intro hXq
        rw [hXq] at hc2a
        have hm1 := attachedUnder_measure hc2a
        have hm2 := attachTarget_parent_measure hc2e
        obtain ⟨rfl, _, _⟩ := attachTarget_parent_elim hc2e
        omega

theorem descCount_edge_lt {roots : List String} (ks : List String) {c2 q : String}
    (hc2 : c2 ∈ ks) (he : attachTarget roots c2 = some (some q)) :
    descCount roots ks c2 < descCount roots ks q := by
  unfold descCount
  apply countP_lt_of (a := c2) hc2
  · simp
  · have h1 := attachedUnder_of_edge he
    have hne : c2 ≠ q := by
      have := attachTarget_parent_measure he
      intro hc
      rw [hc] at this
      omega
    simp [h1, hne]
  · intro x hx hpx
    rw [Bool.and_eq_true] at hpx
    obtain ⟨ha, hne2⟩ := hpx
    have hqx := attachedUnder_trans ha (attachedUnder_of_edge he)
    have hxq : x ≠ q := by
      have hm1 := attachedUnder_measure ha
      have hm2 := attachTarget_parent_measure he
      intro hc
      rw [hc] at hm1
      omega
    simp [hqx, hxq]

theorem matEntry_file (st : BuildState) (n : Nat) (g : String) :
    matEntry st n (Entry.file g) = Tree.node g ItemType.File [] := by
  cases n <;> rfl

theorem mat_count_master {roots paths : List String} {st : BuildState}
    (hinv : InvMid roots paths [] [] st) :
    ∀ n q, q ∈ stKeys st → descCount roots (stKeys st) q < n →
      (∀ c, (itemsOfTree (matEntry st n (Entry.folder q))).count (c, ItemType.Folder) =
        if c ∈ stKeys st ∧ attachedUnder roots q c = true then 1 else 0)
      ∧ (∀ f, (itemsOfTree (matEntry st n (Entry.folder q))).count (f, ItemType.File) =
        if (matchedRoot roots f).isSome = true ∧ isRootFile roots f = false ∧
            dirname f ∈ stKeys st ∧ attachedUnder roots q (dirname f) = true
        then paths.count f else 0) := by
  intro n
  induction n with
  | zero => intro q _ hD; omega
  | succ n ih =>
    intro q hq hD
    have hgood : ∀ c2, Entry.folder c2 ∈ childrenOf st q →
        c2 ∈ stKeys st ∧ attachTarget roots c2 = some (some q) ∧
          descCount roots (stKeys st) c2 < n := by
      intro c2 hmem
      obtain ⟨hk, he⟩ := mem_childFolder_good hinv hmem
      refine ⟨hk, he, ?_⟩
      have := descCount_edge_lt (stKeys st) hk he
      omega
    have hitems : itemsOfTree (matEntry st (n+1) (Entry.folder q)) =
        (q, ItemType.Folder) ::
          itemsOfTrees ((childrenOf st q).map (fun e2 => matEntry st n e2)) := rfl
    constructor
    · intro c
      rw [hitems, List.count_cons,
        flat_count_map (fun e2 => matEntry st n e2) (childrenOf st q) (c, ItemType.Folder)]
      rw [sum_split (fun _ => false)
        (fun e => match e with
          | Entry.folder c2 => attachedUnder roots c2 c
          | Entry.file _ => false)
        (if c ∈ stKeys st then 1 else 0) (childrenOf st q) _ ?_]
      · have hp1 : (childrenOf st q).countP (fun _ => false) = 0 :=
          List.countP_eq_zero.mpr (fun a _ => by simp)
        rw [hp1, Nat.zero_add]
        by_cases hck : c ∈ stKeys st
        · rw [if_pos hck, Nat.one_mul,
            childrenOf_countP_attached hinv hq c hck]
          by_cases hqc : q = c
          · have h1 : (if attachedUnder roots q c = true ∧ c ≠ q then 1 else 0) = 0 :=
              if_neg (show ¬(attachedUnder roots q c = true ∧ c ≠ q) from
                fun hcon => hcon.2 hqc.symm)
            have h2 : (if (((q, ItemType.Folder) == (c, ItemType.Folder)) = true)
                then 1 else 0) = 1 :=
              if_pos (show ((q, ItemType.Folder) == (c, ItemType.Folder)) = true by
                rw [hqc]; exact beq_self_eq_true _)
            have h3 : (if c ∈ stKeys st ∧ attachedUnder roots q c = true then 1 else 0) = 1 :=
              if_pos ⟨hck, by rw [show c = q from hqc.symm]; exact attachedUnder_refl roots q⟩
            rw [h1, h2, h3]
          · have h2 : (if (((q, ItemType.Folder) == (c, ItemType.Folder)) = true)
                then 1 else 0) = 0 :=
              if_neg (show ¬(((q, ItemType.Folder) == (c, ItemType.Folder)) = true) from
                fun hcon => hqc (congrArg Prod.fst (eq_of_beq hcon)))
            rw [h2, Nat.add_zero]
            by_cases hau : attachedUnder roots q c = true
            · have h4 : (if attachedUnder roots q c = true ∧ c ≠ q then 1 else 0) = 1 :=
                if_pos ⟨hau, fun hcon => hqc hcon.symm⟩
              have h5 : (if c ∈ stKeys st ∧ attachedUnder roots q c = true
                  then 1 else 0) = 1 := if_pos ⟨hck, hau⟩
              rw [h4, h5]
            · have h4 : (if attachedUnder roots q c = true ∧ c ≠ q then 1 else 0) = 0 :=
                if_neg (show ¬(attachedUnder roots q c = true ∧ c ≠ q) from
                  fun hcon => hau hcon.1)
              have h5 : (if c ∈ stKeys st ∧ attachedUnder roots q c = true
                  then 1 else 0) = 0 :=
                if_neg (show ¬(c ∈ stKeys st ∧ attachedUnder roots q c = true) from
                  fun hcon => hau hcon.2)
              rw [h4, h5]
        · rw [if_neg hck, Nat.zero_mul]
          have hqc : q ≠ c := fun hcon => hck (hcon ▸ hq)
          have h2 : (if (((q, ItemType.Folder) == (c, ItemType.Folder)) = true)
              then 1 else 0) = 0 :=
            if_neg (show ¬(((q, ItemType.Folder) == (c, ItemType.Folder)) = true) from
              fun hcon => hqc (congrArg Prod.fst (eq_of_beq hcon)))
          have h5 : (if c ∈ stKeys st ∧ attachedUnder roots q c = true then 1 else 0) = 0 :=
            if_neg (show ¬(c ∈ stKeys st ∧ attachedUnder roots q c = true) from
              fun hcon => hck hcon.1)
          rw [h2, h5]
      · intro e he
        cases e with
        | file g2 =>
          rw [matEntry_file st n g2]
          show List.count (c, ItemType.Folder) [(g2, ItemType.File)] =
            (if (false = true) then 1 else 0) +
              (if c ∈ stKeys st then 1 else 0) * (if (false = true) then 1 else 0)
          have h1 : List.count (c, ItemType.Folder) [(g2, ItemType.File)] = 0 := by
            rw [List.count_cons, List.count_nil]
            have h0 : (if (((g2, ItemType.File) == (c, ItemType.Folder)) = true)
                then 1 else 0) = 0 :=
              if_neg (show ¬(((g2, ItemType.File) == (c, ItemType.Folder)) = true) from
                fun hcon => ItemType.noConfusion (congrArg Prod.snd (eq_of_beq hcon)))
            rw [h0]
          rw [h1]
          simp
        | folder c2 =>
          obtain ⟨hk, he2, hDlt⟩ := hgood c2 he
          show (itemsOfTree (matEntry st n (Entry.folder c2))).count (c, ItemType.Folder) =
            (if (false = true) then 1 else 0) +
              (if c ∈ stKeys st then 1 else 0) *
                (if attachedUnder roots c2 c = true then 1 else 0)
          rw [(ih c2 hk hDlt).1 c]
          have h0 : (if (false = true) then 1 else 0) = 0 := by simp
          rw [h0, Nat.zero_add]
          by_cases hck : c ∈ stKeys st
          · rw [if_pos hck, Nat.one_mul]
            by_cases hau : attachedUnder roots c2 c = true
            · have h4 : (if c ∈ stKeys st ∧ attachedUnder roots c2 c = true
                  then 1 else 0) = 1 := if_pos ⟨hck, hau⟩
              rw [h4, if_pos hau]
            · have h4 : (if c ∈ stKeys st ∧ attachedUnder roots c2 c = true
                  then 1 else 0) = 0 :=
                if_neg (show ¬(c ∈ stKeys st ∧ attachedUnder roots c2 c = true) from
                  fun hcon => hau hcon.2)
              rw [h4, if_neg hau]
          · have h4 : (if c ∈ stKeys st ∧ attachedUnder roots c2 c = true
                then 1 else 0) = 0 :=
              if_neg (show ¬(c ∈ stKeys st ∧ attachedUnder roots c2 c = true) from
                fun hcon => hck hcon.1)
            rw [h4, if_neg hck, Nat.zero_mul]
    · intro f
      rw [hitems, List.count_cons,
        flat_count_map (fun e2 => matEntry st n e2) (childrenOf st q) (f, ItemType.File)]
      have hhead : (if (((q, ItemType.Folder) == (f, ItemType.File)) = true)
          then 1 else 0) = 0 :=
        if_neg (show ¬(((q, ItemType.Folder) == (f, ItemType.File)) = true) from
          fun hcon => ItemType.noConfusion (congrArg Prod.snd (eq_of_beq hcon)))
      rw [hhead, Nat.add_zero]
      rw [sum_split (fun e => e == Entry.file f)
        (fun e => match e with
          | Entry.folder c2 => attachedUnder roots c2 (dirname f)
          | Entry.file _ => false)
        (if (matchedRoot roots f).isSome = true ∧ isRootFile roots f = false ∧
            dirname f ∈ stKeys st then paths.count f else 0) (childrenOf st q) _ ?_]
      · have hp1 : (childrenOf st q).countP (fun e => e == Entry.file f) =
            (childrenOf st q).count (Entry.file f) :=
          countP_eq_count_of (fun e _ => beq_iff_eq)
        have hcf := hinv.childFileCount q f
        unfold entryCountAt at hcf
        rw [hp1, hcf]
        by_cases hms : (matchedRoot roots f).isSome = true
        · by_cases hir : isRootFile roots f = false
          · by_cases hdk : dirname f ∈ stKeys st
            · have hK1 : (if (matchedRoot roots f).isSome = true ∧
                  isRootFile roots f = false ∧ dirname f ∈ stKeys st
                  then paths.count f else 0) = paths.count f := if_pos ⟨hms, hir, hdk⟩
              rw [hK1, childrenOf_countP_attached hinv hq (dirname f) hdk]
              by_cases hdq : dirname f = q
              · have e1 : (if (matchedRoot roots f).isSome = true ∧ dirname f = q ∧
                    isRootFile roots f = false then paths.count f else 0) = paths.count f :=
                  if_pos ⟨hms, hdq, hir⟩
                have e2 : (if attachedUnder roots q (dirname f) = true ∧ dirname f ≠ q
                    then 1 else 0) = 0 :=
                  if_neg (show ¬(attachedUnder roots q (dirname f) = true ∧ dirname f ≠ q)
                    from fun hcon => hcon.2 hdq)
                have e3 : (if (matchedRoot roots f).isSome = true ∧
                    isRootFile roots f = false ∧ dirname f ∈ stKeys st ∧
                      attachedUnder roots q (dirname f) = true
                    then paths.count f else 0) = paths.count f :=
                  if_pos ⟨hms, hir, hdk, by rw [hdq]; exact attachedUnder_refl roots q⟩
                rw [e1, e2, e3, Nat.mul_zero, Nat.add_zero]
              · have e1 : (if (matchedRoot roots f).isSome = true ∧ dirname f = q ∧
                    isRootFile roots f = false then paths.count f else 0) = 0 :=
                  if_neg (show ¬((matchedRoot roots f).isSome = true ∧ dirname f = q ∧
                    isRootFile roots f = false) from fun hcon => hdq hcon.2.1)
                rw [e1, Nat.zero_add]
                by_cases hau : attachedUnder roots q (dirname f) = true
                · have e2 : (if attachedUnder roots q (dirname f) = true ∧ dirname f ≠ q
                      then 1 else 0) = 1 := if_pos ⟨hau, hdq⟩
                  have e3 : (if (matchedRoot roots f).isSome = true ∧
                      isRootFile roots f = false ∧ dirname f ∈ stKeys st ∧
                        attachedUnder roots q (dirname f) = true
                      then paths.count f else 0) = paths.count f :=
                    if_pos ⟨hms, hir, hdk, hau⟩
                  rw [e2, e3, Nat.mul_one]
                · have e2 : (if attachedUnder roots q (dirname f) = true ∧ dirname f ≠ q
                      then 1 else 0) = 0 :=
                    if_neg (show ¬(attachedUnder roots q (dirname f) = true ∧ dirname f ≠ q)
                      from fun hcon => hau hcon.1)
                  have e3 : (if (matchedRoot roots f).isSome = true ∧
                      isRootFile roots f = false ∧ dirname f ∈ stKeys st ∧
                        attachedUnder roots q (dirname f) = true
                      then paths.count f else 0) = 0 :=
                    if_neg (show ¬((matchedRoot roots f).isSome = true ∧
                      isRootFile roots f = false ∧ dirname f ∈ stKeys st ∧
                        attachedUnder roots q (dirname f) = true)
                      from fun hcon => hau hcon.2.2.2)
                  rw [e2, e3, Nat.mul_zero]
            · have hdq : ¬ dirname f = q := fun hcon => hdk (hcon ▸ hq)
              have e1 : (if (matchedRoot roots f).isSome = true ∧ dirname f = q ∧
                  isRootFile roots f = false then paths.count f else 0) = 0 :=
                if_neg (show ¬((matchedRoot roots f).isSome = true ∧ dirname f = q ∧
                  isRootFile roots f = false) from fun hcon => hdq hcon.2.1)
              have eK : (if (matchedRoot roots f).isSome = true ∧
                  isRootFile roots f = false ∧ dirname f ∈ stKeys st
                  then paths.count f else 0) = 0 :=
                if_neg (show ¬((matchedRoot roots f).isSome = true ∧
                  isRootFile roots f = false ∧ dirname f ∈ stKeys st)
                  from fun hcon => hdk hcon.2.2)
              have e3 : (if (matchedRoot roots f).isSome = true ∧
                  isRootFile roots f = false ∧ dirname f ∈ stKeys st ∧
                    attachedUnder roots q (dirname f) = true
                  then paths.count f else 0) = 0 :=
                if_neg (show ¬((matchedRoot roots f).isSome = true ∧
                  isRootFile roots f = false ∧ dirname f ∈ stKeys st ∧
                    attachedUnder roots q (dirname f) = true)
                  from fun hcon => hdk hcon.2.2.1)
              rw [e1, eK, e3, Nat.zero_mul, Nat.add_zero]
          · have e1 : (if (matchedRoot roots f).isSome = true ∧ dirname f = q ∧
                isRootFile roots f = false then paths.count f else 0) = 0 :=
              if_neg (show ¬((matchedRoot roots f).isSome = true ∧ dirname f = q ∧
                isRootFile roots f = false) from fun hcon => hir hcon.2.2)
            have eK : (if (matchedRoot roots f).isSome = true ∧
                isRootFile roots f = false ∧ dirname f ∈ stKeys st
                then paths.count f else 0) = 0 :=
              if_neg (show ¬((matchedRoot roots f).isSome = true ∧
                isRootFile roots f = false ∧ dirname f ∈ stKeys st)
                from fun hcon => hir hcon.2.1)
            have e3 : (if (matchedRoot roots f).isSome = true ∧
                isRootFile roots f = false ∧ dirname f ∈ stKeys st ∧
                  attachedUnder roots q (dirname f) = true
                then paths.count f else 0) = 0 :=
              if_neg (show ¬((matchedRoot roots f).isSome = true ∧
                isRootFile roots f = false ∧ dirname f ∈ stKeys st ∧
                  attachedUnder roots q (dirname f) = true)
                from fun hcon => hir hcon.2.1)
            rw [e1, eK, e3, Nat.zero_mul, Nat.add_zero]
        · have e1 : (if (matchedRoot roots f).isSome = true ∧ dirname f = q ∧
              isRootFile roots f = false then paths.count f else 0) = 0 :=
            if_neg (show ¬((matchedRoot roots f).isSome = true ∧ dirname f = q ∧
              isRootFile roots f = false) from fun hcon => hms hcon.1)
          have eK : (if (matchedRoot roots f).isSome = true ∧
              isRootFile roots f = false ∧ dirname f ∈ stKeys st
              then paths.count f else 0) = 0 :=
            if_neg (show ¬((matchedRoot roots f).isSome = true ∧
              isRootFile roots f = false ∧ dirname f ∈ stKeys st)
              from fun hcon => hms hcon.1)
          have e3 : (if (matchedRoot roots f).isSome = true ∧
              isRootFile roots f = false ∧ dirname f ∈ stKeys st ∧
                attachedUnder roots q (dirname f) = true
              then paths.count f else 0) = 0 :=
            if_neg (show ¬((matchedRoot roots f).isSome = true ∧
              isRootFile roots f = false ∧ dirname f ∈ stKeys st ∧
                attachedUnder roots q (dirname f) = true)
              from fun hcon => hms hcon.1)
          rw [e1, eK, e3, Nat.zero_mul, Nat.add_zero]
      · intro e he
        cases e with
        | file g2 =>
          rw [matEntry_file st n g2]
          show List.count (f, ItemType.File) [(g2, ItemType.File)] =
            (if ((Entry.file g2 == Entry.file f) = true) then 1 else 0) +
              (if (matchedRoot roots f).isSome = true ∧ isRootFile roots f = false ∧
                  dirname f ∈ stKeys st then paths.count f else 0) *
                (if (false = true) then 1 else 0)
          have h0 : (if (false = true) then 1 else 0) = 0 := by simp
          rw [h0, Nat.mul_zero, Nat.add_zero, List.count_cons, List.count_nil]
          by_cases hgf : g2 = f
          · have h1 : (if (((g2, ItemType.File) == (f, ItemType.File)) = true)
                then 1 else 0) = 1 :=
              if_pos (show ((g2, ItemType.File) == (f, ItemType.File)) = true by
                rw [hgf]; exact beq_self_eq_true _)
            have h2 : (if ((Entry.file g2 == Entry.file f) = true) then 1 else 0) = 1 :=
              if_pos (show (Entry.file g2 == Entry.file f) = true by
                rw [hgf]; exact beq_self_eq_true _)
            rw [h1, h2]
          · have h1 : (if (((g2, ItemType.File) == (f, ItemType.File)) = true)
                then 1 else 0) = 0 :=
              if_neg (show ¬(((g2, ItemType.File) == (f, ItemType.File)) = true) from
                fun hcon => hgf (congrArg Prod.fst (eq_of_beq hcon)))
            have h2 : (if ((Entry.file g2 == Entry.file f) = true) then 1 else 0) = 0 :=
              if_neg (show ¬((Entry.file g2 == Entry.file f) = true) from
                fun hcon => hgf (Entry.file.inj (eq_of_beq hcon)))
            rw [h1, h2]
        | folder c2 =>
          obtain ⟨hk, he2, hDlt⟩ := hgood c2 he
          show (itemsOfTree (matEntry st n (Entry.folder c2))).count (f, ItemType.File) =
            (if ((Entry.folder c2 == Entry.file f) = true) then 1 else 0) +
              (if (matchedRoot roots f).isSome = true ∧ isRootFile roots f = false ∧
                  dirname f ∈ stKeys st then paths.count f else 0) *
                (if attachedUnder roots c2 (dirname f) = true then 1 else 0)
          rw [(ih c2 hk hDlt).2 f]
          have h1 : (if ((Entry.folder c2 == Entry.file f) = true) then 1 else 0) = 0 :=
            if_neg (show ¬((Entry.folder c2 == Entry.file f) = true) from
              fun hcon => Entry.noConfusion (eq_of_beq hcon))
          rw [h1, Nat.zero_add]
          by_cases hK : (matchedRoot roots f).isSome = true ∧ isRootFile roots f = false ∧
              dirname f ∈ stKeys st
          · rw [if_pos hK]
            by_cases hau : attachedUnder roots c2 (dirname f) = true
            · have h4 : (if (matchedRoot roots f).isSome = true ∧
                  isRootFile roots f = false ∧ dirname f ∈ stKeys st ∧
                    attachedUnder roots c2 (dirname f) = true
                  then paths.count f else 0) = paths.count f :=
                if_pos ⟨hK.1, hK.2.1, hK.2.2, hau⟩
              rw [h4, if_pos hau, Nat.mul_one]
            · have h4 : (if (matchedRoot roots f).isSome = true ∧
                  isRootFile roots f = false ∧ dirname f ∈ stKeys st ∧
                    attachedUnder roots c2 (dirname f) = true
                  then paths.count f else 0) = 0 :=
                if_neg (show ¬((matchedRoot roots f).isSome = true ∧
                  isRootFile roots f = false ∧ dirname f ∈ stKeys st ∧
                    attachedUnder roots c2 (dirname f) = true)
                  from fun hcon => hau hcon.2.2.2)
              rw [h4, if_neg hau, Nat.mul_zero]
          · have h4 : (if (matchedRoot roots f).isSome = true ∧
                isRootFile roots f = false ∧ dirname f ∈ stKeys st ∧
                  attachedUnder roots c2 (dirname f) = true
                then paths.count f else 0) = 0 :=
              if_neg (show ¬((matchedRoot roots f).isSome = true ∧
                isRootFile roots f = false ∧ dirname f ∈ stKeys st ∧
                  attachedUnder roots c2 (dirname f) = true)
                from fun hcon => hK ⟨hcon.1, hcon.2.1, hcon.2.2.1⟩)
            rw [h4, if_neg hK, Nat.zero_mul]
theorem attachedUnder_mem_walkChain_aux (roots : List String) (a : String) :
    ∀ n d, pathMeasure d ≤ n → attachedUnder roots a d = true →
      a ∈ walkChain roots d := by
  intro n
  induction n with
  | zero => intro d h; exact absurd h (by have := pathMeasure_pos d; omega)
  | succ n ih =>
    intro d h hau
    by_cases hda : d = a
    · rw [← hda]
      exact self_mem_walkChain roots d
    · rcases attachTarget_trichotomy roots d with ⟨hat, hne, _⟩ | hstop
      · rw [(attachedUnder_shape roots a d).2.2 hda _ hat] at hau
        have hlt := pathMeasure_dirname_lt hne
        rw [walkChain_cons hat]
        exact List.mem_cons_of_mem d (ih (dirname d) (by omega) hau)
      · rw [(attachedUnder_shape roots a d).2.1 hda hstop] at hau
        exact absurd hau (by simp)

theorem attachedUnder_mem_walkChain {roots : List String} {a d : String}
    (h : attachedUnder roots a d = true) : a ∈ walkChain roots d :=
  attachedUnder_mem_walkChain_aux roots a (pathMeasure d) d (Nat.le_refl _) h

/-! ## Sorting preserves the multiset of listed items -/

theorem itemsOfTrees_eq_flatten : ∀ l : List Tree,
    itemsOfTrees l = (l.map itemsOfTree).flatten := by
  intro l
  induction l with
  | nil => rfl
  | cons t ts ih =>
    show itemsOfTree t ++ itemsOfTrees ts = _
    rw [List.map_cons, List.flatten_cons, ih]

theorem itemsOfTrees_perm_congr {l₁ l₂ : List Tree} (h : l₁.Perm l₂) :
    (itemsOfTrees l₁).Perm (itemsOfTrees l₂) := by
  rw [itemsOfTrees_eq_flatten, itemsOfTrees_eq_flatten]
  exact (h.map itemsOfTree).flatten

theorem sort_items_perm_aux : ∀ N : Nat,
    (∀ t : Tree, sizeOf t ≤ N → (itemsOfTree (sortTree t)).Perm (itemsOfTree t))
    ∧ (∀ l : List Tree, sizeOf l ≤ N →
        (itemsOfTrees (sortTrees l)).Perm (itemsOfTrees l)) := by
  intro N
  induction N with
  | zero =>
    constructor
    · intro t ht
      exfalso
      cases t with
      | node p k cs => simp only [Tree.node.sizeOf_spec] at ht; omega
    · intro l hl
      exfalso
      cases l with
      | nil => simp only [List.nil.sizeOf_spec] at hl; omega
      | cons t ts => simp only [List.cons.sizeOf_spec] at hl; omega
  | succ N ih =>
    constructor
    · intro t ht
      cases t with
      | node p k cs =>
        simp only [Tree.node.sizeOf_spec] at ht
        show (itemsOfTree (Tree.node p k (sortList treeLE (sortTrees cs)))).Perm
          (itemsOfTree (Tree.node p k cs))
        show ((p, k) :: itemsOfTrees (sortList treeLE (sortTrees cs))).Perm
          ((p, k) :: itemsOfTrees cs)
        refine List.Perm.cons (p, k) ?_
        have h1 : (itemsOfTrees (sortList treeLE (sortTrees cs))).Perm
            (itemsOfTrees (sortTrees cs)) :=
          itemsOfTrees_perm_congr (sortList_perm treeLE (sortTrees cs))
        have h2 : (itemsOfTrees (sortTrees cs)).Perm (itemsOfTrees cs) :=
          ih.2 cs (by omega)
        exact h1.trans h2
    · intro l hl
      cases l with
      | nil => exact List.Perm.refl _
      | cons t ts =>
        simp only [List.cons.sizeOf_spec] at hl
        show (itemsOfTree (sortTree t) ++ itemsOfTrees (sortTrees ts)).Perm
          (itemsOfTree t ++ itemsOfTrees ts)
        exact List.Perm.append (ih.1 t (by omega)) (ih.2 ts (by omega))

theorem sortTreeItems_items_perm (ts : List Tree) :
    (itemsOfTrees (sortTreeItems ts)).Perm (itemsOfTrees ts) := by
  unfold sortTreeItems
  exact (itemsOfTrees_perm_congr (sortList_perm treeLE (sortTrees ts))).trans
    ((sort_items_perm_aux (sizeOf ts)).2 ts (Nat.le_refl _))

/-! ## Root-level counting -/

theorem descCount_lt_length {roots : List String} {ks : List String} {q : String}
    (hq : q ∈ ks) : descCount roots ks q < ks.length := by
  unfold descCount
  have h := countP_lt_of (l := ks)
    (p := fun c => attachedUnder roots q c && decide (c ≠ q))
    (r := fun _ => true) (a := q) hq (by simp) rfl (fun x hx _ => rfl)
  rw [List.countP_true] at h
  exact h

theorem mem_rootFolder_good {roots done : List String} {st : BuildState}
    (hinv : InvMid roots done [] [] st) {r : String}
    (h : Entry.folder r ∈ st.rootItems) :
    r ∈ stKeys st ∧ attachTarget roots r = some none := by
  have hpos : 0 < st.rootItems.count (Entry.folder r) := List.count_pos_iff.mpr h
  have hrc := hinv.rootFolderCount r
  rw [hrc] at hpos
  by_cases hcond : r ∈ stKeys st ∧ r ∉ ([] : List String) ∧ attachTarget roots r = some none
  · exact ⟨hcond.1, hcond.2.2⟩
  · rw [if_neg hcond] at hpos
    omega

theorem rootItems_countP_attached {roots done : List String} {st : BuildState}
    (hinv : InvMid roots done [] [] st) {c : String} (hck : c ∈ stKeys st) :
    st.rootItems.countP
        (fun e => match e with
          | Entry.folder r => attachedUnder roots r c
          | Entry.file _ => false) =
      if reachesRoot roots c = true then 1 else 0 := by
  by_cases hrr : reachesRoot roots c = true
  · have hsome : (chainRoot roots c).isSome = true := by
      rw [← reachesRoot_eq_chainRoot_isSome]
      exact hrr
    obtain ⟨r₀, hr₀⟩ := Option.isSome_iff_exists.mp hsome
    obtain ⟨hau₀, hat₀⟩ := chainRoot_attach hr₀
    have hr₀k : r₀ ∈ stKeys st :=
      keys_closure hinv c hck r₀ (attachedUnder_mem_walkChain hau₀)
    rw [if_pos hrr]
    rw [countP_eq_count_of (a := Entry.folder r₀) ?_]
    · have hrc := hinv.rootFolderCount r₀
      rw [hrc, if_pos ⟨hr₀k, by simp, hat₀⟩]
    · intro e he
      cases e with
      | file g =>
        constructor
        · intro hp2
          exact absurd hp2 (by simp)
        · intro he2
          exact absurd he2 (by simp)
      | folder r =>
        obtain ⟨hrk, hratt⟩ := mem_rootFolder_good hinv he
        constructor
        · intro hp2
          have hau : attachedUnder roots r c = true := hp2
          have hcrc : chainRoot roots c = chainRoot roots r :=
            chainRoot_of_attachedUnder hau
          rw [chainRoot_of_rootAttach hratt, hr₀] at hcrc
          rw [Option.some.inj hcrc]
        · intro he2
          have hrr₀ : r = r₀ := Entry.folder.inj he2
          show attachedUnder roots r c = true
          rw [hrr₀]
          exact hau₀
  · rw [if_neg hrr]
    apply List.countP_eq_zero.mpr
    intro e he
    cases e with
    | file g => simp
    | folder r =>
      obtain ⟨hrk, hratt⟩ := mem_rootFolder_good hinv he
      show ¬ attachedUnder roots r c = true
      intro hau
      have hcrc : chainRoot roots c = chainRoot roots r :=
        chainRoot_of_attachedUnder hau
      rw [chainRoot_of_rootAttach hratt] at hcrc
      have : reachesRoot roots c = true := by
        rw [reachesRoot_eq_chainRoot_isSome, hcrc]
        rfl
      exact hrr this

theorem isNestedVisibleFile_iff (roots : List String) (f : String) :
    isNestedVisibleFile roots f = true ↔
      ((matchedRoot roots f).isSome = true ∧ isRootFile roots f = false ∧
        reachesRoot roots (dirname f) = true) := by
  unfold isNestedVisibleFile isRootFile
  cases hm : matchedRoot roots f with
  | none => simp
  | some ws => simp

theorem dirname_mem_keys {roots paths : List String} {st : BuildState}
    (hinv : InvMid roots paths [] [] st) {f : String} (hf : f ∈ paths)
    (hms : (matchedRoot roots f).isSome = true) (hir : isRootFile roots f = false) :
    dirname f ∈ stKeys st := by
  apply (hinv.memKeys (dirname f)).mpr
  refine Or.inl ⟨f, hf, ?_⟩
  obtain ⟨ws, hws⟩ := Option.isSome_iff_exists.mp hms
  unfold isRootFile at hir
  rw [hws] at hir
  unfold fileCreates
  rw [hws]
  show dirname f ∈ (if dirname f = ws then [] else walkChain roots (dirname f))
  rw [if_neg (show ¬ dirname f = ws by simpa using hir)]
  exact self_mem_walkChain roots (dirname f)

theorem perm_count_eq {α : Type} [BEq α] {l₁ l₂ : List α} (h : l₁.Perm l₂) (a : α) :
    l₁.count a = l₂.count a := by
  unfold List.count
  exact h.countP_eq _

theorem allItemsFlat_count_folder (roots paths : List String) (c : String) :
    (allItemsFlat roots paths).count (c, ItemType.Folder) =
      if c ∈ stKeys (buildState roots paths) ∧ reachesRoot roots c = true
      then 1 else 0 := by
  have hinv := buildState_invariant roots paths
  have hperm := sortTreeItems_items_perm
    ((buildState roots paths).rootItems.map
      (matEntry (buildState roots paths) (buildState roots paths).folders.length))
  have hc := perm_count_eq hperm (c, ItemType.Folder)
  show (itemsOfTrees (sortTreeItems ((buildState roots paths).rootItems.map
    (matEntry (buildState roots paths) (buildState roots paths).folders.length)))).count
      (c, ItemType.Folder) = _
  rw [hc, flat_count_map
    (matEntry (buildState roots paths) (buildState roots paths).folders.length)
    (buildState roots paths).rootItems (c, ItemType.Folder)]
  rw [sum_split (fun _ => false)
    (fun e => match e with
      | Entry.folder r => attachedUnder roots r c
      | Entry.file _ => false)
    (if c ∈ stKeys (buildState roots paths) then 1 else 0)
    (buildState roots paths).rootItems _ ?_]
  · have hp1 : (buildState roots paths).rootItems.countP (fun _ => false) = 0 :=
      List.countP_eq_zero.mpr (fun a _ => by simp)
    rw [hp1, Nat.zero_add]
    by_cases hck : c ∈ stKeys (buildState roots paths)
    · rw [if_pos hck, Nat.one_mul, rootItems_countP_attached hinv hck]
      by_cases hrr : reachesRoot roots c = true
      · rw [if_pos hrr, if_pos ⟨hck, hrr⟩]
      · rw [if_neg hrr,
          if_neg (show ¬(c ∈ stKeys (buildState roots paths) ∧
            reachesRoot roots c = true) from fun hcon => hrr hcon.2)]
    · rw [if_neg hck, Nat.zero_mul,
        if_neg (show ¬(c ∈ stKeys (buildState roots paths) ∧
          reachesRoot roots c = true) from fun hcon => hck hcon.1)]
  · intro e he
    cases e with
    | file g2 =>
      rw [matEntry_file (buildState roots paths) (buildState roots paths).folders.length g2]
      show List.count (c, ItemType.Folder) [(g2, ItemType.File)] =
        (if (false = true) then 1 else 0) +
          (if c ∈ stKeys (buildState roots paths) then 1 else 0) *
            (if (false = true) then 1 else 0)
      have h1 : List.count (c, ItemType.Folder) [(g2, ItemType.File)] = 0 := by
        rw [List.count_cons, List.count_nil]
        have h0 : (if (((g2, ItemType.File) == (c, ItemType.Folder)) = true)
            then 1 else 0) = 0 :=
          if_neg (show ¬(((g2, ItemType.File) == (c, ItemType.Folder)) = true) from
            fun hcon => ItemType.noConfusion (congrArg Prod.snd (eq_of_beq hcon)))
        rw [h0]
      rw [h1]
      simp
    | folder r =>
      obtain ⟨hrk, hratt⟩ := mem_rootFolder_good hinv he
      have hDlt : descCount roots (stKeys (buildState roots paths)) r <
          (buildState roots paths).folders.length := by
        have h := @descCount_lt_length roots _ _ hrk
        have hlen : (stKeys (buildState roots paths)).length =
            (buildState roots paths).folders.length := by
          unfold stKeys
          exact List.length_map _ _
        rw [hlen] at h
        exact h
      show (itemsOfTree (matEntry (buildState roots paths)
          (buildState roots paths).folders.length (Entry.folder r))).count
            (c, ItemType.Folder) =
        (if (false = true) then 1 else 0) +
          (if c ∈ stKeys (buildState roots paths) then 1 else 0) *
            (if attachedUnder roots r c = true then 1 else 0)
      rw [(mat_count_master hinv (buildState roots paths).folders.length r hrk hDlt).1 c]
      have h0 : (if (false = true) then 1 else 0) = 0 := by simp
      rw [h0, Nat.zero_add]
      by_cases hck : c ∈ stKeys (buildState roots paths)
      · rw [if_pos hck, Nat.one_mul]
        by_cases hau : attachedUnder roots r c = true
        · have h4 : (if c ∈ stKeys (buildState roots paths) ∧
              attachedUnder roots r c = true then 1 else 0) = 1 := if_pos ⟨hck, hau⟩
          rw [h4, if_pos hau]
        · have h4 : (if c ∈ stKeys (buildState roots paths) ∧
              attachedUnder roots r c = true then 1 else 0) = 0 :=
            if_neg (show ¬(c ∈ stKeys (buildState roots paths) ∧
              attachedUnder roots r c = true) from fun hcon => hau hcon.2)
          rw [h4, if_neg hau]
      · have h4 : (if c ∈ stKeys (buildState roots paths) ∧
            attachedUnder roots r c = true then 1 else 0) = 0 :=
          if_neg (show ¬(c ∈ stKeys (buildState roots paths) ∧
            attachedUnder roots r c = true) from fun hcon => hck hcon.1)
        rw [h4, if_neg hck, Nat.zero_mul]

theorem allItemsFlat_count_file (roots paths : List String) (f : String) :
    (allItemsFlat roots paths).count (f, ItemType.File) =
      if fileVisible roots f = true then paths.count f else 0 := by
  have hinv := buildState_invariant roots paths
  have hperm := sortTreeItems_items_perm
    ((buildState roots paths).rootItems.map
      (matEntry (buildState roots paths) (buildState roots paths).folders.length))
  have hc := perm_count_eq hperm (f, ItemType.File)
  show (itemsOfTrees (sortTreeItems ((buildState roots paths).rootItems.map
    (matEntry (buildState roots paths) (buildState roots paths).folders.length)))).count
      (f, ItemType.File) = _
  rw [hc, flat_count_map
    (matEntry (buildState roots paths) (buildState roots paths).folders.length)
    (buildState roots paths).rootItems (f, ItemType.File)]
  rw [sum_split (fun e => e == Entry.file f)
    (fun e => match e with
      | Entry.folder r => attachedUnder roots r (dirname f)
      | Entry.file _ => false)
    (if (matchedRoot roots f).isSome = true ∧ isRootFile roots f = false ∧
        dirname f ∈ stKeys (buildState roots paths) then paths.count f else 0)
    (buildState roots paths).rootItems _ ?_]
  · have hp1 : (buildState roots paths).rootItems.countP (fun e => e == Entry.file f) =
        (buildState roots paths).rootItems.count (Entry.file f) :=
      countP_eq_count_of (fun e _ => beq_iff_eq)
    rw [hp1, hinv.rootFileCount f]
    by_cases hK : (matchedRoot roots f).isSome = true ∧ isRootFile roots f = false ∧
        dirname f ∈ stKeys (buildState roots paths)
    · rw [if_pos hK, rootItems_countP_attached hinv hK.2.2]
      have hirn : isRootFile roots f = false := hK.2.1
      have h1 : (if isRootFile roots f = true then paths.count f else 0) = 0 :=
        if_neg (show ¬ isRootFile roots f = true by rw [hirn]; simp)
      rw [h1, Nat.zero_add]
      by_cases hrr : reachesRoot roots (dirname f) = true
      · rw [if_pos hrr, Nat.mul_one]
        have hfv : fileVisible roots f = true := by
          unfold fileVisible
          rw [Bool.or_eq_true]
          exact Or.inr ((isNestedVisibleFile_iff roots f).mpr ⟨hK.1, hirn, hrr⟩)
        rw [if_pos hfv]
      · rw [if_neg hrr, Nat.mul_zero]
        have hn : isNestedVisibleFile roots f = false := by
          cases hb : isNestedVisibleFile roots f
          · rfl
          · exact absurd ((isNestedVisibleFile_iff roots f).mp hb).2.2 hrr
        have hfv : fileVisible roots f = false := by
          unfold fileVisible
          rw [hirn, hn]
          rfl
        rw [if_neg (show ¬ fileVisible roots f = true by rw [hfv]; simp)]
    · rw [if_neg hK, Nat.zero_mul, Nat.add_zero]
      by_cases hir : isRootFile roots f = true
      · rw [if_pos hir]
        have hfv : fileVisible roots f = true := by
          unfold fileVisible
          rw [hir]
          exact Bool.true_or _
        rw [if_pos hfv]
      · have hirf : isRootFile roots f = false := by
          cases hb : isRootFile roots f
          · rfl
          · exact absurd hb hir
        rw [if_neg hir]
        by_cases hnv : isNestedVisibleFile roots f = true
        · obtain ⟨hms, hir2, hrr⟩ := (isNestedVisibleFile_iff roots f).mp hnv
          have hdk : dirname f ∉ stKeys (buildState roots paths) :=
            fun hdk => hK ⟨hms, hir2, hdk⟩
          have hfnp : f ∉ paths := fun hf => hdk (dirname_mem_keys hinv hf hms hir2)
          have hc0 : paths.count f = 0 := List.count_eq_zero.mpr hfnp
          rw [hc0, ite_self]
        · have hnvf : isNestedVisibleFile roots f = false := by
            cases hb : isNestedVisibleFile roots f
            · rfl
            · exact absurd hb hnv
          have hfv : fileVisible roots f = false := by
            unfold fileVisible
            rw [hirf, hnvf]
            rfl
          rw [if_neg (show ¬ fileVisible roots f = true by rw [hfv]; simp)]
  · intro e he
    cases e with
    | file g2 =>
      rw [matEntry_file (buildState roots paths) (buildState roots paths).folders.length g2]
      show List.count (f, ItemType.File) [(g2, ItemType.File)] =
        (if ((Entry.file g2 == Entry.file f) = true) then 1 else 0) +
          (if (matchedRoot roots f).isSome = true ∧ isRootFile roots f = false ∧
              dirname f ∈ stKeys (buildState roots paths) then paths.count f else 0) *
            (if (false = true) then 1 else 0)
      have h0 : (if (false = true) then 1 else 0) = 0 := by simp
      rw [h0, Nat.mul_zero, Nat.add_zero, List.count_cons, List.count_nil]
      by_cases hgf : g2 = f
      · have h1 : (if (((g2, ItemType.File) == (f, ItemType.File)) = true)
            then 1 else 0) = 1 :=
          if_pos (show ((g2, ItemType.File) == (f, ItemType.File)) = true by
            rw [hgf]; exact beq_self_eq_true _)
        have h2 : (if ((Entry.file g2 == Entry.file f) = true) then 1 else 0) = 1 :=
          if_pos (show (Entry.file g2 == Entry.file f) = true by
            rw [hgf]; exact beq_self_eq_true _)
        rw [h1, h2]
      · have h1 : (if (((g2, ItemType.File) == (f, ItemType.File)) = true)
            then 1 else 0) = 0 :=
          if_neg (show ¬(((g2, ItemType.File) == (f, ItemType.File)) = true) from
            fun hcon => hgf (congrArg Prod.fst (eq_of_beq hcon)))
        have h2 : (if ((Entry.file g2 == Entry.file f) = true) then 1 else 0) = 0 :=
          if_neg (show ¬((Entry.file g2 == Entry.file f) = true) from
            fun hcon => hgf (Entry.file.inj (eq_of_beq hcon)))
        rw [h1, h2]
    | folder r =>
      obtain ⟨hrk, hratt⟩ := mem_rootFolder_good hinv he
      have hDlt : descCount roots (stKeys (buildState roots paths)) r <
          (buildState roots paths).folders.length := by
        have h := @descCount_lt_length roots _ _ hrk
        have hlen : (stKeys (buildState roots paths)).length =
            (buildState roots paths).folders.length := by
          unfold stKeys
          exact List.length_map _ _
        rw [hlen] at h
        exact h
      show (itemsOfTree (matEntry (buildState roots paths)
          (buildState roots paths).folders.length (Entry.folder r))).count
            (f, ItemType.File) =
        (if ((Entry.folder r == Entry.file f) = true) then 1 else 0) +
          (if (matchedRoot roots f).isSome = true ∧ isRootFile roots f = false ∧
              dirname f ∈ stKeys (buildState roots paths) then paths.count f else 0) *
            (if attachedUnder roots r (dirname f) = true then 1 else 0)
      rw [(mat_count_master hinv (buildState roots paths).folders.length r hrk hDlt).2 f]
      have h1 : (if ((Entry.folder r == Entry.file f) = true) then 1 else 0) = 0 :=
        if_neg (show ¬((Entry.folder r == Entry.file f) = true) from
          fun hcon => Entry.noConfusion (eq_of_beq hcon))
      rw [h1, Nat.zero_add]
      by_cases hK : (matchedRoot roots f).isSome = true ∧ isRootFile roots f = false ∧
          dirname f ∈ stKeys (buildState roots paths)
      · rw [if_pos hK]
        by_cases hau : attachedUnder roots r (dirname f) = true
        · have h4 : (if (matchedRoot roots f).isSome = true ∧
              isRootFile roots f = false ∧
                dirname f ∈ stKeys (buildState roots paths) ∧
                attachedUnder roots r (dirname f) = true
              then paths.count f else 0) = paths.count f :=
            if_pos ⟨hK.1, hK.2.1, hK.2.2, hau⟩
          rw [h4, if_pos hau, Nat.mul_one]
        · have h4 : (if (matchedRoot roots f).isSome = true ∧
              isRootFile roots f = false ∧
                dirname f ∈ stKeys (buildState roots paths) ∧
                attachedUnder roots r (dirname f) = true
              then paths.count f else 0) = 0 :=
            if_neg (show ¬((matchedRoot roots f).isSome = true ∧
              isRootFile roots f = false ∧
                dirname f ∈ stKeys (buildState roots paths) ∧
                attachedUnder roots r (dirname f) = true)
              from fun hcon => hau hcon.2.2.2)
          rw [h4, if_neg hau, Nat.mul_zero]
      · have h4 : (if (matchedRoot roots f).isSome = true ∧
            isRootFile roots f = false ∧
              dirname f ∈ stKeys (buildState roots paths) ∧
              attachedUnder roots r (dirname f) = true
            then paths.count f else 0) = 0 :=
          if_neg (show ¬((matchedRoot roots f).isSome = true ∧
            isRootFile roots f = false ∧
              dirname f ∈ stKeys (buildState roots paths) ∧
              attachedUnder roots r (dirname f) = true)
            from fun hcon => hK ⟨hcon.1, hcon.2.1, hcon.2.2.1⟩)
        rw [h4, if_neg hK, Nat.zero_mul]

/-! ## Order-independence of the build -/

theorem string_data_inj {a b : String} (h : a.data = b.data) : a = b := by
  cases a
  cases b
  exact congrArg String.mk h

theorem sortTrees_eq_map : ∀ l : List Tree, sortTrees l = l.map sortTree := by
  intro l
  induction l with
  | nil => rfl
  | cons t ts ih =>
    show sortTree t :: sortTrees ts = _
    rw [ih]
    rfl

theorem sortTree_matEntry_file (st : BuildState) (n : Nat) (g : String) :
    sortTree (matEntry st n (Entry.file g)) = Tree.node g ItemType.File [] := by
  rw [matEntry_file]
  rfl

theorem sortTree_matEntry_folder_shape (st : BuildState) (n : Nat) (c : String) :
    ∃ cs, sortTree (matEntry st n (Entry.folder c)) = Tree.node c ItemType.Folder cs := by
  cases n with
  | zero => exact ⟨_, rfl⟩
  | succ m => exact ⟨_, rfl⟩

theorem treeLE_antisymm_nk {pa pb : String} {ka kb : ItemType} {ca cb : List Tree}
    (hab : treeLE (Tree.node pa ka ca) (Tree.node pb kb cb) = true)
    (hba : treeLE (Tree.node pb kb cb) (Tree.node pa ka ca) = true) :
    pa = pb ∧ ka = kb := by
  have hab2 : (if ka = kb then pathLE pa.data pb.data
      else decide (ka = ItemType.Folder)) = true := hab
  have hba2 : (if kb = ka then pathLE pb.data pa.data
      else decide (kb = ItemType.Folder)) = true := hba
  by_cases hk : ka = kb
  · rw [if_pos hk] at hab2
    rw [if_pos hk.symm] at hba2
    exact ⟨string_data_inj (pathLE_antisymm _ _ hab2 hba2), hk⟩
  · rw [if_neg hk] at hab2
    rw [if_neg (fun hc => hk hc.symm)] at hba2
    have h1 : ka = ItemType.Folder := of_decide_eq_true hab2
    have h2 : kb = ItemType.Folder := of_decide_eq_true hba2
    exact absurd (h1.trans h2.symm) hk

theorem sorted_map_eq (st1 st2 : BuildState) (n : Nat)
    (hpt : ∀ e, sortTree (matEntry st1 n e) = sortTree (matEntry st2 n e))
    {l1 l2 : List Entry} (hperm : l1.Perm l2) :
    sortList treeLE (sortTrees (l1.map (fun e2 => matEntry st1 n e2))) =
      sortList treeLE (sortTrees (l2.map (fun e2 => matEntry st2 n e2))) := by
  have hFeq : (fun e => sortTree (matEntry st1 n e)) =
      (fun e => sortTree (matEntry st2 n e)) := funext hpt
  have hA : sortTrees (l1.map (fun e2 => matEntry st1 n e2)) =
      l1.map (fun e => sortTree (matEntry st1 n e)) := by
    rw [sortTrees_eq_map, List.map_map]
    rfl
  have hB : sortTrees (l2.map (fun e2 => matEntry st2 n e2)) =
      l2.map (fun e => sortTree (matEntry st2 n e)) := by
    rw [sortTrees_eq_map, List.map_map]
    rfl
  have hABperm : (sortTrees (l1.map (fun e2 => matEntry st1 n e2))).Perm
      (sortTrees (l2.map (fun e2 => matEntry st2 n e2))) := by
    rw [hA, hB, ← hFeq]
    exact hperm.map _
  apply sorted_perm_unique treeLE _ _
    (sortList_sorted treeLE treeLE_total (fun {x y z} => treeLE_trans) _)
    (sortList_sorted treeLE treeLE_total (fun {x y z} => treeLE_trans) _)
    ((sortList_perm treeLE _).trans (hABperm.trans (sortList_perm treeLE _).symm))
  intro a b ha hb hab hba
  have ha2 : a ∈ l1.map (fun e => sortTree (matEntry st1 n e)) := by
    rw [← hA]
    exact ((sortList_perm treeLE _).mem_iff).mp ha
  have hb2 : b ∈ l1.map (fun e => sortTree (matEntry st1 n e)) := by
    rw [← hA]
    exact ((sortList_perm treeLE _).mem_iff).mp hb
  obtain ⟨e1, he1, hae⟩ := List.mem_map.mp ha2
  obtain ⟨e2, he2, hbe⟩ := List.mem_map.mp hb2
  cases e1 with
  | file g1 =>
    have hsa : a = Tree.node g1 ItemType.File [] := by
      rw [← hae, sortTree_matEntry_file]
    cases e2 with
    | file g2 =>
      have hsb : b = Tree.node g2 ItemType.File [] := by
        rw [← hbe, sortTree_matEntry_file]
      rw [hsa, hsb] at hab hba
      obtain ⟨hpp, _⟩ := treeLE_antisymm_nk hab hba
      rw [hsa, hsb, hpp]
    | folder c2 =>
      obtain ⟨cs2, hsb⟩ := sortTree_matEntry_folder_shape st1 n c2
      rw [← hbe] at hab hba
      rw [hsa] at hab hba
      rw [hsb] at hab hba
      obtain ⟨_, hkk⟩ := treeLE_antisymm_nk hab hba
      exact absurd hkk (by simp)
  | folder c1 =>
    obtain ⟨cs1, hsa⟩ := sortTree_matEntry_folder_shape st1 n c1
    cases e2 with
    | file g2 =>
      have hsb : b = Tree.node g2 ItemType.File [] := by
        rw [← hbe, sortTree_matEntry_file]
      rw [← hae] at hab hba
      rw [hsa] at hab hba
      rw [hsb] at hab hba
      obtain ⟨_, hkk⟩ := treeLE_antisymm_nk hab hba
      exact absurd hkk (by simp)
    | folder c2 =>
      obtain ⟨cs2, hsb⟩ := sortTree_matEntry_folder_shape st1 n c2
      rw [← hae, ← hbe] at hab hba ⊢
      rw [hsa, hsb] at hab hba
      obtain ⟨hpp, _⟩ := treeLE_antisymm_nk hab hba
      rw [hpp]

theorem mat_sort_eq (st1 st2 : BuildState)
    (H : ∀ q, (childrenOf st1 q).Perm (childrenOf st2 q)) :
    ∀ n e, sortTree (matEntry st1 n e) = sortTree (matEntry st2 n e) := by
  intro n
  induction n with
  | zero =>
    intro e
    cases e with
    | file g => rfl
    | folder q => rfl
  | succ n ih =>
    intro e
    cases e with
    | file g => rfl
    | folder q =>
      show Tree.node q ItemType.Folder
          (sortList treeLE (sortTrees ((childrenOf st1 q).map (fun e2 => matEntry st1 n e2)))) =
        Tree.node q ItemType.Folder
          (sortList treeLE (sortTrees ((childrenOf st2 q).map (fun e2 => matEntry st2 n e2))))
      exact congrArg (Tree.node q ItemType.Folder) (sorted_map_eq st1 st2 n ih (H q))

theorem keys_mem_iff {roots p1 p2 : List String} (hp : p1.Perm p2) (c : String) :
    c ∈ stKeys (buildState roots p1) ↔ c ∈ stKeys (buildState roots p2) := by
  rw [(buildState_invariant roots p1).memKeys c, (buildState_invariant roots p2).memKeys c]
  constructor
  · rintro (⟨fp, hfp, hc⟩ | h | h)
    · exact Or.inl ⟨fp, hp.mem_iff.mp hfp, hc⟩
    · simp at h
    · simp at h
  · rintro (⟨fp, hfp, hc⟩ | h | h)
    · exact Or.inl ⟨fp, hp.mem_iff.mpr hfp, hc⟩
    · simp at h
    · simp at h

theorem children_perm {roots p1 p2 : List String} (hp : p1.Perm p2) :
    ∀ q, (childrenOf (buildState roots p1) q).Perm
      (childrenOf (buildState roots p2) q) := by
  intro q
  apply List.perm_iff_count.mpr
  intro ent
  cases ent with
  | file f =>
    have e1 := (buildState_invariant roots p1).childFileCount q f
    have e2 := (buildState_invariant roots p2).childFileCount q f
    unfold entryCountAt at e1 e2
    rw [e1, e2, hp.count_eq f]
  | folder c =>
    have e1 := (buildState_invariant roots p1).childFolderCount q c
    have e2 := (buildState_invariant roots p2).childFolderCount q c
    unfold entryCountAt at e1 e2
    rw [e1, e2]
    apply if_congr _ rfl rfl
    exact and_congr (keys_mem_iff hp c) Iff.rfl

theorem rootItems_perm {roots p1 p2 : List String} (hp : p1.Perm p2) :
    (buildState roots p1).rootItems.Perm (buildState roots p2).rootItems := by
  apply List.perm_iff_count.mpr
  intro ent
  cases ent with
  | file f =>
    rw [(buildState_invariant roots p1).rootFileCount f,
      (buildState_invariant roots p2).rootFileCount f, hp.count_eq f]
  | folder c =>
    rw [(buildState_invariant roots p1).rootFolderCount c,
      (buildState_invariant roots p2).rootFolderCount c]
    apply if_congr _ rfl rfl
    exact and_congr (keys_mem_iff hp c) Iff.rfl

theorem keys_length_eq {roots p1 p2 : List String} (hp : p1.Perm p2) :
    (buildState roots p1).folders.length = (buildState roots p2).folders.length := by
  have h1 := (buildState_invariant roots p1).nodupKeys
  have h2 := (buildState_invariant roots p2).nodupKeys
  have hsub1 : stKeys (buildState roots p1) ⊆ stKeys (buildState roots p2) :=
    fun c hc => (keys_mem_iff hp c).mp hc
  have hsub2 : stKeys (buildState roots p2) ⊆ stKeys (buildState roots p1) :=
    fun c hc => (keys_mem_iff hp c).mpr hc
  have l1 := (h1.subperm hsub1).length_le
  have l2 := (h2.subperm hsub2).length_le
  have hk1 : (stKeys (buildState roots p1)).length =
      (buildState roots p1).folders.length := by
    unfold stKeys
    exact List.length_map _ _
  have hk2 : (stKeys (buildState roots p2)).length =
      (buildState roots p2).folders.length := by
    unfold stKeys
    exact List.length_map _ _
  omega

/-! ## Universal sortedness of the produced forest -/

theorem sortTree_sorted_aux : ∀ N : Nat,
    (∀ t : Tree, sizeOf t ≤ N → TreeSorted (sortTree t))
    ∧ (∀ l : List Tree, sizeOf l ≤ N → ∀ t ∈ sortTrees l, TreeSorted t) := by
  intro N
  induction N with
  | zero =>
    constructor
    · intro t ht
      exfalso
      cases t with
      | node p k cs => simp only [Tree.node.sizeOf_spec] at ht; omega
    · intro l hl t htm
      exfalso
      cases l with
      | nil => exact absurd (show t ∈ ([] : List Tree) from htm) (by simp)
      | cons t2 ts => simp only [List.cons.sizeOf_spec] at hl; omega
  | succ N ih =>
    constructor
    · intro t ht
      cases t with
      | node p k cs =>
        simp only [Tree.node.sizeOf_spec] at ht
        show TreeSorted (Tree.node p k (sortList treeLE (sortTrees cs)))
        refine TreeSorted.mk p k _ ?_ ?_
        · exact sortList_sorted treeLE treeLE_total (fun {x y z} => treeLE_trans) _
        · intro t2 ht2
          have ht3 : t2 ∈ sortTrees cs :=
            ((sortList_perm treeLE (sortTrees cs)).mem_iff).mp ht2
          exact ih.2 cs (by omega) t2 ht3
    · intro l hl t htm
      cases l with
      | nil => exact absurd (show t ∈ ([] : List Tree) from htm) (by simp)
      | cons t2 ts =>
        simp only [List.cons.sizeOf_spec] at hl
        have htm2 : t ∈ sortTree t2 :: sortTrees ts := htm
        rcases List.mem_cons.mp htm2 with rfl | htm3
        · exact ih.1 t2 (by omega)
        · exact ih.2 ts (by omega) t htm3

theorem sortTreeItems_sorted (ts : List Tree) :
    List.Pairwise (fun a b => treeLE a b = true) (sortTreeItems ts)
    ∧ ∀ t ∈ sortTreeItems ts, TreeSorted t := by
  constructor
  · exact sortList_sorted treeLE treeLE_total (fun {x y z} => treeLE_trans) _
  · intro t htm
    have ht2 : t ∈ sortTrees ts := ((sortList_perm treeLE (sortTrees ts)).mem_iff).mp htm
    exact (sortTree_sorted_aux (sizeOf ts)).2 ts (Nat.le_refl _) t ht2

/-! ## Leaf listing and multiset reasoning without instance baggage -/

theorem filterMap_file_count (l : List (String × ItemType)) (f : String) :
    (l.filterMap (fun it => if it.2 = ItemType.File then some it.1 else none)).count f =
      l.count (f, ItemType.File) := by
  induction l with
  | nil => rfl
  | cons it t ih =>
    obtain ⟨p, k⟩ := it
    rw [List.filterMap_cons]
    cases k with
    | File =>
      show List.count f (p :: List.filterMap _ t) = _
      rw [List.count_cons, List.count_cons, ih]
      by_cases hpf : p = f
      · have h1 : ((p : String) == f) = true := by rw [hpf]; exact beq_self_eq_true _
        have h2 : (((p, ItemType.File)) == ((f, ItemType.File))) = true := by
          rw [hpf]; exact beq_self_eq_true _
        rw [h1, h2]
      · have h1 : ((p : String) == f) = false := by
          cases hb : ((p : String) == f)
          · rfl
          · exact absurd (eq_of_beq hb) hpf
        have h2 : (((p, ItemType.File)) == ((f, ItemType.File))) = false := by
          cases hb : (((p, ItemType.File)) == ((f, ItemType.File)))
          · rfl
          · exact absurd (congrArg Prod.fst (eq_of_beq hb)) hpf
        rw [h1, h2]
    | Folder =>
      show List.count f (List.filterMap _ t) = _
      rw [List.count_cons, ih]
      have h2 : (((p, ItemType.Folder)) == ((f, ItemType.File))) = false := by
        cases hb : (((p, ItemType.Folder)) == ((f, ItemType.File)))
        · rfl
        · exact absurd (congrArg Prod.snd (eq_of_beq hb)) (by simp)
      rw [h2]
      simp

theorem perm_of_count_eq {α : Type} [BEq α] [LawfulBEq α] :
    ∀ {l₁ l₂ : List α}, (∀ a, l₁.count a = l₂.count a) → l₁.Perm l₂ := by
  intro l₁
  induction l₁ with
  | nil =>
    intro l₂ h
    cases l₂ with
    | nil => exact List.Perm.refl _
    | cons b t =>
      have hb := h b
      rw [List.count_nil, List.count_cons, beq_self_eq_true] at hb
      simp at hb
  | cons a t ih =>
    intro l₂ h
    have hmem : a ∈ l₂ := by
      apply List.count_pos_iff.mp
      rw [← h a, List.count_cons, beq_self_eq_true]
      simp
    obtain ⟨s, u, rfl⟩ := List.append_of_mem hmem
    have ht : t.Perm (s ++ u) := by
      apply ih
      intro b
      have hb := h b
      rw [List.count_cons, List.count_append, List.count_cons] at hb
      rw [List.count_append]
      omega
    exact (ht.cons a).trans List.perm_middle.symm

theorem count_le_one_of_nodup {α : Type} [BEq α] [LawfulBEq α] :
    ∀ {l : List α}, l.Nodup → ∀ a, l.count a ≤ 1 := by
  intro l
  induction l with
  | nil => intro _ a; rw [List.count_nil]; omega
  | cons b t ih =>
    intro hnd a
    obtain ⟨hbt, hnd2⟩ := List.nodup_cons.mp hnd
    rw [List.count_cons]
    by_cases hba : b = a
    · have h0 : t.count a = 0 := List.count_eq_zero.mpr (hba ▸ hbt)
      rw [h0, (show ((b == a) = true) by rw [hba]; exact beq_self_eq_true _)]
      simp
    · have h1 : (b == a) = false := by
        cases hb : (b == a)
        · rfl
        · exact absurd (eq_of_beq hb) hba
      rw [h1]
      have := ih hnd2 a
      simp
      omega

theorem nodup_of_count_le_one {α : Type} [BEq α] [LawfulBEq α] :
    ∀ {l : List α}, (∀ a, l.count a ≤ 1) → l.Nodup := by
  intro l
  induction l with
  | nil => intro _; exact List.nodup_nil
  | cons b t ih =>
    intro h
    apply List.nodup_cons.mpr
    constructor
    · intro hbt
      have hpos : 0 < t.count b := List.count_pos_iff.mpr hbt
      have hb := h b
      rw [List.count_cons, beq_self_eq_true] at hb
      simp at hb
      omega
    · apply ih
      intro a
      have ha := h a
      rw [List.count_cons] at ha
      have : (if (b == a) = true then 1 else 0) ≥ 0 := by omega
      omega

/-! ## Unmatched files are skipped by the tab loop -/

theorem processFile_unmatched {roots : List String} (st : BuildState) {fp : String}
    (h : matchedRoot roots fp = none) : processFile roots st fp = st := by
  unfold processFile
  rw [h]

theorem buildState_skip_unmatched (roots : List String) {fp : String}
    (h : matchedRoot roots fp = none) (l1 l2 : List String) :
    buildState roots (l1 ++ fp :: l2) = buildState roots (l1 ++ l2) := by
  unfold buildState
  rw [List.foldl_append, List.foldl_append, List.foldl_cons,
    processFile_unmatched _ h]

/-! ## Remaining helpers for the claim theorems -/

theorem find?_parent_eq (flat : List (String × ItemType)) (d : String) :
    flat.find? (fun it => decide (it.2 = ItemType.Folder) && decide (it.1 = d)) =
      (if (d, ItemType.Folder) ∈ flat then some (d, ItemType.Folder) else none) := by
  cases hf : flat.find?
      (fun it => decide (it.2 = ItemType.Folder) && decide (it.1 = d)) with
  | none =>
    rw [if_neg (show ¬ (d, ItemType.Folder) ∈ flat from
      fun hmem => (List.find?_eq_none.mp hf (d, ItemType.Folder) hmem) (by simp))]
  | some el =>
    have hp := List.find?_some hf
    have hmem := List.mem_of_find?_eq_some hf
    have hel : el = (d, ItemType.Folder) := by
      obtain ⟨q, k⟩ := el
      rw [Bool.and_eq_true] at hp
      have h1 : k = ItemType.Folder := of_decide_eq_true hp.1
      have h2 : q = d := of_decide_eq_true hp.2
      rw [h1, h2]
    rw [hel] at hmem
    rw [if_pos hmem, hel]

theorem revealActiveEditor_pending_le (st : SyncState) :
    (revealActiveEditor st).pendingReveals.length ≤ 1 := by
  unfold revealActiveEditor
  by_cases hv : st.visible = false
  · simp [hv]
  · simp [hv]
    cases st.activeUri <;> simp

theorem syncStep_pending_le (st : SyncState) (h : st.pendingReveals.length ≤ 1) :
    ∀ e, (syncStep st e).pendingReveals.length ≤ 1 := by
  obtain ⟨pr, vis, act, rb, rv⟩ := st
  have h2 : pr.length ≤ 1 := h
  intro e
  cases e with
  | setActive u => exact h2
  | requestSync => exact revealActiveEditor_pending_le _
  | fireTimer =>
    cases pr with
    | nil => exact h2
    | cons u rest =>
      have hr : rest.length ≤ 1 := by
        have h3 : (u :: rest).length ≤ 1 := h2
        rw [List.length_cons] at h3
        omega
      cases vis with
      | false => exact hr
      | true => exact hr
  | setVisible b =>
    cases b with
    | true =>
      show (revealActiveEditor ⟨pr, true, act, rb, rv⟩).pendingReveals.length ≤ 1
      exact revealActiveEditor_pending_le _
    | false => exact h2

theorem syncRun_pending_le_aux : ∀ (evs : List SyncEvent) (st : SyncState),
    st.pendingReveals.length ≤ 1 →
    ((evs.foldl syncStep st).pendingReveals).length ≤ 1 := by
  intro evs
  induction evs with
  | nil => intro st h; exact h
  | cons e t ih =>
    intro st h
    rw [List.foldl_cons]
    exact ih _ (syncStep_pending_le st h e)

/-! ## The claims -/

/-- Claim C1, counterexample: when the same file is open as a tab in two
tab groups, its path occurs twice in the open-path list and the build
produces two identical File leaves, so the forest has duplicates and the
`(path, kind)` pairs of one build are not pairwise distinct. -/
theorem duplicate_tab_duplicates_leaf :
    (allItemsFlat ["/r"] ["/r/a.txt", "/r/a.txt"]).count ("/r/a.txt", ItemType.File) = 2
    ∧ ¬ (allItemsFlat ["/r"] ["/r/a.txt", "/r/a.txt"]).Nodup := by
  constructor
  · decide
  · decide

/-- Claim C1, amended: for a duplicate-free open-path list all of whose
paths are visible in the forest (under a recognized root and with a
root-attaching ancestor walk), the File leaves of the build are exactly the
open paths, each exactly once, and no two nodes of the build share a
`(path, kind)` pair.  The original claim fails for a file open in two tab
groups (see the counterexample). -/
theorem openPaths_exactly_once_amended (roots paths : List String)
    (hnd : paths.Nodup) (hvis : ∀ fp ∈ paths, fileVisible roots fp = true) :
    (leafPaths (getOpenEditors roots paths)).Perm paths
    ∧ (allItemsFlat roots paths).Nodup := by
  constructor
  · apply perm_of_count_eq
    intro f
    have h1 : (leafPaths (getOpenEditors roots paths)).count f =
        (allItemsFlat roots paths).count (f, ItemType.File) :=
      filterMap_file_count (allItemsFlat roots paths) f
    rw [h1, allItemsFlat_count_file]
    by_cases hv : fileVisible roots f = true
    · rw [if_pos hv]
    · rw [if_neg hv]
      have hnm : f ∉ paths := fun hf => hv (hvis f hf)
      rw [List.count_eq_zero.mpr hnm]
  · apply nodup_of_count_le_one
    intro it
    obtain ⟨p, k⟩ := it
    cases k with
    | Folder =>
      rw [allItemsFlat_count_folder]
      by_cases hc : p ∈ stKeys (buildState roots paths) ∧ reachesRoot roots p = true
      · rw [if_pos hc]
      · rw [if_neg hc]
        omega
    | File =>
      rw [allItemsFlat_count_file]
      by_cases hv : fileVisible roots p = true
      · rw [if_pos hv]
        exact count_le_one_of_nodup hnd p
      · rw [if_neg hv]
        omega

theorem openPaths_exactly_once_witness :
    (["/r/a.txt", "/r/sub/b.txt"] : List String).Nodup
    ∧ (∀ fp ∈ (["/r/a.txt", "/r/sub/b.txt"] : List String),
        fileVisible ["/r"] fp = true)
    ∧ ((leafPaths (getOpenEditors ["/r"] ["/r/a.txt", "/r/sub/b.txt"])).Perm
        ["/r/a.txt", "/r/sub/b.txt"]
      ∧ (allItemsFlat ["/r"] ["/r/a.txt", "/r/sub/b.txt"]).Nodup) :=
  ⟨by decide, by decide,
    openPaths_exactly_once_amended ["/r"] ["/r/a.txt", "/r/sub/b.txt"]
      (by decide) (by decide)⟩

/-- Claim C2: the build is order-independent — permuting the open-path
sequence (same roots) yields the identical forest, with the same node
identities, parent-child structure and sibling order; in particular the
build is a pure function of the path multiset, so calling it twice on
unchanged input yields identical output. -/
theorem build_order_independent (roots p1 p2 : List String) (hp : p1.Perm p2) :
    getOpenEditors roots p1 = getOpenEditors roots p2 := by
  show sortTreeItems ((buildState roots p1).rootItems.map
      (matEntry (buildState roots p1) (buildState roots p1).folders.length)) =
    sortTreeItems ((buildState roots p2).rootItems.map
      (matEntry (buildState roots p2) (buildState roots p2).folders.length))
  rw [show (buildState roots p2).folders.length =
    (buildState roots p1).folders.length from (keys_length_eq hp).symm]
  unfold sortTreeItems
  exact sorted_map_eq (buildState roots p1) (buildState roots p2)
    (buildState roots p1).folders.length
    (mat_sort_eq _ _ (children_perm hp) _)
    (rootItems_perm hp)

theorem build_order_independent_witness :
    (["/r/b.txt", "/r/a.txt"] : List String).Perm ["/r/a.txt", "/r/b.txt"]
    ∧ getOpenEditors ["/r"] ["/r/b.txt", "/r/a.txt"] =
        getOpenEditors ["/r"] ["/r/a.txt", "/r/b.txt"] :=
  ⟨by decide, build_order_independent ["/r"] _ _ (by decide)⟩

/-- Claim C3: in every build, every sibling group (the root level and each
folder's children) is sorted with folders before files and, within one
kind, ascending by full path; on the spec's example input the children
`[b.txt, A/, a.txt]` come out as `[A/, a.txt, b.txt]`. -/
theorem sibling_sort_order :
    (∀ roots paths,
      List.Pairwise (fun a b => treeLE a b = true) (getOpenEditors roots paths)
      ∧ ∀ t ∈ getOpenEditors roots paths, TreeSorted t)
    ∧ getOpenEditors ["/w"] ["/w/d/b.txt", "/w/d/A/x.txt", "/w/d/a.txt"] =
        [Tree.node "/w/d" ItemType.Folder
          [Tree.node "/w/d/A" ItemType.Folder
            [Tree.node "/w/d/A/x.txt" ItemType.File []],
           Tree.node "/w/d/a.txt" ItemType.File [],
           Tree.node "/w/d/b.txt" ItemType.File []]] := by
  constructor
  · intro roots paths
    exact sortTreeItems_sorted _
  · rfl

theorem sibling_sort_order_witness :
    TreeSorted (Tree.node "/w/d" ItemType.Folder
      [Tree.node "/w/d/A" ItemType.Folder
        [Tree.node "/w/d/A/x.txt" ItemType.File []],
       Tree.node "/w/d/a.txt" ItemType.File [],
       Tree.node "/w/d/b.txt" ItemType.File []]) := by
  have hm : Tree.node "/w/d" ItemType.Folder
      [Tree.node "/w/d/A" ItemType.Folder
        [Tree.node "/w/d/A/x.txt" ItemType.File []],
       Tree.node "/w/d/a.txt" ItemType.File [],
       Tree.node "/w/d/b.txt" ItemType.File []] ∈
      getOpenEditors ["/w"] ["/w/d/b.txt", "/w/d/A/x.txt", "/w/d/a.txt"] := by
    rw [sibling_sort_order.2]
    exact List.mem_singleton.mpr rfl
  exact (sibling_sort_order.1 ["/w"] ["/w/d/b.txt", "/w/d/A/x.txt", "/w/d/a.txt"]).2 _ hm

/-- Claim C4: an open file matching no configured root is skipped by the
tab loop (removing it from the input leaves the entire build state
unchanged), its File node appears in no flat node index, and every folder
attached at the forest's root level matches some root — so a folder
synthesized for an unmatched path is never attached to the root set. -/
theorem unmatched_paths_excluded (roots : List String) (fp : String)
    (h : matchedRoot roots fp = none) :
    (∀ l1 l2, buildState roots (l1 ++ fp :: l2) = buildState roots (l1 ++ l2))
    ∧ (∀ paths, (fp, ItemType.File) ∉ allItemsFlat roots paths)
    ∧ (∀ paths q, Entry.folder q ∈ (buildState roots paths).rootItems →
        (matchedRoot roots q).isSome = true) := by
  refine ⟨fun l1 l2 => buildState_skip_unmatched roots h l1 l2, ?_, ?_⟩
  · intro paths hmem
    have hpos : 0 < (allItemsFlat roots paths).count (fp, ItemType.File) :=
      List.count_pos_iff.mpr hmem
    rw [allItemsFlat_count_file] at hpos
    have hfv : fileVisible roots fp = false := by
      unfold fileVisible isRootFile isNestedVisibleFile
      rw [h]
      rfl
    rw [if_neg (show ¬ fileVisible roots fp = true by rw [hfv]; simp)] at hpos
    omega
  · intro paths q hq
    obtain ⟨hk, hat⟩ := mem_rootFolder_good (buildState_invariant roots paths) hq
    cases hm : matchedRoot roots q with
    | some ws => rfl
    | none =>
      rw [attachTarget_of_unmatched hm] at hat
      exact absurd hat (by simp)

theorem unmatched_paths_excluded_witness :
    matchedRoot ["/r"] "/other/x.txt" = none
    ∧ buildState ["/r"] (["/r/a.txt"] ++ "/other/x.txt" :: []) =
        buildState ["/r"] (["/r/a.txt"] ++ [])
    ∧ ("/other/x.txt", ItemType.File) ∉
        allItemsFlat ["/r"] ["/r/a.txt", "/other/x.txt"] :=
  ⟨by decide,
   (unmatched_paths_excluded ["/r"] "/other/x.txt" (by decide)).1 ["/r/a.txt"] [],
   (unmatched_paths_excluded ["/r"] "/other/x.txt" (by decide)).2.1
     ["/r/a.txt", "/other/x.txt"]⟩

/-- Claim C5: parent lookup over the built flat node index — for a File
node the parent is the Folder item whose path is the file's directory when
the index holds one, else `none`; for a Folder node whose directory is
itself (filesystem root) the parent is `none`, otherwise it is the Folder
item at the directory path when present, else `none`. -/
theorem getParent_lookup (roots paths : List String) (p : String) :
    (getParent (allItemsFlat roots paths) (p, ItemType.File) =
      (if (dirname p, ItemType.Folder) ∈ allItemsFlat roots paths
       then some (dirname p, ItemType.Folder) else none))
    ∧ (dirname p = p →
        getParent (allItemsFlat roots paths) (p, ItemType.Folder) = none)
    ∧ (dirname p ≠ p →
        getParent (allItemsFlat roots paths) (p, ItemType.Folder) =
          (if (dirname p, ItemType.Folder) ∈ allItemsFlat roots paths
           then some (dirname p, ItemType.Folder) else none)) := by
  have hfold : getParent (allItemsFlat roots paths) (p, ItemType.Folder) =
      (if dirname p = p then none
       else (allItemsFlat roots paths).find?
         (fun it => decide (it.2 = ItemType.Folder) && decide (it.1 = dirname p))) := rfl
  refine ⟨?_, ?_, ?_⟩
  · exact find?_parent_eq (allItemsFlat roots paths) (dirname p)
  · intro hd
    rw [hfold, if_pos hd]
  · intro hd
    rw [hfold, if_neg hd]
    exact find?_parent_eq (allItemsFlat roots paths) (dirname p)

theorem getParent_lookup_witness :
    dirname "/r/d" ≠ "/r/d"
    ∧ getParent (allItemsFlat ["/r"] ["/r/d/a.txt"]) ("/r/d", ItemType.Folder) =
        (if ("/r", ItemType.Folder) ∈ allItemsFlat ["/r"] ["/r/d/a.txt"]
         then some ("/r", ItemType.Folder) else none) :=
  ⟨by decide, (getParent_lookup ["/r"] ["/r/d/a.txt"] "/r/d").2.2 (by decide)⟩

/-- Claim C6: the sync controller holds at most one pending reveal timer at
every point of every run, and two sync triggers inside the delay window
supersede each other — after `setActive a, requestSync, setActive b,
requestSync, fireTimer` from any visible state exactly one reveal runs and
it targets `b`, the active file at the time of the second call. -/
theorem reveal_debounce :
    (∀ evs, (syncRun evs).pendingReveals.length ≤ 1)
    ∧ (∀ (st : SyncState) (a b : String), st.visible = true →
        [SyncEvent.setActive (some a), SyncEvent.requestSync,
          SyncEvent.setActive (some b), SyncEvent.requestSync,
          SyncEvent.fireTimer].foldl syncStep st =
          { st with
            activeUri := some b
            rebuilds := st.rebuilds + 2
            pendingReveals := []
            revealed := st.revealed ++ [b] }) := by
  constructor
  · intro evs
    unfold syncRun
    exact syncRun_pending_le_aux evs syncInit (by decide)
  · intro st a b hv
    obtain ⟨pr, vis, act, rb, rv⟩ := st
    have hv2 : vis = true := hv
    subst hv2
    rfl

theorem reveal_debounce_witness :
    ((⟨[], true, none, 0, []⟩ : SyncState).visible = true)
    ∧ [SyncEvent.setActive (some "a"), SyncEvent.requestSync,
        SyncEvent.setActive (some "b"), SyncEvent.requestSync,
        SyncEvent.fireTimer].foldl syncStep (⟨[], true, none, 0, []⟩ : SyncState) =
        (⟨[], true, some "b", 2, ["b"]⟩ : SyncState) :=
  ⟨rfl, reveal_debounce.2 ⟨[], true, none, 0, []⟩ "a" "b" rfl⟩

/-- Claim C7, counterexample: hiding the view does not cancel the pending
reveal timer — after a sync is scheduled while visible, a `setVisible
false` transition leaves the timer scheduled (`pendingReveals` still holds
the captured URI); the hide handler of the source stores the flag and
returns without touching the timer. -/
theorem hide_keeps_pending_timer_cex :
    (syncRun [SyncEvent.setVisible true, SyncEvent.setActive (some "u"),
      SyncEvent.requestSync, SyncEvent.setVisible false]).pendingReveals = ["u"]
    ∧ (syncRun [SyncEvent.setVisible true, SyncEvent.setActive (some "u"),
      SyncEvent.requestSync, SyncEvent.setVisible false]).visible = false := by
  constructor
  · rfl
  · rfl

/-- Claim C7, amended: while hidden, a sync trigger performs no rebuild and
schedules no reveal (it only clears the timer slot); a timer that fires
while hidden performs no reveal; the transition back to visible immediately
runs one rebuild and schedules one reveal for the active file; but the
transition to hidden itself only stores the flag — contrary to the claim it
does not cancel a pending reveal timer (see the counterexample). -/
theorem hide_transition_amended (st : SyncState) :
    (st.visible = false →
      syncStep st SyncEvent.requestSync = { st with pendingReveals := [] })
    ∧ (st.visible = false → ∀ u rest, st.pendingReveals = u :: rest →
        syncStep st SyncEvent.fireTimer = { st with pendingReveals := rest })
    ∧ (∀ a, st.visible = false → st.activeUri = some a →
        syncStep st (SyncEvent.setVisible true) =
          { st with
            visible := true
            pendingReveals := [a]
            rebuilds := st.rebuilds + 1 })
    ∧ (syncStep st (SyncEvent.setVisible false) = { st with visible := false }) := by
  obtain ⟨pr, vis, act, rb, rv⟩ := st
  refine ⟨?_, ?_, ?_, ?_⟩
  · intro hv
    have h2 : vis = false := hv
    subst h2
    rfl
  · intro hv u rest hp
    have h2 : vis = false := hv
    subst h2
    have h3 : pr = u :: rest := hp
    subst h3
    rfl
  · intro a hv ha
    have h2 : vis = false := hv
    subst h2
    have h3 : act = some a := ha
    subst h3
    rfl
  · rfl

theorem hide_transition_witness :
    ((⟨["u"], false, some "a", 3, ["v"]⟩ : SyncState).visible = false)
    ∧ syncStep (⟨["u"], false, some "a", 3, ["v"]⟩ : SyncState)
        SyncEvent.requestSync = (⟨[], false, some "a", 3, ["v"]⟩ : SyncState)
    ∧ syncStep (⟨["u"], false, some "a", 3, ["v"]⟩ : SyncState)
        SyncEvent.fireTimer = (⟨[], false, some "a", 3, ["v"]⟩ : SyncState)
    ∧ syncStep (⟨["u"], false, some "a", 3, ["v"]⟩ : SyncState)
        (SyncEvent.setVisible true) = (⟨["a"], true, some "a", 4, ["v"]⟩ : SyncState) :=
  ⟨rfl,
   (hide_transition_amended _).1 rfl,
   (hide_transition_amended _).2.1 rfl "u" [] rfl,
   (hide_transition_amended _).2.2.1 "a" rfl rfl⟩

/-- Claim C8, counterexample: with roots `/a` and `/ab`, the open file
`/ab/x.txt` has its parent directory exactly equal to the recognized root
`/ab`, yet the file is not attached at the forest's root level — the
first-prefix-match classifier picks `/a`, the ancestor walk caches an
unattached folder, and the forest comes out empty. -/
theorem parent_is_root_shadowed_cex :
    "/ab" ∈ ["/a", "/ab"] ∧ dirname "/ab/x.txt" = "/ab"
    ∧ getOpenEditors ["/a", "/ab"] ["/ab/x.txt"] = []
    ∧ allItemsFlat ["/a", "/ab"] ["/ab/x.txt"] = [] := by
  refine ⟨by decide, by decide, rfl, rfl⟩

/-- Claim C8, amended: when the parent directory of an open file is exactly
the root that the classifier actually matches (the first configured root
whose path prefixes the file), the ancestor chain is empty — no folder is
synthesized for that file — and the loop pushes the File node directly into
the root set, so it appears at the forest's top level.  The original claim
fails when the parent directory is a recognized root other than the first
prefix match (see the counterexample). -/
theorem root_level_file_amended (roots : List String) (fp ws : String)
    (hm : matchedRoot roots fp = some ws) (hd : dirname fp = ws) :
    fileCreates roots fp = []
    ∧ (∀ st, processFile roots st fp = pushRoot st (Entry.file fp))
    ∧ (∀ paths, fp ∈ paths →
        Tree.node fp ItemType.File [] ∈ getOpenEditors roots paths) := by
  refine ⟨?_, ?_, ?_⟩
  · unfold fileCreates
    rw [hm]
    show (if dirname fp = ws then [] else walkChain roots (dirname fp)) = []
    rw [if_pos hd]
  · intro st
    unfold processFile
    rw [hm]
    show (if dirname fp = ws then pushRoot st (Entry.file fp)
      else pushChild (getOrCreateFolderHierarchy roots (dirname fp) st)
        (dirname fp) (Entry.file fp)) = pushRoot st (Entry.file fp)
    rw [if_pos hd]
  · intro paths hfp
    have hroot : isRootFile roots fp = true := by
      unfold isRootFile
      rw [hm]
      show decide (dirname fp = ws) = true
      exact decide_eq_true hd
    have hinv := buildState_invariant roots paths
    have hcount : 0 < (buildState roots paths).rootItems.count (Entry.file fp) := by
      rw [hinv.rootFileCount fp, if_pos hroot]
      exact List.count_pos_iff.mpr hfp
    have hmem : Entry.file fp ∈ (buildState roots paths).rootItems :=
      List.count_pos_iff.mp hcount
    show Tree.node fp ItemType.File [] ∈ sortTreeItems
      ((buildState roots paths).rootItems.map
        (matEntry (buildState roots paths) (buildState roots paths).folders.length))
    unfold sortTreeItems
    apply ((sortList_perm treeLE _).mem_iff).mpr
    rw [sortTrees_eq_map, List.map_map]
    apply List.mem_map.mpr
    refine ⟨Entry.file fp, hmem, ?_⟩
    show sortTree (matEntry (buildState roots paths)
      (buildState roots paths).folders.length (Entry.file fp)) =
        Tree.node fp ItemType.File []
    exact sortTree_matEntry_file _ _ fp

theorem root_level_file_witness :
    matchedRoot ["/r"] "/r/x.txt" = some "/r" ∧ dirname "/r/x.txt" = "/r"
    ∧ fileCreates ["/r"] "/r/x.txt" = []
    ∧ processFile ["/r"] ⟨[], []⟩ "/r/x.txt" = pushRoot ⟨[], []⟩ (Entry.file "/r/x.txt")
    ∧ Tree.node "/r/x.txt" ItemType.File [] ∈ getOpenEditors ["/r"] ["/r/x.txt"] :=
  ⟨by decide, by decide,
   (root_level_file_amended ["/r"] "/r/x.txt" "/r" (by decide) (by decide)).1,
   (root_level_file_amended ["/r"] "/r/x.txt" "/r" (by decide) (by decide)).2.1 ⟨[], []⟩,
   (root_level_file_amended ["/r"] "/r/x.txt" "/r" (by decide) (by decide)).2.2
     ["/r/x.txt"] (by decide)⟩

/-- Claim C9: the drag-drop self-containment test is a bare string-prefix
check, so dragging folder `/w/foo` onto its sibling `/w/foobar` — a folder
that is not inside the source — matches the check, is rejected with the
"into itself" warning for open and closed files alike, and no file-system
move happens. -/
theorem sibling_prefix_false_positive :
    strStartsWith "/w/foobar" "/w/foo" = true
    ∧ dropActionForItem ItemType.Folder "/w/foo" "/w/foobar" true =
        DropOutcome.warnSelfMove
    ∧ dropActionForItem ItemType.Folder "/w/foo" "/w/foobar" false =
        DropOutcome.warnSelfMove
    ∧ pathInsideOrEqual "/w/foo" "/w/foobar" = false
    ∧ "/w/foo" ≠ "/w/foobar" := by
  refine ⟨by decide, by decide, by decide, by decide, by decide⟩

/-- Claim C10: with single root `/w/foo`, the open file `/w/foobar.txt` is
classified as applicable (the root is a string prefix of its path), yet its
parent directory `/w` matches no root: the file's node is parked under a
synthesized folder that is never attached, the forest and flat node index
are empty, and `findItemByUri` returns `none` for the file's URI. -/
theorem prefix_classified_file_invisible :
    matchedRoot ["/w/foo"] "/w/foobar.txt" = some "/w/foo"
    ∧ allItemsFlat ["/w/foo"] ["/w/foobar.txt"] = []
    ∧ findItemByUri (allItemsFlat ["/w/foo"] ["/w/foobar.txt"]) "/w/foobar.txt" = none
    ∧ (buildState ["/w/foo"] ["/w/foobar.txt"]).folders =
        [("/w", [Entry.file "/w/foobar.txt"])]
    ∧ (buildState ["/w/foo"] ["/w/foobar.txt"]).rootItems = [] := by
  refine ⟨by decide, by decide, by decide, by decide, by decide⟩

end NestedOpenEditors
